import Mathlib

/-!
Verification of the bevy-snake core against its specification.

The repository ships the callers of its board module (`ai.rs`, `game.rs`,
`render.rs`, the server and test binaries) together with an older in-tree
game implementation (`main.rs`, `snake.rs`).  The `board` module itself
(`Board`, `Cell`, `Direction`, `BoardEvent`, `tick_board`) is declared in
`lib.rs` but its source file is not part of the source tree we were given,
so the board data model below is modelled from the specification (§3, §4.1)
while every algorithm (`eval_board`, `chose_move`, `cycle_basis`,
`snake_system`, `RandomWalk`) is translated from the Rust source.
-/

namespace BevySnake

/-- 2D integer vector, mirroring bevy's `IVec2` as used by the game. -/
structure IVec2 where
  x : Int
  y : Int
deriving DecidableEq

instance : Add IVec2 := ⟨fun a b => ⟨a.x + b.x, a.y + b.y⟩⟩

/-- The four orthogonal movement directions of the board module
(`Direction` in `snake.rs` and in the board module used by `ai.rs`). -/
inductive Direction where
  | up
  | down
  | left
  | right
deriving DecidableEq

/-- `Direction::ALL`, in enum order `[Up, Down, Left, Right]`
(the order of the `DIR` table in `snake.rs`). -/
def Direction.ALL : List Direction := [.up, .down, .left, .right]

/-- The unit vector of a direction, from the `DIR` table in `snake.rs`:
`[[0, 1], [0, -1], [-1, 0], [1, 0]]`. -/
def Direction.asVec2 : Direction → IVec2
  | .up => ⟨0, 1⟩
  | .down => ⟨0, -1⟩
  | .left => ⟨-1, 0⟩
  | .right => ⟨1, 0⟩

/-- `Direction::opposite`, the exact reverse direction. -/
def Direction.opposite : Direction → Direction
  | .up => .down
  | .down => .up
  | .left => .right
  | .right => .left

/-- Modelled from the spec (§3, the board module is missing from the
source tree): a cell classification.  `snake id part` is the spec's
`AgentSegment{agent_id, segment_index}` with index 0 = tail; the
resource metadata carried by `Cell::Apple { .. }` is irrelevant to
every claim and is omitted. -/
inductive Cell where
  | empty
  | apple
  | wall
  | snake (id : Nat) (part : Nat)
deriving DecidableEq

/-- Modelled from the spec (§3): an agent of the board module as read by
`ai.rs` — `parts` ordered from tail to head, a cached `head` coordinate
and a facing direction. -/
structure SnakeB where
  parts : List IVec2
  head : IVec2
  dir : Direction
deriving DecidableEq

/-- Modelled from the spec (§3): the board state read by the AI.  Agents
are keyed by their stable numeric id; the association list is kept in
ascending id order, resolving the iteration-order nondeterminism of the
Rust `HashMap` in favour of the spec's stable keying. -/
structure Board where
  width : Nat
  height : Nat
  snakes : List (Nat × SnakeB)
  apples : List IVec2
  walls : List IVec2
deriving DecidableEq

/-- Modelled from the spec (§3): a coordinate is on the board iff it lies
in `[0,width) × [0,height)`. -/
def Board.inBounds (b : Board) (pos : IVec2) : Bool :=
  0 ≤ pos.x && pos.x < (b.width : Int) && 0 ≤ pos.y && pos.y < (b.height : Int)

/-- First agent segment found at a coordinate: agents in key order, the
parts of each agent scanned from tail (index 0) to head. -/
def findSnakeSeg : List (Nat × SnakeB) → IVec2 → Option (Nat × Nat)
  | [], _ => none
  | (id, s) :: rest, pos =>
    if pos ∈ s.parts then some (id, s.parts.indexOf pos) else findSnakeSeg rest pos

/-- Modelled from the spec (§3): the classification of an in-bounds cell. -/
def Board.cellAt (b : Board) (pos : IVec2) : Cell :=
  match findSnakeSeg b.snakes pos with
  | some (id, i) => .snake id i
  | none =>
    if pos ∈ b.apples then .apple
    else if pos ∈ b.walls then .wall
    else .empty

/-- Modelled from the spec (§4.1): `classify(coord) -> Result<Cell, OutOfBounds>`
(`Board::get` as used by `ai.rs`); lookups outside bounds fail explicitly. -/
def Board.get (b : Board) (pos : IVec2) : Except Unit Cell :=
  if b.inBounds pos then .ok (b.cellAt pos) else .error ()

/-- Modelled from the spec (§4.1): `iterate_cells`, the finite sequence of
all (coordinate, classification) pairs (`Board::cells` in `ai.rs`). -/
def Board.cells (b : Board) : List (IVec2 × Cell) :=
  (List.range b.width).flatMap fun (x : Nat) =>
    (List.range b.height).map fun (y : Nat) =>
      (⟨(x : Int), (y : Int)⟩, b.cellAt ⟨(x : Int), (y : Int)⟩)

/-- A cell the flood fill may pass through: in bounds and classified
`Empty` or `Apple` (the `Ok(Cell::Empty | Cell::Apple { .. })` pattern). -/
def Board.isFree (b : Board) (pos : IVec2) : Bool :=
  match b.get pos with
  | .ok .empty => true
  | .ok .apple => true
  | _ => false

/-- The cell holding the designated agent's tail segment: the flood fill
in `eval_board` matches `Ok(Cell::Snake { id: 0, part: 0 })`. -/
def Board.isTailCell (b : Board) (pos : IVec2) : Bool :=
  match b.get pos with
  | .ok (.snake 0 0) => true
  | _ => false

/-- `BAD_SCORE` from `ai.rs`. -/
def badScore : ℚ := -1000

/-- One neighbour examination of the flood fill in `eval_board`
(`ai.rs` lines 412–430): skip already-visited coordinates, record the
coordinate as visited, enqueue it when free, and set `found_tail` when it
is the designated agent's tail segment. -/
def scanNeighbor (b : Board) (pos : IVec2) (st : List IVec2 × List IVec2 × Bool)
    (dir : Direction) : List IVec2 × List IVec2 × Bool :=
  let next := pos + dir.asVec2
  if next ∈ st.2.1 then st
  else
    let visited := next :: st.2.1
    if b.isFree next then (st.1 ++ [next], visited, st.2.2)
    else if b.isTailCell next then (st.1, visited, true)
    else (st.1, visited, st.2.2)

/-- The `while let Some(pos) = queue.pop_front()` flood-fill loop of
`eval_board` (`ai.rs` lines 411–436).  The state is the queue, the
visited set (as a duplicate-free list) and the `found_tail` flag; after
each popped coordinate the visited-cell cap is tested.  The fuel argument
only bounds the recursion; `eval_board` passes enough fuel for the loop
to run to completion exactly as in the source (the invariant lemma
`floodLoop_inv` shows the fuel bound is never the reason the loop
stops). -/
def floodLoop (b : Board) (maxSearch : Nat) :
    Nat → List IVec2 → List IVec2 → Bool → List IVec2 × Bool
  | 0, _, visited, foundTail => (visited, foundTail)
  | _ + 1, [], visited, foundTail => (visited, foundTail)
  | fuel + 1, pos :: queue, visited, foundTail =>
    let st := Direction.ALL.foldl (scanNeighbor b pos) (queue, visited, foundTail)
    if maxSearch ≤ st.2.1.length then (st.2.1, true)
    else floodLoop b maxSearch fuel st.1 st.2.1 st.2.2

/-- An isolated pocket in the hole scan of `eval_board` (`ai.rs` lines
444–457): a free cell none of whose four orthogonal neighbours is free. -/
def Board.isPocket (b : Board) (pos : IVec2) : Bool :=
  b.isFree pos && Direction.ALL.all fun dir => !b.isFree (pos + dir.asVec2)

/-- The hole-score fold of `eval_board`: start at 1.0 and halve once per
isolated pocket encountered while scanning `board.cells()`. -/
def Board.holeScore (b : Board) : ℚ :=
  b.cells.foldl (fun h pc => if b.isPocket pc.1 then h / 2 else h) 1

/-- Number of isolated pockets on the board. -/
def Board.pocketCount (b : Board) : Nat :=
  (b.cells.filter fun pc => b.isPocket pc.1).length

/-- `TreeSearch::eval_board` (`ai.rs` lines 394–462), with scores embedded
as rationals.  If no agent remains the death penalty plus the accumulated
apple score is returned; otherwise a capped flood fill runs from the head
of the first agent in key order, an untouched `found_tail` yields the
death penalty plus apple score, and otherwise the score is the flood-fill
fraction plus twice the apple score plus twice the hole score.  (The
advisory gizmo output of the source has no effect on the returned value
and is omitted.) -/
def evalBoard (b : Board) (appleScore : ℚ) : ℚ :=
  match b.snakes with
  | [] => badScore + appleScore
  | (_, s) :: _ =>
    let maxSearch := s.parts.length * 2
    let res := floodLoop b maxSearch (b.width * b.height + 1) [s.head] [s.head] false
    let floodFill : ℚ := ((min res.1.length maxSearch : Nat) : ℚ) / (maxSearch : ℚ)
    if !res.2 then badScore + appleScore
    else floodFill + appleScore * 2 + b.holeScore * 2

/-- Modelled from the spec (§3, the board module is missing from the
source tree): the per-tick event log entries.  `appleEaten` is the spec's
`ResourceConsumed{agent_id}` (`BoardEvent::AppleEaten { snake }` in
`ai.rs`), `snakeDamaged`/`snakeDied` the damage and elimination events,
`gameOver` the terminal event. -/
inductive BoardEvent where
  | appleEaten (snake : Nat)
  | snakeDamaged (snake : Nat) (part : Nat)
  | snakeDied (snake : Nat)
  | gameOver
deriving DecidableEq

/-- The per-tick event fold of `TreeSearch::chose_move` (`ai.rs` lines
322–336): add `1 / (depth + 1)` to the running score for every
`AppleEaten` event of agent 0, record whether `GameOver` occurred, and
ignore everything else. -/
def processEvents (depth : Nat) (score : ℚ) (events : List BoardEvent) : ℚ × Bool :=
  events.foldl
    (fun sg e =>
      match e with
      | .appleEaten s => if s = 0 then (sg.1 + 1 / ((depth : ℚ) + 1), sg.2) else sg
      | .gameOver => (sg.1, true)
      | _ => sg)
    (score, false)

theorem processEvents_fold (depth : Nat) (events : List BoardEvent) :
    ∀ init : ℚ × Bool,
      (events.foldl
        (fun sg e =>
          match e with
          | BoardEvent.appleEaten s => if s = 0 then (sg.1 + 1 / ((depth : ℚ) + 1), sg.2) else sg
          | BoardEvent.gameOver => (sg.1, true)
          | _ => sg)
        init).1
      = init.1 + (events.count (BoardEvent.appleEaten 0)) * (1 / ((depth : ℚ) + 1)) := by
  induction events with
  | nil => intro init; simp
  | cons e rest ih =>
    intro init
    match e with
    | BoardEvent.appleEaten s =>
      by_cases hs : s = 0
      · subst hs
        simp only [List.foldl_cons, if_pos rfl, ih, List.count_cons_self]
        push_cast
        ring
      · have hne : BoardEvent.appleEaten 0 ≠ BoardEvent.appleEaten s := by
          intro h; exact hs (by cases h; rfl)
        simp only [List.foldl_cons, if_neg hs, ih, List.count_cons_of_ne hne]
    | BoardEvent.snakeDamaged s p =>
      have hne : BoardEvent.appleEaten 0 ≠ BoardEvent.snakeDamaged s p := by
        intro h; cases h
      simp only [List.foldl_cons, ih, List.count_cons_of_ne hne]
    | BoardEvent.snakeDied s =>
      have hne : BoardEvent.appleEaten 0 ≠ BoardEvent.snakeDied s := by
        intro h; cases h
      simp only [List.foldl_cons, ih, List.count_cons_of_ne hne]
    | BoardEvent.gameOver =>
      have hne : BoardEvent.appleEaten 0 ≠ BoardEvent.gameOver := by
        intro h; cases h
      simp only [List.foldl_cons, ih, List.count_cons_of_ne hne]

/-- The coordinates of all board cells. -/
def Board.coords (b : Board) : List IVec2 := b.cells.map Prod.fst

/-- Number of free, not yet visited cells: together with the queue length
this bounds the number of remaining flood-fill iterations. -/
def euv (b : Board) (v : List IVec2) : Nat :=
  b.coords.countP fun p => b.isFree p && !decide (p ∈ v)

theorem countP_lt_of_mem {α : Type} {l : List α} {p q : α → Bool}
    (hmono : ∀ a ∈ l, q a = true → p a = true) {x : α} (hx : x ∈ l)
    (hp : p x = true) (hq : q x = false) : l.countP q < l.countP p := by
  induction l with
  | nil => cases hx
  | cons a t ih =>
    rw [List.countP_cons, List.countP_cons]
    rcases List.mem_cons.1 hx with rfl | hxt
    · rw [hp, hq, if_pos rfl, if_neg Bool.false_ne_true]
      have hle : t.countP q ≤ t.countP p :=
        List.countP_mono_left fun y hy => hmono y (List.mem_cons_of_mem _ hy)
      omega
    · have ht := ih (fun y hy => hmono y (List.mem_cons_of_mem _ hy)) hxt
      have hif : (if q a = true then 1 else 0) ≤ (if p a = true then 1 else 0) := by
        by_cases hqa : q a = true
        · rw [if_pos hqa, if_pos (hmono a (List.mem_cons_self a t) hqa)]
        · rw [if_neg hqa]
          omega
      omega

theorem mem_coords (b : Board) (p : IVec2) : p ∈ b.coords ↔ b.inBounds p = true := by
  constructor
  · intro hp
    obtain ⟨pc, hpc, hfst⟩ := List.mem_map.1 hp
    obtain ⟨x, hxmem, hin⟩ := List.mem_flatMap.1 hpc
    obtain ⟨y, hymem, hpair⟩ := List.mem_map.1 hin
    rw [List.mem_range] at hxmem hymem
    rw [← hfst, ← hpair]
    simp only [Board.inBounds, Bool.and_eq_true, decide_eq_true_eq]
    refine ⟨⟨⟨?_, ?_⟩, ?_⟩, ?_⟩ <;> omega
  · intro hb
    simp only [Board.inBounds, Bool.and_eq_true, decide_eq_true_eq] at hb
    obtain ⟨⟨⟨hx0, hxw⟩, hy0⟩, hyh⟩ := hb
    have hv : (⟨(p.x.toNat : Int), (p.y.toNat : Int)⟩ : IVec2) = p := by
      obtain ⟨px, py⟩ := p
      dsimp only at hx0 hxw hy0 hyh ⊢
      congr 1 <;> omega
    refine List.mem_map.2 ⟨(p, b.cellAt p), ?_, rfl⟩
    refine List.mem_flatMap.2 ⟨p.x.toNat, List.mem_range.2 (by omega), ?_⟩
    refine List.mem_map.2 ⟨p.y.toNat, List.mem_range.2 (by omega), ?_⟩
    rw [hv]

theorem euv_cons_le (b : Board) (v : List IVec2) (x : IVec2) :
    euv b (x :: v) ≤ euv b v := by
  refine List.countP_mono_left fun a _ h => ?_
  simp only [Bool.and_eq_true, Bool.not_eq_true', decide_eq_false_iff_not,
    List.mem_cons] at h ⊢
  exact ⟨h.1, fun hav => h.2 (Or.inr hav)⟩

theorem euv_cons_lt (b : Board) (v : List IVec2) (x : IVec2)
    (hf : b.isFree x = true) (hx : x ∉ v) : euv b (x :: v) < euv b v := by
  have hxc : x ∈ b.coords := by
    rw [mem_coords]
    unfold Board.isFree at hf
    unfold Board.get at hf
    by_cases hb : b.inBounds x = true
    · exact hb
    · simp [hb] at hf
  refine countP_lt_of_mem ?_ hxc ?_ ?_
  · intro a _ h
    simp only [Bool.and_eq_true, Bool.not_eq_true', decide_eq_false_iff_not,
      List.mem_cons] at h ⊢
    exact ⟨h.1, fun hav => h.2 (Or.inr hav)⟩
  · simp [hf, hx]
  · simp

theorem isFree_isTailCell (b : Board) (p : IVec2) (h : b.isFree p = true) :
    b.isTailCell p = false := by
  unfold Board.isFree at h
  unfold Board.isTailCell
  cases hg : b.get p with
  | error e => rw [hg] at h
  | ok c =>
    rw [hg] at h
    cases c with
    | empty => rfl
    | apple => rfl
    | wall => cases h
    | snake id part => cases h

theorem scanNeighbor_inv (b : Board) (h0 pos : IVec2) (dir : Direction)
    (q v : List IVec2) (f : Bool) :
    (scanNeighbor b pos (q, v, f) dir).1.length
        + euv b (scanNeighbor b pos (q, v, f) dir).2.1 ≤ q.length + euv b v ∧
    (f = true → (scanNeighbor b pos (q, v, f) dir).2.2 = true) ∧
    (∀ p ∈ v, p ∈ (scanNeighbor b pos (q, v, f) dir).2.1) ∧
    ((∀ p ∈ v, b.isTailCell p = true → p = h0 ∨ f = true) →
      ∀ p ∈ (scanNeighbor b pos (q, v, f) dir).2.1,
        b.isTailCell p = true → p = h0 ∨ (scanNeighbor b pos (q, v, f) dir).2.2 = true) := by
  simp only [scanNeighbor]
  split_ifs with hm hfree htail
  · exact ⟨Nat.le_refl _, fun h => h, fun p hp => hp, fun h => h⟩
  · refine ⟨?_, fun h => h, fun p hp => List.mem_cons_of_mem _ hp, ?_⟩
    · have := euv_cons_lt b v (pos + dir.asVec2) hfree hm
      simp only [List.length_append, List.length_cons, List.length_nil]
      omega
    · intro hinv p hp htail
      rcases List.mem_cons.1 hp with rfl | hpv
      · rw [isFree_isTailCell b _ hfree] at htail
        cases htail
      · exact hinv p hpv htail
  · have := euv_cons_le b v (pos + dir.asVec2)
    exact ⟨by simp only [List.length_cons]; omega, fun _ => rfl,
      fun p hp => List.mem_cons_of_mem _ hp, fun _ p _ _ => Or.inr rfl⟩
  · have := euv_cons_le b v (pos + dir.asVec2)
    refine ⟨by simp only [List.length_cons]; omega, fun h => h,
      fun p hp => List.mem_cons_of_mem _ hp, ?_⟩
    intro hinv p hp htc
    rcases List.mem_cons.1 hp with rfl | hpv
    · rw [Bool.not_eq_true] at htail
      rw [htail] at htc
      cases htc
    · exact hinv p hpv htc

theorem scanFold_inv (b : Board) (h0 pos : IVec2) (dirs : List Direction) :
    ∀ (q v : List IVec2) (f : Bool),
    (dirs.foldl (scanNeighbor b pos) (q, v, f)).1.length
        + euv b (dirs.foldl (scanNeighbor b pos) (q, v, f)).2.1 ≤ q.length + euv b v ∧
    (f = true → (dirs.foldl (scanNeighbor b pos) (q, v, f)).2.2 = true) ∧
    (∀ p ∈ v, p ∈ (dirs.foldl (scanNeighbor b pos) (q, v, f)).2.1) ∧
    ((∀ p ∈ v, b.isTailCell p = true → p = h0 ∨ f = true) →
      ∀ p ∈ (dirs.foldl (scanNeighbor b pos) (q, v, f)).2.1,
        b.isTailCell p = true → p = h0 ∨
          (dirs.foldl (scanNeighbor b pos) (q, v, f)).2.2 = true) := by
  induction dirs with
  | nil =>
    intro q v f
    exact ⟨Nat.le_refl _, fun h => h, fun p hp => hp, fun h => h⟩
  | cons d ds ih =>
    intro q v f
    obtain ⟨hm1, hf1, hs1, ht1⟩ := scanNeighbor_inv b h0 pos d q v f
    obtain ⟨hm2, hf2, hs2, ht2⟩ := ih (scanNeighbor b pos (q, v, f) d).1
      (scanNeighbor b pos (q, v, f) d).2.1 (scanNeighbor b pos (q, v, f) d).2.2
    have heta : ((scanNeighbor b pos (q, v, f) d).1,
        (scanNeighbor b pos (q, v, f) d).2.1, (scanNeighbor b pos (q, v, f) d).2.2)
        = scanNeighbor b pos (q, v, f) d := rfl
    rw [heta] at hm2 hf2 hs2 ht2
    simp only [List.foldl_cons]
    refine ⟨by omega, fun hf => hf2 (hf1 hf), fun p hp => hs2 p (hs1 p hp),
      fun hinv p hp htail => ht2 (ht1 hinv) p hp htail⟩

theorem floodLoop_inv (b : Board) (cap : Nat) (h0 : IVec2) :
    ∀ (fuel : Nat) (queue visited : List IVec2) (ft : Bool),
      queue.length + euv b visited ≤ fuel →
      (queue = [] → cap ≤ visited.length → ft = true) →
      (∀ p ∈ visited, b.isTailCell p = true → p = h0 ∨ ft = true) →
      (cap ≤ (floodLoop b cap fuel queue visited ft).1.length →
          (floodLoop b cap fuel queue visited ft).2 = true) ∧
      (∀ p ∈ (floodLoop b cap fuel queue visited ft).1,
          b.isTailCell p = true → p = h0 ∨ (floodLoop b cap fuel queue visited ft).2 = true) ∧
      (ft = true → (floodLoop b cap fuel queue visited ft).2 = true) := by
  intro fuel
  induction fuel with
  | zero =>
    intro queue visited ft hfuel hg ht
    have hq : queue = [] := by
      cases queue with
      | nil => rfl
      | cons a t => simp at hfuel
    subst hq
    simp only [floodLoop]
    exact ⟨hg rfl, ht, fun h => h⟩
  | succ fuel ih =>
    intro queue visited ft hfuel hg ht
    cases queue with
    | nil =>
      simp only [floodLoop]
      exact ⟨hg rfl, ht, fun h => h⟩
    | cons pos rest =>
      obtain ⟨hm, hf, hs, htl⟩ := scanFold_inv b h0 pos Direction.ALL rest visited ft
      simp only [floodLoop]
      by_cases hcap :
          cap ≤ (Direction.ALL.foldl (scanNeighbor b pos) (rest, visited, ft)).2.1.length
      · rw [if_pos hcap]
        exact ⟨fun _ => rfl, fun p hp htc => Or.inr rfl, fun _ => rfl⟩
      · rw [if_neg hcap]
        have hfuel2 : (Direction.ALL.foldl (scanNeighbor b pos) (rest, visited, ft)).1.length
            + euv b (Direction.ALL.foldl (scanNeighbor b pos) (rest, visited, ft)).2.1
            ≤ fuel := by
          simp only [List.length_cons] at hfuel
          omega
        have hg2 : (Direction.ALL.foldl (scanNeighbor b pos) (rest, visited, ft)).1 = [] →
            cap ≤ (Direction.ALL.foldl (scanNeighbor b pos) (rest, visited, ft)).2.1.length →
            (Direction.ALL.foldl (scanNeighbor b pos) (rest, visited, ft)).2.2 = true :=
          fun _ hc => absurd hc hcap
        obtain ⟨c1, c2, c3⟩ := ih _ _ _ hfuel2 hg2 (htl ht)
        exact ⟨c1, c2, fun hftt => c3 (hf hftt)⟩

theorem euv_le_area (b : Board) (v : List IVec2) : euv b v ≤ b.width * b.height := by
  have h1 : euv b v ≤ b.coords.length := List.countP_le_length _
  have h2 : b.coords.length = b.width * b.height := by
    simp only [Board.coords, Board.cells, List.length_map, List.length_flatMap,
      List.map_map, Function.comp_def, List.length_range]
    rw [List.map_const']
    simp [List.sum_replicate, smul_eq_mul]
  omega

/-- C5: when the designated agent exists (as the first agent in key
order), `eval_board` runs the breadth-first flood fill from the agent's
head with visited-cell cap `2 × parts.len()`; if the fill's `found_tail`
flag is never set, the returned score is the death penalty plus the apple
score; the flag is set whenever the visited count reaches the cap, and
whenever the fill has visited the cell holding the designated agent's
tail segment (other than the starting head cell). -/
theorem evalBoard_floodFill_spec (b : Board) (appleScore : ℚ) (s : SnakeB)
    (rest : List (Nat × SnakeB)) (hsn : b.snakes = (0, s) :: rest) :
    ((floodLoop b (s.parts.length * 2) (b.width * b.height + 1)
        [s.head] [s.head] false).2 = false →
      evalBoard b appleScore = badScore + appleScore) ∧
    (s.parts.length * 2 ≤ (floodLoop b (s.parts.length * 2) (b.width * b.height + 1)
        [s.head] [s.head] false).1.length →
      (floodLoop b (s.parts.length * 2) (b.width * b.height + 1)
        [s.head] [s.head] false).2 = true) ∧
    (∀ p ∈ (floodLoop b (s.parts.length * 2) (b.width * b.height + 1)
        [s.head] [s.head] false).1,
      b.isTailCell p = true → p ≠ s.head →
      (floodLoop b (s.parts.length * 2) (b.width * b.height + 1)
        [s.head] [s.head] false).2 = true) := by
  have hfuel : ([s.head] : List IVec2).length + euv b [s.head]
      ≤ b.width * b.height + 1 := by
    have := euv_le_area b [s.head]
    simp only [List.length_cons, List.length_nil]
    omega
  have hstart : ∀ p ∈ ([s.head] : List IVec2),
      b.isTailCell p = true → p = s.head ∨ false = true := by
    intro p hp _
    rcases List.mem_cons.1 hp with rfl | hc
    · exact Or.inl rfl
    · cases hc
  obtain ⟨c1, c2, c3⟩ := floodLoop_inv b (s.parts.length * 2) s.head
    (b.width * b.height + 1) [s.head] [s.head] false hfuel
    (fun h => by cases h) hstart
  refine ⟨?_, c1, ?_⟩
  · intro hft
    simp only [evalBoard, hsn]
    rw [hft]
    simp
  · intro p hp htc hne
    rcases c2 p hp htc with rfl | h
    · exact absurd rfl hne
    · exact h

/-- The snake of the C5 witness: head boxed into the corner by walls, the
tail out of reach. -/
def trapSnake : SnakeB := ⟨[⟨2, 2⟩, ⟨2, 1⟩, ⟨0, 0⟩], ⟨0, 0⟩, .down⟩

/-- The board of the C5 witness. -/
def trapBoard : Board := ⟨3, 3, [(0, trapSnake)], [], [⟨1, 0⟩, ⟨0, 1⟩]⟩

/-- Witness for C5: on the trapped board `found_tail` stays false and the
evaluation returns the death penalty plus the apple score. -/
theorem evalBoard_floodFill_spec_witness :
    trapBoard.snakes = (0, trapSnake) :: [] ∧
      evalBoard trapBoard 2 = badScore + 2 :=
  ⟨rfl, (evalBoard_floodFill_spec trapBoard 2 trapSnake [] rfl).1 (by rfl)⟩

theorem foldl_halve (P : IVec2 × Cell → Bool) (l : List (IVec2 × Cell)) :
    ∀ init : ℚ,
      l.foldl (fun h pc => if P pc then h / 2 else h) init
        = init * (1 / 2 : ℚ) ^ l.countP P := by
  induction l with
  | nil => intro init; simp
  | cons a t ih =>
    intro init
    rw [List.foldl_cons, List.countP_cons]
    by_cases hp : P a = true
    · rw [if_pos hp, hp, if_pos rfl, ih, pow_succ]
      ring
    · rw [if_neg hp, ih, if_neg hp, Nat.add_zero]

theorem holeScore_eq (b : Board) :
    b.holeScore = (1 / 2 : ℚ) ^ b.pocketCount := by
  unfold Board.holeScore Board.pocketCount
  rw [foldl_halve, one_mul, ← List.countP_eq_length_filter]

/-- C6: in the non-death branch (`found_tail` set), the hole score of
`eval_board` equals `2 ^ -(number of isolated pockets)` — 1.0 halved once
per isolated pocket — and the returned value is
`flood_fill_ratio + 2 × apple_score + 2 × hole_score`, where the
flood-fill fraction `min(visited, cap) / cap` lies in `[0, 1]`. -/
theorem evalBoard_score_formula (b : Board) (appleScore : ℚ) (sid : Nat) (s : SnakeB)
    (rest : List (Nat × SnakeB)) (hsn : b.snakes = (sid, s) :: rest)
    (hparts : s.parts ≠ [])
    (hft : (floodLoop b (s.parts.length * 2) (b.width * b.height + 1)
        [s.head] [s.head] false).2 = true) :
    b.holeScore = (1 / 2 : ℚ) ^ b.pocketCount ∧
    evalBoard b appleScore
      = ((min (floodLoop b (s.parts.length * 2) (b.width * b.height + 1)
            [s.head] [s.head] false).1.length (s.parts.length * 2) : Nat) : ℚ)
          / ((s.parts.length * 2 : Nat) : ℚ)
        + appleScore * 2 + (1 / 2 : ℚ) ^ b.pocketCount * 2 ∧
    0 ≤ ((min (floodLoop b (s.parts.length * 2) (b.width * b.height + 1)
            [s.head] [s.head] false).1.length (s.parts.length * 2) : Nat) : ℚ)
          / ((s.parts.length * 2 : Nat) : ℚ) ∧
    ((min (floodLoop b (s.parts.length * 2) (b.width * b.height + 1)
            [s.head] [s.head] false).1.length (s.parts.length * 2) : Nat) : ℚ)
          / ((s.parts.length * 2 : Nat) : ℚ) ≤ 1 := by
  have hlen : 0 < s.parts.length := List.length_pos.2 hparts
  have hcap : (0 : ℚ) < ((s.parts.length * 2 : Nat) : ℚ) := by
    have : 0 < s.parts.length * 2 := by omega
    exact_mod_cast this
  refine ⟨holeScore_eq b, ?_, ?_, ?_⟩
  · simp only [evalBoard, hsn]
    rw [hft]
    simp only [Bool.not_true, Bool.false_eq_true, if_false, holeScore_eq]
  · exact div_nonneg (Nat.cast_nonneg _) (le_of_lt hcap)
  · rw [div_le_one hcap]
    exact_mod_cast min_le_right _ _

/-- The snake of the C6 witness. -/
def appleSnake : SnakeB := ⟨[⟨0, 0⟩, ⟨0, 1⟩], ⟨0, 1⟩, .up⟩

/-- The board of the C6 witness. -/
def appleBoard : Board := ⟨3, 3, [(0, appleSnake)], [⟨2, 2⟩], []⟩

/-- Witness for C6 at a concrete board whose flood fill sets `found_tail`. -/
theorem evalBoard_score_formula_witness :
    appleBoard.snakes = (0, appleSnake) :: [] ∧
      appleSnake.parts ≠ [] ∧
      (floodLoop appleBoard (appleSnake.parts.length * 2)
        (appleBoard.width * appleBoard.height + 1)
        [appleSnake.head] [appleSnake.head] false).2 = true ∧
      (appleBoard.holeScore = (1 / 2 : ℚ) ^ appleBoard.pocketCount ∧
        evalBoard appleBoard 1
          = ((min (floodLoop appleBoard (appleSnake.parts.length * 2)
                (appleBoard.width * appleBoard.height + 1)
                [appleSnake.head] [appleSnake.head] false).1.length
                (appleSnake.parts.length * 2) : Nat) : ℚ)
              / ((appleSnake.parts.length * 2 : Nat) : ℚ)
            + 1 * 2 + (1 / 2 : ℚ) ^ appleBoard.pocketCount * 2 ∧
        0 ≤ ((min (floodLoop appleBoard (appleSnake.parts.length * 2)
                (appleBoard.width * appleBoard.height + 1)
                [appleSnake.head] [appleSnake.head] false).1.length
                (appleSnake.parts.length * 2) : Nat) : ℚ)
              / ((appleSnake.parts.length * 2 : Nat) : ℚ) ∧
        ((min (floodLoop appleBoard (appleSnake.parts.length * 2)
                (appleBoard.width * appleBoard.height + 1)
                [appleSnake.head] [appleSnake.head] false).1.length
                (appleSnake.parts.length * 2) : Nat) : ℚ)
              / ((appleSnake.parts.length * 2 : Nat) : ℚ) ≤ 1) :=
  ⟨rfl, by simp [appleSnake], by rfl,
    evalBoard_score_formula appleBoard 1 0 appleSnake [] rfl (by simp [appleSnake]) (by rfl)⟩

/-- `RandomWalk::chose_move` (`ai.rs` lines 74–89).  The shuffled
direction order produced by `dir.shuffle(&mut rand::thread_rng())` is
passed in as the parameter `perm`; the function returns the first
direction of `perm` whose neighbouring cell from agent 0's head is
`Empty` or `Apple`, and fails when agent 0 is absent or no direction
qualifies. -/
def randomWalkChoseMove (perm : List Direction) (b : Board) : Except Unit Direction :=
  match List.lookup 0 b.snakes with
  | none => .error ()
  | some s =>
    match perm.find? (fun d => b.isFree (s.head + d.asVec2)) with
    | some d => .ok d
    | none => .error ()

/-- C9: `RandomWalk::chose_move` returns `Ok(d)` only if the cell
adjacent to agent 0's head in direction `d` is an `Empty` or `Apple`
cell, and returns `Err` exactly when agent 0 is absent or none of the
four orthogonal neighbours of agent 0's head is `Empty` or `Apple` —
for every shuffle outcome `perm` of the four directions. -/
theorem randomWalk_spec (perm : List Direction) (b : Board)
    (hperm : perm.Perm Direction.ALL) :
    (∀ d, randomWalkChoseMove perm b = .ok d →
        ∃ s, List.lookup 0 b.snakes = some s ∧ b.isFree (s.head + d.asVec2) = true) ∧
    (randomWalkChoseMove perm b = .error () ↔
      (List.lookup 0 b.snakes = none ∨
        ∀ s, List.lookup 0 b.snakes = some s →
          ∀ d ∈ Direction.ALL, b.isFree (s.head + d.asVec2) = false)) := by
  cases hlk : List.lookup 0 b.snakes with
  | none =>
    have hr : randomWalkChoseMove perm b = .error () := by
      unfold randomWalkChoseMove
      rw [hlk]
    rw [hr]
    constructor
    · intro d h
      cases h
    · simp
  | some s =>
    cases hf : perm.find? (fun d => b.isFree (s.head + d.asVec2)) with
    | some d =>
      have hr : randomWalkChoseMove perm b = .ok d := by
        unfold randomWalkChoseMove
        rw [hlk]
        simp only [hf]
      have hd : b.isFree (s.head + d.asVec2) = true := by
        simpa using List.find?_some hf
      rw [hr]
      refine ⟨fun d2 h => ?_, ?_⟩
      · cases h
        exact ⟨s, rfl, hd⟩
      · constructor
        · intro h
          cases h
        · rintro (h | h)
          · cases h
          · have hmem : d ∈ Direction.ALL :=
              hperm.mem_iff.1 (List.mem_of_find?_eq_some hf)
            rw [h s rfl d hmem] at hd
            cases hd
    | none =>
      have hr : randomWalkChoseMove perm b = .error () := by
        unfold randomWalkChoseMove
        rw [hlk]
        simp only [hf]
      rw [hr]
      refine ⟨fun d h => ?_, ?_⟩
      · cases h
      constructor
      · intro _
        refine Or.inr fun s2 hs2 d hd => ?_
        have hs2s : s2 = s := by
          cases hs2
          rfl
        subst hs2s
        have := List.find?_eq_none.1 hf d (hperm.mem_iff.2 hd)
        simpa using this
      · intro _
        rfl

/-- The board of the C9 witness: agent 0 in the corner with two free
neighbours. -/
def rwBoard : Board := ⟨3, 3, [(0, appleSnake)], [], []⟩

/-- Witness for C9 at a concrete shuffle outcome and board. -/
theorem randomWalk_spec_witness :
    ([Direction.down, Direction.left, Direction.up, Direction.right] : List Direction).Perm
        Direction.ALL ∧
      ((∀ d, randomWalkChoseMove [Direction.down, Direction.left, Direction.up,
            Direction.right] rwBoard = .ok d →
          ∃ s, List.lookup 0 rwBoard.snakes = some s ∧
            rwBoard.isFree (s.head + d.asVec2) = true) ∧
        (randomWalkChoseMove [Direction.down, Direction.left, Direction.up,
            Direction.right] rwBoard = .error () ↔
          (List.lookup 0 rwBoard.snakes = none ∨
            ∀ s, List.lookup 0 rwBoard.snakes = some s →
              ∀ d ∈ Direction.ALL, rwBoard.isFree (s.head + d.asVec2) = false))) :=
  ⟨by decide,
    randomWalk_spec [Direction.down, Direction.left, Direction.up, Direction.right]
      rwBoard (by decide)⟩

/-- C4: for every expanded state at depth `depth` and every speculative
tick, the running branch score grows by exactly `1 / (depth + 1)` per
`ResourceConsumed` (`AppleEaten`) event of the designated agent 0
observed in that tick, and is unchanged by consumption events of any
other agent: the post-fold score is the pre-fold score plus the number of
agent-0 consumption events times `1 / (depth + 1)`. -/
theorem treeSearch_score_update (depth : Nat) (score : ℚ) (events : List BoardEvent) :
    (processEvents depth score events).1
      = score + (events.count (BoardEvent.appleEaten 0)) * (1 / ((depth : ℚ) + 1)) := by
  exact processEvents_fold depth events (score, false)

/-- A board on which the designated agent 0 is dead but agent 1 is still
alive: agent 1 occupies cells (0,0) and (0,1) of a 3×3 board. -/
def deadZeroBoard : Board :=
  ⟨3, 3, [(1, ⟨[⟨0, 0⟩, ⟨0, 1⟩], ⟨0, 1⟩, Direction.up⟩)], [], []⟩

/-- C7 counterexample: on a board where the designated agent (id 0) no
longer exists but another agent remains, `eval_board` does not return the
death penalty plus apple score — it evaluates the first remaining agent
instead (the source only tests `snakes.len() == 0`). -/
theorem evalBoard_death_penalty_cex :
    List.lookup 0 deadZeroBoard.snakes = none ∧
      evalBoard deadZeroBoard 0 ≠ badScore + 0 := by
  refine ⟨rfl, ?_⟩
  have hf : floodLoop deadZeroBoard 4 10 [⟨0, 1⟩] [⟨0, 1⟩] false
      = ([⟨1, 1⟩, ⟨-1, 1⟩, ⟨0, 0⟩, ⟨0, 2⟩, ⟨0, 1⟩], true) := by rfl
  have hh : deadZeroBoard.holeScore = 1 := by rfl
  have hm : min (5 : Nat) 4 = 4 := by rfl
  simp only [deadZeroBoard] at hf hh ⊢
  norm_num [evalBoard, badScore, hf, hh, hm]

/-- C7 (amended): for every evaluated board on which no agent remains at
all, `eval_board` returns the large fixed negative penalty plus the
accumulated apple score. -/
theorem evalBoard_death_penalty (b : Board) (appleScore : ℚ)
    (h : b.snakes = []) : evalBoard b appleScore = badScore + appleScore := by
  unfold evalBoard
  rw [h]

/-- Witness for C7 at a concrete agent-free board. -/
theorem evalBoard_death_penalty_witness :
    (⟨3, 3, [], [], []⟩ : Board).snakes = [] ∧
      evalBoard ⟨3, 3, [], [], []⟩ 5 = badScore + 5 :=
  ⟨rfl, evalBoard_death_penalty ⟨3, 3, [], [], []⟩ 5 rfl⟩

/-- One explored search state of `TreeSearch::chose_move` (`ai.rs` lines
278–283, `struct BoardEval`): the board clone, the accumulated score, the
search depth and the move history from the root. -/
structure BoardEval where
  board : Board
  score : ℚ
  depth : Nat
  history : List Direction
deriving DecidableEq

/-- One speculative tick of the expansion (`ai.rs` lines 315–343): clone
the board, advance it with `dir` supplied for the designated agent, fold
the events into the running score and record whether `GameOver` occurred.
The source's reseeding of the clone's RNG and the tick itself are
abstracted by the `tick` parameter, since the board module's `tick_board`
is not part of the source tree. -/
def mkChild (tick : Board → Direction → Board × List BoardEvent)
    (be : BoardEval) (dir : Direction) : BoardEval × Bool :=
  let t := tick be.board dir
  let sg := processEvents be.depth be.score t.2
  (⟨t.1, sg.1, be.depth + 1, be.history ++ [dir]⟩, sg.2)

/-- The `for dir in Direction::ALL` body of the expansion (`ai.rs` lines
310–350): each direction other than the exact reverse of the designated
agent's current direction yields a child; the child joins the final set
when `GameOver` occurred or the parent depth equals `max_depth`, and the
queue otherwise, in direction order. -/
def expandState (tick : Board → Direction → Board × List BoardEvent)
    (maxDepth : Nat) (be : BoardEval) (sdir : Direction) :
    List BoardEval × List BoardEval :=
  let children :=
    (Direction.ALL.filter fun d => !decide (d = sdir.opposite)).map (mkChild tick be)
  ((children.filter fun c => !(c.2 || decide (be.depth = maxDepth))).map Prod.fst,
    (children.filter fun c => c.2 || decide (be.depth = maxDepth)).map Prod.fst)

/-- The breadth-first expansion loop of `TreeSearch::chose_move` (`ai.rs`
lines 296–356).  `timeout iter` abstracts the wall-clock test
`start_time.elapsed() > self.max_time` sampled at the end of iteration
`iter`; as in the source, a popped state without the designated agent is
skipped with `continue`, bypassing that test, and on timeout the whole
remaining queue joins the final set.  The fuel argument only bounds the
recursion; `chose_move` passes enough for the loop to drain the queue. -/
def searchLoop (tick : Board → Direction → Board × List BoardEvent) (maxDepth : Nat)
    (timeout : Nat → Bool) :
    Nat → Nat → List BoardEval → List BoardEval → List BoardEval
  | 0, _, _, finals => finals
  | _ + 1, _, [], finals => finals
  | fuel + 1, iter, be :: queue, finals =>
    match List.lookup 0 be.board.snakes with
    | none => searchLoop tick maxDepth timeout fuel (iter + 1) queue finals
    | some s =>
      let qf := expandState tick maxDepth be s.dir
      if timeout iter then (finals ++ qf.2) ++ (queue ++ qf.1)
      else searchLoop tick maxDepth timeout fuel (iter + 1) (queue ++ qf.1) (finals ++ qf.2)

/-- The final states produced by the search from the root board (queue
seeded with the live board at score 0, depth 0, empty history). -/
def searchFinals (tick : Board → Direction → Board × List BoardEvent) (maxDepth : Nat)
    (timeout : Nat → Bool) (b : Board) : List BoardEval :=
  searchLoop tick maxDepth timeout (4 ^ (maxDepth + 1)) 0 [⟨b, 0, 0, []⟩] []

/-- The leaf re-scoring pass of `chose_move` (`ai.rs` lines 358–370):
every final state's score is replaced by `eval_board` of its board and
accumulated apple score (`eval_board` never returns `Err`, so the `?`
cannot fail). -/
def reEval (be : BoardEval) : BoardEval :=
  ⟨be.board, evalBoard be.board be.score, be.depth, be.history⟩

/-- The final states after leaf evaluation. -/
def mappedFinals (tick : Board → Direction → Board × List BoardEvent) (maxDepth : Nat)
    (timeout : Nat → Bool) (b : Board) : List BoardEval :=
  (searchFinals tick maxDepth timeout b).map reEval

/-- One step of Rust's `Iterator::max_by` fold: keep the new element on
ties, so the last maximal element wins. -/
def maxStep (a c : BoardEval) : BoardEval := if a.score ≤ c.score then c else a

/-- `final_boards.into_iter().max_by(...)` (`ai.rs` lines 372–375). -/
def maxByLastScore : List BoardEval → Option BoardEval
  | [] => none
  | a :: rest => some (rest.foldl maxStep a)

/-- The outcome of `chose_move`: a chosen direction, the `Err(())` of the
source, or a panic of one of its `unwrap()` calls. -/
inductive MoveOutcome where
  | ok (d : Direction)
  | err
  | panic
deriving DecidableEq

/-- `TreeSearch::chose_move` (`ai.rs` lines 145–388) over the abstract
tick function and timeout oracle: fail when the designated agent is
missing from the root, search, re-score the final states, pick the
max-score state (last one on ties) and return the first move of its
history — a panic if that history were empty.  The cycle-basis debug
block of the source (lines 208–273) only feeds the advisory gizmo sink
and its results are otherwise discarded, so it is omitted. -/
def choseMove (tick : Board → Direction → Board × List BoardEvent) (maxDepth : Nat)
    (timeout : Nat → Bool) (b : Board) : MoveOutcome :=
  match List.lookup 0 b.snakes with
  | none => .err
  | some _ =>
    match maxByLastScore (mappedFinals tick maxDepth timeout b) with
    | none => .err
    | some mb =>
      match mb.history with
      | [] => .panic
      | d :: _ => .ok d

/-- A final state of maximal score that is the last such state in the
list: everything scores at most `m.score` and everything strictly after
`m` scores strictly less. -/
def IsLastMax (l : List BoardEval) (m : BoardEval) : Prop :=
  ∃ l1 l2, l = l1 ++ m :: l2 ∧ (∀ x ∈ l, x.score ≤ m.score) ∧
    ∀ x ∈ l2, x.score < m.score

theorem foldl_maxStep_isLastMax (l : List BoardEval) :
    ∀ a : BoardEval, IsLastMax (a :: l) (l.foldl maxStep a) := by
  induction l with
  | nil =>
    intro a
    refine ⟨[], [], rfl, ?_, ?_⟩
    · intro x hx
      rcases List.mem_singleton.1 hx with rfl
      exact le_refl _
    · intro x hx
      cases hx
  | cons c t ih =>
    intro a
    rw [List.foldl_cons]
    by_cases hac : a.score ≤ c.score
    · rw [show maxStep a c = c from if_pos hac]
      obtain ⟨l1, l2, heq, hall, hlt⟩ := ih c
      refine ⟨a :: l1, l2, ?_, ?_, hlt⟩
      · rw [List.cons_append, ← heq]
      · intro x hx
        rcases List.mem_cons.1 hx with rfl | hx2
        · exact le_trans hac (hall c (List.mem_cons_self c t))
        · exact hall x hx2
    · rw [show maxStep a c = a from if_neg hac]
      obtain ⟨l1, l2, heq, hall, hlt⟩ := ih a
      cases l1 with
      | nil =>
        simp only [List.nil_append] at heq
        injection heq with h1 h2
        refine ⟨[], c :: t, ?_, ?_, ?_⟩
        · rw [List.nil_append, ← h1]
        · intro x hx
          rcases List.mem_cons.1 hx with rfl | hx2
          · exact hall x (List.mem_cons_self _ _)
          rcases List.mem_cons.1 hx2 with rfl | hx3
          · exact le_trans (le_of_lt (not_le.1 hac)) (hall a (List.mem_cons_self _ _))
          · exact hall x (List.mem_cons_of_mem _ hx3)
        · intro x hx
          rcases List.mem_cons.1 hx with rfl | hx3
          · rw [← h1]
            exact not_le.1 hac
          · exact hlt x (h2 ▸ hx3)
      | cons a1 l1t =>
        rw [List.cons_append] at heq
        injection heq with h1 h2
        refine ⟨a :: c :: l1t, l2, ?_, ?_, hlt⟩
        · rw [List.cons_append, List.cons_append, ← h2]
        · intro x hx
          rcases List.mem_cons.1 hx with rfl | hx2
          · exact hall x (List.mem_cons_self _ _)
          rcases List.mem_cons.1 hx2 with rfl | hx3
          · exact le_trans (le_of_lt (not_le.1 hac)) (hall a (List.mem_cons_self _ _))
          · exact hall x (List.mem_cons_of_mem _ hx3)

theorem IsLastMax.mem {l : List BoardEval} {m : BoardEval}
    (h : IsLastMax l m) : m ∈ l := by
  obtain ⟨l1, l2, heq, _, _⟩ := h
  rw [heq]
  exact List.mem_append.2 (Or.inr (List.mem_cons_self _ _))

theorem expandState_history (tick : Board → Direction → Board × List BoardEvent)
    (maxDepth : Nat) (be : BoardEval) (sdir : Direction) :
    (∀ c ∈ (expandState tick maxDepth be sdir).1, c.history ≠ []) ∧
    (∀ c ∈ (expandState tick maxDepth be sdir).2, c.history ≠ []) := by
  constructor <;>
  · intro c hc
    simp only [expandState] at hc
    obtain ⟨pair, hpair, rfl⟩ := List.mem_map.1 hc
    obtain ⟨d, _, rfl⟩ := List.mem_map.1 (List.mem_filter.1 hpair).1
    simp [mkChild]

theorem searchLoop_history (tick : Board → Direction → Board × List BoardEvent)
    (maxDepth : Nat) (timeout : Nat → Bool) :
    ∀ (fuel iter : Nat) (queue finals : List BoardEval),
      (∀ e ∈ queue, e.history ≠ []) → (∀ e ∈ finals, e.history ≠ []) →
      ∀ e ∈ searchLoop tick maxDepth timeout fuel iter queue finals,
        e.history ≠ [] := by
  intro fuel
  induction fuel with
  | zero =>
    intro iter queue finals hq hf e he
    cases queue <;> exact hf e he
  | succ fuel ih =>
    intro iter queue finals hq hf e he
    cases queue with
    | nil =>
      simp only [searchLoop] at he
      exact hf e he
    | cons be rest =>
      simp only [searchLoop] at he
      rcases hlk : List.lookup 0 be.board.snakes with _ | s
      · simp only [hlk] at he
        exact ih (iter + 1) rest finals
          (fun x hx => hq x (List.mem_cons_of_mem _ hx)) hf e he
      · simp only [hlk] at he
        obtain ⟨hq1, hq2⟩ := expandState_history tick maxDepth be s.dir
        have hqext : ∀ x ∈ rest ++ (expandState tick maxDepth be s.dir).1,
            x.history ≠ [] := by
          intro x hx
          rcases List.mem_append.1 hx with hx2 | hx2
          · exact hq x (List.mem_cons_of_mem _ hx2)
          · exact hq1 x hx2
        have hfext : ∀ x ∈ finals ++ (expandState tick maxDepth be s.dir).2,
            x.history ≠ [] := by
          intro x hx
          rcases List.mem_append.1 hx with hx2 | hx2
          · exact hf x hx2
          · exact hq2 x hx2
        by_cases ht : timeout iter = true
        · rw [if_pos ht] at he
          rcases List.mem_append.1 he with hx2 | hx2
          · exact hfext e hx2
          · exact hqext e hx2
        · rw [if_neg ht] at he
          exact ih (iter + 1) _ _ hqext hfext e he

theorem searchFinals_history (tick : Board → Direction → Board × List BoardEvent)
    (maxDepth : Nat) (timeout : Nat → Bool) (b : Board) (s : SnakeB)
    (hs : List.lookup 0 b.snakes = some s) :
    ∀ e ∈ searchFinals tick maxDepth timeout b, e.history ≠ [] := by
  intro e he
  unfold searchFinals at he
  have hpos : 0 < 4 ^ (maxDepth + 1) := pow_pos (by norm_num) _
  obtain ⟨k, hk⟩ : ∃ k, 4 ^ (maxDepth + 1) = k + 1 := ⟨4 ^ (maxDepth + 1) - 1, by omega⟩
  rw [hk] at he
  simp only [searchLoop] at he
  simp only [hs] at he
  obtain ⟨hq1, hq2⟩ := expandState_history tick maxDepth ⟨b, 0, 0, []⟩ s.dir
  by_cases ht : timeout 0 = true
  · rw [if_pos ht] at he
    rcases List.mem_append.1 he with h2 | h2
    · rcases List.mem_append.1 h2 with h3 | h3
      · cases h3
      · exact hq2 e h3
    · rcases List.mem_append.1 h2 with h3 | h3
      · cases h3
      · exact hq1 e h3
  · rw [if_neg ht] at he
    refine searchLoop_history tick maxDepth timeout k 1 _ _ ?_ ?_ e he
    · intro x hx
      rcases List.mem_append.1 hx with h3 | h3
      · cases h3
      · exact hq1 x h3
    · intro x hx
      rcases List.mem_append.1 hx with h3 | h3
      · cases h3
      · exact hq2 x h3

/-- C3: `TreeSearch::chose_move` fails exactly when the designated agent
(id 0) is missing from the root board or no final state was produced; in
every other case it returns the first move of the history of a final
state whose evaluated score is maximal, ties resolved to the state
encountered last in the `max_by` fold (in particular the
`history.first().unwrap()` never panics then). -/
theorem treeSearch_choseMove_spec (tick : Board → Direction → Board × List BoardEvent)
    (maxDepth : Nat) (timeout : Nat → Bool) (b : Board) :
    (choseMove tick maxDepth timeout b = .err ↔
      (List.lookup 0 b.snakes = none ∨ searchFinals tick maxDepth timeout b = [])) ∧
    (∀ s, List.lookup 0 b.snakes = some s →
      searchFinals tick maxDepth timeout b ≠ [] →
      ∃ mb d, IsLastMax (mappedFinals tick maxDepth timeout b) mb ∧
        mb.history.head? = some d ∧ choseMove tick maxDepth timeout b = .ok d) := by
  cases hlk : List.lookup 0 b.snakes with
  | none =>
    have hr : choseMove tick maxDepth timeout b = .err := by
      unfold choseMove
      rw [hlk]
    refine ⟨?_, ?_⟩
    · rw [hr]
      simp
    · intro s hs
      cases hs
  | some s0 =>
    cases hfin : searchFinals tick maxDepth timeout b with
    | nil =>
      have hmap : mappedFinals tick maxDepth timeout b = [] := by
        unfold mappedFinals
        rw [hfin]
        rfl
      have hr : choseMove tick maxDepth timeout b = .err := by
        unfold choseMove
        rw [hlk, hmap]
        rfl
      refine ⟨?_, ?_⟩
      · rw [hr]
        simp
      · intro s hs hne
        exact absurd rfl hne
    | cons f0 frest =>
      have hmap : mappedFinals tick maxDepth timeout b
          = reEval f0 :: frest.map reEval := by
        unfold mappedFinals
        rw [hfin]
        rfl
      have hmax : maxByLastScore (mappedFinals tick maxDepth timeout b)
          = some ((frest.map reEval).foldl maxStep (reEval f0)) := by
        rw [hmap]
        rfl
      have hlast : IsLastMax (mappedFinals tick maxDepth timeout b)
          ((frest.map reEval).foldl maxStep (reEval f0)) := by
        rw [hmap]
        exact foldl_maxStep_isLastMax _ _
      have hhist : ((frest.map reEval).foldl maxStep (reEval f0)).history ≠ [] := by
        have hmem := hlast.mem
        rw [hmap] at hmem
        have hmem2 : (frest.map reEval).foldl maxStep (reEval f0)
            ∈ (f0 :: frest).map reEval := hmem
        obtain ⟨e0, he0, heq⟩ := List.mem_map.1 hmem2
        rw [← heq]
        exact searchFinals_history tick maxDepth timeout b s0 hlk e0 (hfin ▸ he0)
      obtain ⟨d, t, hdt⟩ := List.exists_cons_of_ne_nil hhist
      have hr : choseMove tick maxDepth timeout b = .ok d := by
        unfold choseMove
        rw [hlk, hmax]
        simp only [hdt]
      refine ⟨?_, fun s hs hne =>
        ⟨(frest.map reEval).foldl maxStep (reEval f0), d, hlast, by rw [hdt]; rfl, hr⟩⟩
      rw [hr]
      constructor
      · intro h
        cases h
      · rintro (h | h)
        · cases h
        · cases h

/-- A trivial abstract tick for the C3 witness: the board is returned
unchanged with an empty event log. -/
def tickId : Board → Direction → Board × List BoardEvent := fun bd _ => (bd, [])

/-- A timeout oracle that never fires. -/
def noTimeout : Nat → Bool := fun _ => false

/-- The agent of the C3 witness. -/
def searchSnake : SnakeB := ⟨[⟨0, 0⟩, ⟨0, 1⟩], ⟨0, 1⟩, .up⟩

/-- The root board of the C3 witness. -/
def searchBoard : Board := ⟨2, 2, [(0, searchSnake)], [], []⟩

/-- Witness for C3 at depth bound 0: three final states exist and the
chosen move is the first move of the last maximal-score one. -/
theorem treeSearch_choseMove_spec_witness :
    List.lookup 0 searchBoard.snakes = some searchSnake ∧
      searchFinals tickId 0 noTimeout searchBoard ≠ [] ∧
      ∃ mb d, IsLastMax (mappedFinals tickId 0 noTimeout searchBoard) mb ∧
        mb.history.head? = some d ∧
        choseMove tickId 0 noTimeout searchBoard = .ok d :=
  ⟨rfl, by decide,
    (treeSearch_choseMove_spec tickId 0 noTimeout searchBoard).2 searchSnake rfl
      (by decide)⟩

instance : Sub IVec2 := ⟨fun a b => ⟨a.x - b.x, a.y - b.y⟩⟩

/-- The in-tree game snake of `snake.rs` (`struct Snake`): `body` ordered
head first (index 0 = head) and the buffered input queue; `tail_dir` is
the cached tail direction updated on non-growing moves.  The fields used
only by input handling and rendering (`input_map`, `head_dir`) are
omitted. -/
structure GSnake where
  id : Nat
  body : List IVec2
  inputQueue : List Direction
  tailDir : IVec2
deriving DecidableEq

/-- The events sent during one tick of `snake_system`:
`AppleEv::Despawn(pos)`, `AppleEv::SpawnRandom` and
`DamageSnakeEv { snake_id, snake_pos }`. -/
inductive GameEv where
  | appleDespawn (pos : IVec2)
  | appleSpawnRandom
  | damage (snakeId : Nat) (snakePos : Nat)
deriving DecidableEq

/-- The new head coordinate of one movement step (`snake.rs` lines
115–120): the front of the input queue if one is buffered, otherwise
straight on — `head + (head - neck)`. -/
def newHeadOf (s : GSnake) : IVec2 :=
  let head := s.body.headD ⟨0, 0⟩
  let neck := s.body.getD 1 ⟨0, 0⟩
  match s.inputQueue with
  | d :: _ => head + d.asVec2
  | [] => head + (head - neck)

/-- `tail_dir` after a non-growing move: `body[len - 2] - body[len - 1]`
of the grown body (`snake.rs` line 137). -/
def tailDirOf (l : List IVec2) : IVec2 :=
  l.getD (l.length - 2) ⟨0, 0⟩ - l.getD (l.length - 1) ⟨0, 0⟩

/-- The movement phase of `snake_system` for one snake (`snake.rs` lines
114–142): pop the buffered input and compute the new head, prepend it to
the body, send a damage event when the new head is on a wall, then either
consume an apple at the new head (despawn + random respawn events, body
left grown) or cache the tail direction and remove the tail segment. -/
def moveSnake (apples walls : List IVec2) (s : GSnake) : GSnake × List GameEv :=
  let newHead := newHeadOf s
  let body2 := newHead :: s.body
  let queue2 := match s.inputQueue with
    | _ :: rest => rest
    | [] => []
  let wallEvs := if newHead ∈ walls then [GameEv.damage s.id 0] else []
  if newHead ∈ apples then
    ({ s with body := body2, inputQueue := queue2 },
      wallEvs ++ [GameEv.appleDespawn newHead, GameEv.appleSpawnRandom])
  else
    ({ s with
        body := body2.dropLast
        inputQueue := queue2
        tailDir := tailDirOf body2 }, wallEvs)

/-- `in_bounds` from `snake.rs`/`main.rs`: inside `[0,w) × [0,h)`. -/
def gInBounds (w h : Nat) (pos : IVec2) : Bool :=
  0 ≤ pos.x && pos.x < (w : Int) && 0 ≤ pos.y && pos.y < (h : Int)

/-- The body-collision test of the end-game pass (`snake.rs` lines
171–185), run against the already-moved snakes: some snake's body cell
equals this snake's new head (its post-move `body[0]`), skipping only the
snake's own head (same id and index 0). -/
def collides (s : GSnake) (all : List GSnake) : Bool :=
  all.any fun t =>
    (List.range t.body.length).any fun i =>
      !(decide (t.id = s.id) && decide (i = 0)) &&
        decide (t.body.getD i ⟨0, 0⟩ = s.body.headD ⟨0, 0⟩)

/-- The end-game pass of `snake_system` (`snake.rs` lines 160–187) over
the moved snakes, in order: a snake whose new head is out of bounds, or
sits on an occupied body cell, is damaged at position 0 (and skipped for
further checks by `continue`). -/
def collisionDamage (w h : Nat) (all : List GSnake) : List GameEv :=
  all.flatMap fun s =>
    if !gInBounds w h (s.body.headD ⟨0, 0⟩) then [GameEv.damage s.id 0]
    else if collides s all then [GameEv.damage s.id 0]
    else []

/-- One full tick of `snake_system` (`snake.rs` lines 77–188, the
`timer.just_finished()` parts): every snake moves in query order, then
the collision pass runs over the moved snakes; the tick's event log is
the movement events in order followed by the collision damage events. -/
def snakeSystemTick (w h : Nat) (apples walls : List IVec2)
    (snakes : List GSnake) : List GSnake × List GameEv :=
  let moved := snakes.map (moveSnake apples walls)
  ((moved.map Prod.fst),
    (moved.map Prod.snd).flatten ++ collisionDamage w h (moved.map Prod.fst))

/-- The ids named by the damage events of a log. -/
def damagedIds (log : List GameEv) : List Nat :=
  log.filterMap fun ev =>
    match ev with
    | .damage id _ => some id
    | _ => none

theorem moveSnake_despawn_mem (apples walls : List IVec2) (t : GSnake) (p : IVec2)
    (h : GameEv.appleDespawn p ∈ (moveSnake apples walls t).2) :
    p = newHeadOf t ∧ newHeadOf t ∈ apples := by
  simp only [moveSnake] at h
  split_ifs at h with hap hw hw
  · simp at h
    exact ⟨h, hap⟩
  · simp at h
    exact ⟨h, hap⟩
  · simp at h
  · simp at h

theorem moveSnake_despawn_self (apples walls : List IVec2) (t : GSnake)
    (hta : newHeadOf t ∈ apples) :
    GameEv.appleDespawn (newHeadOf t) ∈ (moveSnake apples walls t).2 := by
  simp only [moveSnake]
  rw [if_pos hta]
  simp

theorem moveSnake_len_apple (apples walls : List IVec2) (t : GSnake)
    (hta : newHeadOf t ∈ apples) :
    (moveSnake apples walls t).1.body.length = t.body.length + 1 := by
  simp only [moveSnake]
  rw [if_pos hta]
  simp

theorem moveSnake_len_noapple (apples walls : List IVec2) (t : GSnake)
    (hta : newHeadOf t ∉ apples) :
    (moveSnake apples walls t).1.body.length = t.body.length := by
  simp only [moveSnake]
  rw [if_neg hta]
  simp [List.length_dropLast]

theorem collisionDamage_shape (w h : Nat) (all : List GSnake) (ev : GameEv)
    (hev : ev ∈ collisionDamage w h all) : ∃ i, ev = GameEv.damage i 0 := by
  unfold collisionDamage at hev
  obtain ⟨t, _, hev2⟩ := List.mem_flatMap.1 hev
  split_ifs at hev2
  · rcases List.mem_singleton.1 hev2 with rfl
    exact ⟨t.id, rfl⟩
  · rcases List.mem_singleton.1 hev2 with rfl
    exact ⟨t.id, rfl⟩
  · cases hev2

/-- C1: growth invariant of one `snake_system` tick.  For an agent with a
well-formed body (head and neck present), the tick's event log carries a
resource-consumption event (`AppleEv::Despawn`) at the agent's new head
iff the new head lands on a resource; consumption leaves the agent's
post-tick body one segment longer, and its absence leaves the length
unchanged. -/
theorem snakeSystem_growth_invariant (w h : Nat) (apples walls : List IVec2)
    (snakes : List GSnake) (s : GSnake) (hs : s ∈ snakes)
    (hlen : 2 ≤ s.body.length) :
    (GameEv.appleDespawn (newHeadOf s) ∈ (snakeSystemTick w h apples walls snakes).2 ↔
        newHeadOf s ∈ apples) ∧
    (newHeadOf s ∈ apples →
      (moveSnake apples walls s).1.body.length = s.body.length + 1) ∧
    (newHeadOf s ∉ apples →
      (moveSnake apples walls s).1.body.length = s.body.length) := by
  refine ⟨⟨?_, ?_⟩, moveSnake_len_apple apples walls s, moveSnake_len_noapple apples walls s⟩
  · intro hmem
    unfold snakeSystemTick at hmem
    rcases List.mem_append.1 hmem with h1 | h1
    · obtain ⟨evs, hevs, hev⟩ := List.mem_flatten.1 h1
      obtain ⟨pr, hpr, rfl⟩ := List.mem_map.1 hevs
      obtain ⟨t, _, rfl⟩ := List.mem_map.1 hpr
      obtain ⟨hpeq, hta⟩ := moveSnake_despawn_mem apples walls t _ hev
      rw [hpeq]
      exact hta
    · obtain ⟨i, hi⟩ := collisionDamage_shape w h _ _ h1
      cases hi
  · intro hap
    unfold snakeSystemTick
    refine List.mem_append.2 (Or.inl ?_)
    refine List.mem_flatten.2 ⟨(moveSnake apples walls s).2, ?_,
      moveSnake_despawn_self apples walls s hap⟩
    exact List.mem_map.2 ⟨moveSnake apples walls s,
      List.mem_map.2 ⟨s, hs, rfl⟩, rfl⟩

/-- The snake of the C1 witness: length 3, about to eat the apple at
(2,1). -/
def growthSnake : GSnake := ⟨0, [⟨1, 1⟩, ⟨1, 0⟩, ⟨0, 0⟩], [.right], ⟨1, 0⟩⟩

/-- Witness for C1: with an apple ahead the log carries the consumption
event and the body grows by one. -/
theorem snakeSystem_growth_invariant_witness :
    growthSnake ∈ [growthSnake] ∧ 2 ≤ growthSnake.body.length ∧
      ((GameEv.appleDespawn (newHeadOf growthSnake)
          ∈ (snakeSystemTick 5 5 [⟨2, 1⟩] [] [growthSnake]).2 ↔
        newHeadOf growthSnake ∈ [⟨2, 1⟩]) ∧
      (newHeadOf growthSnake ∈ [⟨2, 1⟩] →
        (moveSnake [⟨2, 1⟩] [] growthSnake).1.body.length
          = growthSnake.body.length + 1) ∧
      (newHeadOf growthSnake ∉ [⟨2, 1⟩] →
        (moveSnake [⟨2, 1⟩] [] growthSnake).1.body.length
          = growthSnake.body.length)) :=
  ⟨List.mem_singleton.2 rfl, by decide,
    snakeSystem_growth_invariant 5 5 [⟨2, 1⟩] [] [growthSnake] growthSnake
      (List.mem_singleton.2 rfl) (by decide)⟩

theorem moveSnake_id (apples walls : List IVec2) (t : GSnake) :
    (moveSnake apples walls t).1.id = t.id := by
  simp only [moveSnake]
  split_ifs <;> rfl

theorem moveSnake_body_noapple (apples walls : List IVec2) (t : GSnake)
    (hta : newHeadOf t ∉ apples) :
    (moveSnake apples walls t).1.body = (newHeadOf t :: t.body).dropLast := by
  simp only [moveSnake]
  rw [if_neg hta]

theorem moveSnake_damage_mem (apples walls : List IVec2) (t : GSnake) (i k : Nat)
    (h : GameEv.damage i k ∈ (moveSnake apples walls t).2) :
    i = t.id ∧ newHeadOf t ∈ walls := by
  simp only [moveSnake] at h
  split_ifs at h with hap hw hw
  · simp at h
    exact ⟨h.1, hw⟩
  · simp at h
  · simp at h
    exact ⟨h.1, hw⟩
  · simp at h

theorem eq_of_mem_of_id_eq :
    ∀ (snakes : List GSnake), (snakes.map GSnake.id).Nodup →
      ∀ s t, s ∈ snakes → t ∈ snakes → t.id = s.id → t = s := by
  intro snakes
  induction snakes with
  | nil =>
    intro _ s t hs
    cases hs
  | cons a rest ih =>
    intro hnd s t hs ht hid
    rw [List.map_cons, List.nodup_cons] at hnd
    rcases List.mem_cons.1 hs with rfl | hs2
    · rcases List.mem_cons.1 ht with rfl | ht2
      · rfl
      · exact absurd (List.mem_map.2 ⟨t, ht2, hid⟩) hnd.1
    · rcases List.mem_cons.1 ht with rfl | ht2
      · exact absurd (List.mem_map.2 ⟨s, hs2, hid.symm⟩) hnd.1
      · exact ih hnd.2 s t hs2 ht2 hid

theorem getD_mem_of_lt {l : List IVec2} {i : Nat} (h : i < l.length) (d : IVec2) :
    l.getD i d ∈ l := by
  rw [List.getD_eq_getElem?_getD, List.getElem?_eq_getElem h]
  exact List.getElem_mem h

theorem getLastD_not_mem_dropLast (l : List IVec2) (hnd : l.Nodup) (hne : l ≠ []) :
    l.getLastD ⟨0, 0⟩ ∉ l.dropLast := by
  intro hmem
  have heq := List.dropLast_append_getLast hne
  rw [← heq] at hnd
  rw [List.nodup_append] at hnd
  have hgl : l.getLastD ⟨0, 0⟩ = l.getLast hne := by
    rw [List.getLastD_eq_getLast?, List.getLast?_eq_getLast l hne]
    rfl
  rw [hgl] at hmem
  exact hnd.2.2 hmem (List.mem_singleton.2 rfl)

/-- C2: tail-following safety of one `snake_system` tick.  An agent that
moves into the cell its own tail occupied before the tick, with no
resource there (so every agent's vacated tail cell is really vacated), no
wall there, the cell in bounds, and no other agent's post-move body on
that cell, is never damaged by the tick: the collision pass checks the
post-move bodies, from which the vacated tail segment is already gone. -/
theorem snakeSystem_tail_following_safe
    (w h : Nat) (apples walls : List IVec2) (snakes : List GSnake) (s : GSnake)
    (hs : s ∈ snakes)
    (hids : (snakes.map GSnake.id).Nodup)
    (hnd : s.body.Nodup)
    (hlen : 2 ≤ s.body.length)
    (htail : newHeadOf s = s.body.getLastD ⟨0, 0⟩)
    (hap : newHeadOf s ∉ apples)
    (hwall : newHeadOf s ∉ walls)
    (hbounds : gInBounds w h (newHeadOf s) = true)
    (hothers : ∀ t ∈ snakes, t.id ≠ s.id →
      newHeadOf s ∉ (moveSnake apples walls t).1.body) :
    s.id ∉ damagedIds (snakeSystemTick w h apples walls snakes).2 := by
  have hbody2 : (moveSnake apples walls s).1.body
      = newHeadOf s :: s.body.dropLast := by
    rw [moveSnake_body_noapple apples walls s hap]
    cases hb2 : s.body with
    | nil => rw [hb2] at hlen; simp at hlen
    | cons x xs =>
      cases xs with
      | nil => rw [hb2] at hlen; simp at hlen
      | cons y ys => simp [List.dropLast_cons₂]
  have hhead2 : (moveSnake apples walls s).1.body.headD ⟨0, 0⟩ = newHeadOf s := by
    rw [hbody2]
    rfl
  intro hmem
  unfold damagedIds at hmem
  obtain ⟨ev, hev, hmatch⟩ := List.mem_filterMap.1 hmem
  obtain ⟨k, rfl⟩ : ∃ k, ev = GameEv.damage s.id k := by
    cases ev with
    | damage i k2 =>
      simp only [Option.some.injEq] at hmatch
      exact ⟨k2, by rw [hmatch]⟩
    | appleDespawn p => cases hmatch
    | appleSpawnRandom => cases hmatch
  unfold snakeSystemTick at hev
  rcases List.mem_append.1 hev with h1 | h1
  · obtain ⟨evs, hevs, hevin⟩ := List.mem_flatten.1 h1
    obtain ⟨pr, hpr, rfl⟩ := List.mem_map.1 hevs
    obtain ⟨t, ht, rfl⟩ := List.mem_map.1 hpr
    obtain ⟨hid, hw⟩ := moveSnake_damage_mem apples walls t s.id k hevin
    have hts : t = s := eq_of_mem_of_id_eq snakes hids s t hs ht hid.symm
    rw [hts] at hw
    exact hwall hw
  · unfold collisionDamage at h1
    obtain ⟨u, hu, hev2⟩ := List.mem_flatMap.1 h1
    obtain ⟨pr, hpr, rfl⟩ := List.mem_map.1 hu
    obtain ⟨t, ht, rfl⟩ := List.mem_map.1 hpr
    by_cases hbid : t.id = s.id
    · have hts : t = s := eq_of_mem_of_id_eq snakes hids s t hs ht hbid
      subst hts
      rw [if_neg (by rw [hhead2, hbounds]; simp)] at hev2
      have hcol : collides (moveSnake apples walls t).1
          ((snakes.map (moveSnake apples walls)).map Prod.fst) = false := by
        unfold collides
        rw [List.any_eq_false]
        intro t2pr ht2pr
        obtain ⟨pr2, hpr2, rfl⟩ := List.mem_map.1 ht2pr
        obtain ⟨t2, ht2, rfl⟩ := List.mem_map.1 hpr2
        rw [Bool.not_eq_true, List.any_eq_false]
        intro i hi
        rw [List.mem_range] at hi
        intro hcond
        simp only [Bool.and_eq_true, Bool.not_eq_true', Bool.and_eq_false_iff,
          decide_eq_false_iff_not, decide_eq_true_eq] at hcond
        obtain ⟨hskip, hcell⟩ := hcond
        by_cases ht2id : t2.id = t.id
        · have ht2t : t2 = t := eq_of_mem_of_id_eq snakes hids t t2 ht ht2 ht2id
          subst ht2t
          have hinz : i ≠ 0 := by
            rcases hskip with hid2 | hiz
            · exact absurd rfl hid2
            · exact hiz
          obtain ⟨j, rfl⟩ : ∃ j, i = j + 1 := by
            cases i with
            | zero => exact absurd rfl hinz
            | succ j => exact ⟨j, rfl⟩
          rw [hhead2, hbody2, List.getD_cons_succ] at hcell
          have hjlt : j < t2.body.dropLast.length := by
            rw [hbody2] at hi
            simp only [List.length_cons] at hi
            omega
          have hmem2 : t2.body.dropLast.getD j ⟨0, 0⟩ ∈ t2.body.dropLast :=
            getD_mem_of_lt hjlt _
          rw [hcell, htail] at hmem2
          exact getLastD_not_mem_dropLast t2.body hnd
            (by intro hnil; rw [hnil] at hlen; simp at hlen) hmem2
        · have hilt : i < (moveSnake apples walls t2).1.body.length := hi
          have hmem2 : (moveSnake apples walls t2).1.body.getD i ⟨0, 0⟩
              ∈ (moveSnake apples walls t2).1.body := getD_mem_of_lt hilt _
          rw [hcell, hhead2] at hmem2
          exact hothers t2 ht2 ht2id hmem2
      rw [if_neg (by rw [hcol]; simp)] at hev2
      cases hev2
    · split_ifs at hev2 with hc1 hc2
      · rcases List.mem_singleton.1 hev2 with heq
        injection heq with h1 h2
        rw [moveSnake_id] at h1
        exact hbid h1.symm
      · rcases List.mem_singleton.1 hev2 with heq
        injection heq with h1 h2
        rw [moveSnake_id] at h1
        exact hbid h1.symm
      · cases hev2

/-- The snake of the C2 witness: a length-4 loop on a 2×2 board, about
to move into its own vacated tail cell. -/
def cycleSnake : GSnake := ⟨0, [⟨0, 0⟩, ⟨0, 1⟩, ⟨1, 1⟩, ⟨1, 0⟩], [.right], ⟨0, -1⟩⟩

/-- Witness for C2: the loop snake enters its own old tail cell and takes
no damage. -/
theorem snakeSystem_tail_following_safe_witness :
    cycleSnake ∈ [cycleSnake] ∧ cycleSnake.body.Nodup ∧
      newHeadOf cycleSnake = cycleSnake.body.getLastD ⟨0, 0⟩ ∧
      cycleSnake.id ∉ damagedIds (snakeSystemTick 2 2 [] [] [cycleSnake]).2 :=
  ⟨List.mem_singleton.2 rfl, by decide, by decide,
    snakeSystem_tail_following_safe 2 2 [] [] [cycleSnake] cycleSnake
      (List.mem_singleton.2 rfl) (by decide) (by decide) (by decide) (by decide)
      (by decide) (by decide) (by decide) (by decide)⟩

/-- Failure modes of the embedded `cycle_basis`: `indexErr` is an
out-of-range indexing or a failed map `unwrap` (a Rust panic); `fuelOut`
is exhaustion of a loop bound.  The predecessor walk's bound is the size
of the predecessor map plus one, which every terminating walk respects
(the walk follows the deterministic `pred` map, so a run longer than the
number of keys revisits a node and never terminates); `fuelOut` therefore
means the Rust `while` loop runs forever. -/
inductive CBErr where
  | indexErr
  | fuelOut
deriving DecidableEq

/-- The cycle-closing predecessor walk of `cycle_basis` (`ai.rs` lines
127–133): starting from `pred[z]`, push nodes until one lies in the
`used` set of the neighbour, then push that one too. -/
def predWalk (pred : List (Nat × Nat)) (pn : List Nat) :
    Nat → Nat → List Nat → Except CBErr (List Nat)
  | 0, _, _ => .error .fuelOut
  | fuel + 1, p, acc =>
    if p ∈ pn then .ok (acc ++ [p])
    else
      match List.lookup p pred with
      | none => .error .indexErr
      | some q => predWalk pred pn fuel q (acc ++ [p])

/-- `used.get_mut(&neighbor).unwrap().insert(z)`. -/
def insertUsed (used : List (Nat × List Nat)) (key z : Nat) : List (Nat × List Nat) :=
  used.map fun kv => if kv.1 = key then (kv.1, z :: kv.2) else kv

/-- The walk state of `cycle_basis`: the stack of frontier nodes, the
predecessor map, the per-node `used` sets and the accumulated cycles. -/
structure CBState where
  stack : List Nat
  pred : List (Nat × Nat)
  used : List (Nat × List Nat)
  cycles : List (List Nat)

/-- One neighbour examination of `cycle_basis` (`ai.rs` lines 112–137):
discover a new node, record a self-loop as a single-node cycle, or close
a cycle through the predecessor walk when the neighbour is visited and
not yet paired with the current node. -/
def processNeighbor (st : CBState) (z nb : Nat) : Except CBErr CBState :=
  match List.lookup nb st.used with
  | none =>
    .ok ⟨nb :: st.stack, (nb, z) :: st.pred, (nb, [z]) :: st.used, st.cycles⟩
  | some pn =>
    if z = nb then .ok { st with cycles := st.cycles ++ [[z]] }
    else
      match List.lookup z st.used with
      | none => .error .indexErr
      | some uz =>
        if nb ∈ uz then .ok st
        else
          match List.lookup z st.pred with
          | none => .error .indexErr
          | some p0 =>
            match predWalk st.pred pn (st.pred.length + 1) p0 [nb, z] with
            | .error e => .error e
            | .ok cycle =>
              .ok { st with
                      cycles := st.cycles ++ [cycle]
                      used := insertUsed st.used nb z }

/-- `for neighbor in graph[z]`, left to right. -/
def processNeighbors (st : CBState) (z : Nat) : List Nat → Except CBErr CBState
  | [] => .ok st
  | nb :: rest =>
    match processNeighbor st z nb with
    | .error e => .error e
    | .ok st2 => processNeighbors st2 z rest

/-- The spanning-tree walk of `cycle_basis` (`ai.rs` lines 109–139): pop
the most recent stack entry, index the adjacency list and examine every
neighbour.  The outer fuel bounds the pops; `cycleBasis` passes one more
than the node count plus the total adjacency entries, which no run can
exhaust (every pop beyond the first per node requires a prior push, and
each push inserts a fresh `used` key). -/
def cbLoop (graph : List (List Nat)) : Nat → CBState → Except CBErr (List (List Nat))
  | 0, st =>
    match st.stack with
    | [] => .ok st.cycles
    | _ :: _ => .error .fuelOut
  | fuel + 1, st =>
    match st.stack with
    | [] => .ok st.cycles
    | z :: rest =>
      match graph[z]? with
      | none => .error .indexErr
      | some neighbors =>
        match processNeighbors { st with stack := rest } z neighbors with
        | .error e => .error e
        | .ok st2 => cbLoop graph fuel st2

/-- `cycle_basis` (`ai.rs` lines 97–142): the walk starts unconditionally
at node 0 with `pred = {0 ↦ 0}` and `used = {0 ↦ ∅}`. -/
def cycleBasis (graph : List (List Nat)) : Except CBErr (List (List Nat)) :=
  cbLoop graph (graph.length + (graph.map List.length).sum + 1)
    ⟨[0], [(0, 0)], [(0, [])], []⟩

/-- C10 counterexample: the directed 3-cycle adjacency list satisfies the
claim's precondition (non-empty, every neighbour index in range) yet
`cycle_basis` is not total on it — the predecessor walk never reaches the
(empty) `used` set of node 0 and loops forever, surfacing as `fuelOut`
for the walk's exact termination bound. -/
theorem cycleBasis_total_cex :
    ([[1], [2], [0]] : List (List Nat)) ≠ [] ∧
      (([[1], [2], [0]] : List (List Nat)).all fun l =>
        l.all fun j => j < 3) = true ∧
      cycleBasis [[1], [2], [0]] = .error .fuelOut := by
  refine ⟨by decide, by decide, by rfl⟩

/-- `k` is a key of an association list. -/
def IsKey {β : Type} (k : Nat) (l : List (Nat × β)) : Prop :=
  (List.lookup k l).isSome = true

theorem isKey_cons {β : Type} (k a : Nat) (b : β) (l : List (Nat × β))
    (h : IsKey k l) : IsKey k ((a, b) :: l) := by
  unfold IsKey at h ⊢
  rw [List.lookup_isSome_iff] at h ⊢
  obtain ⟨p, hp, he⟩ := h
  exact ⟨p, List.mem_cons_of_mem _ hp, he⟩

theorem isKey_cons_self {β : Type} (k : Nat) (b : β) (l : List (Nat × β)) :
    IsKey k ((k, b) :: l) := by
  unfold IsKey
  rw [List.lookup_isSome_iff]
  exact ⟨(k, b), List.mem_cons_self _ _, by simp⟩

theorem isKey_insertUsed (k key z : Nat) (used : List (Nat × List Nat))
    (h : IsKey k used) : IsKey k (insertUsed used key z) := by
  unfold IsKey at h ⊢
  unfold insertUsed
  rw [List.lookup_isSome_iff] at h ⊢
  obtain ⟨p, hp, he⟩ := h
  refine ⟨if p.1 = key then (p.1, z :: p.2) else p, List.mem_map.2 ⟨p, hp, rfl⟩, ?_⟩
  split_ifs with h2
  · exact he
  · exact he

theorem lookup_mem {β : Type} {k : Nat} {b : β} {l : List (Nat × β)}
    (h : List.lookup k l = some b) : (k, b) ∈ l := by
  obtain ⟨l1, l2, rfl, _⟩ := List.lookup_eq_some_iff.1 h
  exact List.mem_append.2 (Or.inr (List.mem_cons_self _ _))

theorem predWalk_no_index (pred : List (Nat × Nat)) (pn : List Nat)
    (hclosed : ∀ kv ∈ pred, IsKey kv.2 pred) :
    ∀ (fuel p : Nat) (acc : List Nat), IsKey p pred →
      predWalk pred pn fuel p acc ≠ .error .indexErr := by
  intro fuel
  induction fuel with
  | zero =>
    intro p acc _
    simp [predWalk]
  | succ fuel ih =>
    intro p acc hp
    simp only [predWalk]
    by_cases hpn : p ∈ pn
    · rw [if_pos hpn]
      simp
    · rw [if_neg hpn]
      cases hl : List.lookup p pred with
      | none =>
        unfold IsKey at hp
        rw [hl] at hp
        cases hp
      | some q =>
        exact ih q (acc ++ [p]) (hclosed (p, q) (lookup_mem hl))

/-- The range invariant of the `cycle_basis` walk: every stack node is in
range and a key of both maps, and the predecessor map is closed under
taking predecessors. -/
def CBInv (n : Nat) (st : CBState) : Prop :=
  (∀ v ∈ st.stack, v < n) ∧
  (∀ v ∈ st.stack, IsKey v st.used) ∧
  (∀ v ∈ st.stack, IsKey v st.pred) ∧
  (∀ kv ∈ st.pred, IsKey kv.2 st.pred)

theorem processNeighbor_inv (n : Nat) (st : CBState) (z nb : Nat)
    (hInv : CBInv n st) (hzu : IsKey z st.used) (hzp : IsKey z st.pred)
    (hnb : nb < n) :
    processNeighbor st z nb ≠ .error .indexErr ∧
    ∀ st2, processNeighbor st z nb = .ok st2 →
      CBInv n st2 ∧ IsKey z st2.used ∧ IsKey z st2.pred := by
  obtain ⟨hi1, hi2, hi3, hi4⟩ := hInv
  unfold processNeighbor
  split
  · refine ⟨by simp, ?_⟩
    intro st2 h2
    cases h2
    refine ⟨⟨?_, ?_, ?_, ?_⟩, isKey_cons z nb [z] st.used hzu,
      isKey_cons z nb z st.pred hzp⟩
    · intro v hv
      rcases List.mem_cons.1 hv with rfl | hv2
      · exact hnb
      · exact hi1 v hv2
    · intro v hv
      rcases List.mem_cons.1 hv with rfl | hv2
      · exact isKey_cons_self v [z] st.used
      · exact isKey_cons v nb [z] st.used (hi2 v hv2)
    · intro v hv
      rcases List.mem_cons.1 hv with rfl | hv2
      · exact isKey_cons_self v z st.pred
      · exact isKey_cons v nb z st.pred (hi3 v hv2)
    · intro kv hkv
      rcases List.mem_cons.1 hkv with rfl | hkv2
      · exact isKey_cons z nb z st.pred hzp
      · exact isKey_cons kv.2 nb z st.pred (hi4 kv hkv2)
  · rename_i pn hnbu
    by_cases hznb : z = nb
    · rw [if_pos hznb]
      refine ⟨by simp, ?_⟩
      intro st2 h2
      cases h2
      exact ⟨⟨hi1, hi2, hi3, hi4⟩, hzu, hzp⟩
    · rw [if_neg hznb]
      split
      · rename_i hzu2
        unfold IsKey at hzu
        rw [hzu2] at hzu
        cases hzu
      · rename_i uz hzu2
        by_cases hnbuz : nb ∈ uz
        · rw [if_pos hnbuz]
          refine ⟨by simp, ?_⟩
          intro st2 h2
          cases h2
          exact ⟨⟨hi1, hi2, hi3, hi4⟩, hzu, hzp⟩
        · rw [if_neg hnbuz]
          split
          · rename_i hzp2
            unfold IsKey at hzp
            rw [hzp2] at hzp
            cases hzp
          · rename_i p0 hzp2
            have hp0 : IsKey p0 st.pred := hi4 (z, p0) (lookup_mem hzp2)
            split
            · rename_i e hw
              refine ⟨?_, ?_⟩
              · intro hcontra
                simp only [Except.error.injEq] at hcontra
                rw [hcontra] at hw
                exact predWalk_no_index st.pred pn hi4 (st.pred.length + 1)
                  p0 [nb, z] hp0 hw
              · intro st2 h2
                cases h2
            · rename_i cycle hw
              refine ⟨by simp, ?_⟩
              intro st2 h2
              cases h2
              refine ⟨⟨hi1, ?_, hi3, hi4⟩, isKey_insertUsed z nb z st.used hzu, hzp⟩
              intro v hv
              exact isKey_insertUsed v nb z st.used (hi2 v hv)

theorem processNeighbors_inv (n z : Nat) :
    ∀ (nbs : List Nat) (st : CBState), CBInv n st → IsKey z st.used →
      IsKey z st.pred → (∀ j ∈ nbs, j < n) →
      processNeighbors st z nbs ≠ .error .indexErr ∧
      ∀ st2, processNeighbors st z nbs = .ok st2 → CBInv n st2 := by
  intro nbs
  induction nbs with
  | nil =>
    intro st hInv _ _ _
    refine ⟨by simp [processNeighbors], ?_⟩
    intro st2 h2
    simp only [processNeighbors, Except.ok.injEq] at h2
    rw [← h2]
    exact hInv
  | cons nb rest ih =>
    intro st hInv hzu hzp hb
    obtain ⟨hne, hok⟩ := processNeighbor_inv n st z nb hInv hzu hzp
      (hb nb (List.mem_cons_self _ _))
    simp only [processNeighbors]
    cases hpn : processNeighbor st z nb with
    | error e =>
      have he : e ≠ CBErr.indexErr := by
        intro hcontra
        rw [hcontra] at hpn
        exact hne hpn
      refine ⟨?_, ?_⟩
      · intro hcontra
        simp only [Except.error.injEq] at hcontra
        exact he hcontra
      · intro st2 h2
        cases h2
    | ok stm =>
      obtain ⟨hInv2, hzu2, hzp2⟩ := hok stm hpn
      exact ih stm hInv2 hzu2 hzp2 (fun j hj => hb j (List.mem_cons_of_mem _ hj))

theorem cbLoop_no_index (graph : List (List Nat))
    (hpre : ∀ l ∈ graph, ∀ j ∈ l, j < graph.length) :
    ∀ (fuel : Nat) (st : CBState), CBInv graph.length st →
      cbLoop graph fuel st ≠ .error .indexErr := by
  intro fuel
  induction fuel with
  | zero =>
    intro st _
    obtain ⟨stk, prd, usd, cyc⟩ := st
    cases stk <;> simp [cbLoop]
  | succ fuel ih =>
    intro st hInv
    obtain ⟨stk, prd, usd, cyc⟩ := st
    cases stk with
    | nil => simp [cbLoop]
    | cons z rest =>
      simp only [cbLoop]
      have hz : z < graph.length := hInv.1 z (List.mem_cons_self _ _)
      simp only [List.getElem?_eq_getElem hz]
      have hb : ∀ j ∈ graph[z], j < graph.length :=
        hpre graph[z] (List.getElem_mem hz)
      have hInv2 : CBInv graph.length ⟨rest, prd, usd, cyc⟩ := by
        refine ⟨?_, ?_, ?_, hInv.2.2.2⟩
        · intro v hv
          exact hInv.1 v (List.mem_cons_of_mem _ hv)
        · intro v hv
          exact hInv.2.1 v (List.mem_cons_of_mem _ hv)
        · intro v hv
          exact hInv.2.2.1 v (List.mem_cons_of_mem _ hv)
      obtain ⟨hne, hok⟩ := processNeighbors_inv graph.length z graph[z]
        ⟨rest, prd, usd, cyc⟩
        hInv2
        (hInv.2.1 z (List.mem_cons_self _ _))
        (hInv.2.2.1 z (List.mem_cons_self _ _))
        hb
      cases hpn : processNeighbors ⟨rest, prd, usd, cyc⟩ z graph[z] with
      | error e =>
        have he : e ≠ CBErr.indexErr := by
          intro hcontra
          rw [hcontra] at hpn
          exact hne hpn
        simp only [hpn]
        intro hcontra
        simp only [Except.error.injEq] at hcontra
        exact he hcontra
      | ok st2 =>
        simp only [hpn]
        exact ih st2 (hok st2 hpn)

/-- C10 (amended): `cycle_basis` starts its walk unconditionally at node
0; on an empty adjacency list the initial access to node 0 is out of
bounds.  Under the precondition (non-empty input, every listed neighbour
index below the node count) every indexing and map lookup of the walk is
in range — but the function is still not total there: the predecessor
walk need not terminate when the adjacency list is not symmetric (see the
counterexample). -/
theorem cycleBasis_range (graph : List (List Nat)) :
    (graph = [] → cycleBasis graph = .error .indexErr) ∧
    ((graph ≠ [] ∧ ∀ l ∈ graph, ∀ j ∈ l, j < graph.length) →
      cycleBasis graph ≠ .error .indexErr) := by
  constructor
  · intro h
    subst h
    rfl
  · rintro ⟨hne, hpre⟩
    unfold cycleBasis
    refine cbLoop_no_index graph hpre _ _ ⟨?_, ?_, ?_, ?_⟩
    · intro v hv
      rcases List.mem_singleton.1 hv with rfl
      exact List.length_pos.2 hne
    · intro v hv
      rcases List.mem_singleton.1 hv with rfl
      exact isKey_cons_self 0 [] []
    · intro v hv
      rcases List.mem_singleton.1 hv with rfl
      exact isKey_cons_self 0 0 []
    · intro kv hkv
      rcases List.mem_singleton.1 hkv with rfl
      exact isKey_cons_self 0 0 []

/-- Witness for C10: the empty input hits the out-of-bounds access, and a
single symmetric edge is processed with every lookup in range. -/
theorem cycleBasis_range_witness :
    cycleBasis ([] : List (List Nat)) = .error .indexErr ∧
      cycleBasis [[1], [0]] ≠ .error .indexErr :=
  ⟨(cycleBasis_range []).1 rfl,
    (cycleBasis_range [[1], [0]]).2 ⟨by decide, by decide⟩⟩

/-- The adjacency row of a node: `graph[a]`, with `[]` for an
out-of-range index (`cycle_basis` itself only indexes rows in range). -/
def adjRow (graph : List (List Nat)) (a : Nat) : List Nat :=
  (graph[a]?).getD []

/-- One step of the reachable-set closure: keep the set and add every
neighbour of every node already in it. -/
def reachStep (graph : List (List Nat)) (s : List Nat) : List Nat :=
  (s ++ s.flatMap fun u => adjRow graph u).dedup

/-- Iterated adjacency closure of `{v}`. -/
def reachIterFrom (graph : List (List Nat)) (v : Nat) : Nat → List Nat
  | 0 => [v]
  | k + 1 => reachStep graph (reachIterFrom graph v k)

/-- The nodes reachable from `v`: the closure step iterated
`graph.length` times, enough to saturate on any input. -/
def reachFrom (graph : List (List Nat)) (v : Nat) : List Nat :=
  reachIterFrom graph v graph.length

/-- The nodes reachable from node 0, the fixed root of the
`cycle_basis` walk. -/
def reachList (graph : List (List Nat)) : List Nat :=
  reachFrom graph 0

/-- Reachability from node 0 along adjacency-list entries. -/
inductive ReachP (graph : List (List Nat)) : Nat → Prop
  | root : ReachP graph 0
  | step {u v : Nat} : ReachP graph u → v ∈ adjRow graph u → ReachP graph v

/-- A closed walk: non-empty, consecutive nodes adjacent, and the last
node adjacent to the first (a one-node walk needs a self-loop). -/
def ClosedWalk (graph : List (List Nat)) (c : List Nat) : Prop :=
  c ≠ [] ∧ List.Chain' (fun a b => b ∈ adjRow graph a) c ∧
    c.headD 0 ∈ adjRow graph (c.getLastD 0)

/-- Number of self-loops of a graph.  Follows the claim side of C8: a
self-loop is an edge, and appears once in its own row. -/
def specSelfLoops (graph : List (List Nat)) : Nat :=
  (List.range graph.length).countP fun x => decide (x ∈ adjRow graph x)

/-- Number of undirected edges under the claim's listing convention:
every non-loop edge is listed twice, a self-loop once.  Follows the
claim side of C8. -/
def specEdges (graph : List (List Nat)) : Nat :=
  ((graph.map List.length).sum + specSelfLoops graph) / 2

/-- Number of connected components, counted as the nodes that are the
least element of their own reachable set.  Follows the claim side of
C8. -/
def specComponents (graph : List (List Nat)) : Nat :=
  (List.range graph.length).countP fun v =>
    decide (∀ u ∈ reachFrom graph v, v ≤ u)

/-- Number of independent loops of a graph, after the claim of C8:
edges minus nodes plus connected components. -/
def specLoopRank (graph : List (List Nat)) : Nat :=
  specEdges graph + specComponents graph - graph.length

/-- C8 counterexample: on the symmetric graph with components `{0}` and
the triangle `{1,2,3}`, `cycle_basis` returns no cycle although the
graph has one independent loop (the walk never leaves the component of
node 0); and on the symmetric doubled edge `0–1`, it returns the
non-simple cycle `[1, 0, 0]`. -/
theorem cycleBasis_basis_cex :
    (∀ a, a < 4 → ∀ b, b < 4 →
      (b ∈ adjRow [[], [2, 3], [1, 3], [1, 2]] a ↔
        a ∈ adjRow [[], [2, 3], [1, 3], [1, 2]] b)) ∧
    cycleBasis [[], [2, 3], [1, 3], [1, 2]] = .ok [] ∧
    specLoopRank [[], [2, 3], [1, 3], [1, 2]] = 1 ∧
    cycleBasis [[1, 1], [0, 0]] = .ok [[1, 0, 0]] ∧
    ¬ ([1, 0, 0] : List Nat).Nodup :=
  ⟨by decide, by rfl, by decide, by rfl, by decide⟩

/-- Iterated application of the predecessor map. -/
def predIter (pred : List (Nat × Nat)) : Nat → Nat → Option Nat
  | 0, p => some p
  | k + 1, p =>
    match List.lookup p pred with
    | none => none
    | some q => predIter pred k q

/-- Membership of the predecessor chain starting at `a`. -/
def ChainB (pred : List (Nat × Nat)) (a b : Nat) : Prop :=
  ∃ k, predIter pred k a = some b

/-- The predecessor map always records a node discovered strictly
earlier: in the cons-ordered association list, the parent of every
non-root entry appears strictly later. -/
def PredDec (pred : List (Nat × Nat)) : Prop :=
  ∀ l1 y w l2, pred = l1 ++ (y, w) :: l2 → y ≠ 0 → w ∈ l2.map Prod.fst

/-- Position of a key in the predecessor map, newest first. -/
def keyIdx (pred : List (Nat × Nat)) (y : Nat) : Nat :=
  List.indexOf y (pred.map Prod.fst)

theorem lookup_cons_eqn {β : Type} (a k : Nat) (b : β) (l : List (Nat × β)) :
    List.lookup a ((k, b) :: l) = if a = k then some b else List.lookup a l := by
  by_cases h : a = k
  · subst h; simp [List.lookup]
  · rw [List.lookup, show (a == k) = false from beq_eq_false_iff_ne.mpr h, if_neg h]

theorem isKey_mem_fst {β : Type} {k : Nat} {l : List (Nat × β)} :
    IsKey k l ↔ k ∈ l.map Prod.fst := by
  unfold IsKey
  rw [List.lookup_isSome_iff]
  constructor
  · rintro ⟨p, hp, he⟩
    exact List.mem_map.2 ⟨p, hp, (beq_iff_eq.1 he).symm⟩
  · rintro hm
    obtain ⟨p, hp, he⟩ := List.mem_map.1 hm
    exact ⟨p, hp, by simp [he]⟩

theorem lookup_eq_some_of_mem_nodup {β : Type} {l1 l2 : List (Nat × β)}
    {a : Nat} {b : β} (hnd : ((l1 ++ (a, b) :: l2).map Prod.fst).Nodup) :
    List.lookup a (l1 ++ (a, b) :: l2) = some b := by
  induction l1 with
  | nil => simp [lookup_cons_eqn]
  | cons p l1 ih =>
    have hnd2 : ((l1 ++ (a, b) :: l2).map Prod.fst).Nodup := by
      simpa using (List.nodup_cons.1 (by simpa using hnd)).2
    have hane : a ≠ p.1 := by
      have h1 : p.1 ∉ (l1 ++ (a, b) :: l2).map Prod.fst :=
        (List.nodup_cons.1 (by simpa using hnd)).1
      intro he
      exact h1 (he ▸ (by simp : a ∈ (l1 ++ (a, b) :: l2).map Prod.fst))
    rw [List.cons_append, show p = (p.1, p.2) from rfl, lookup_cons_eqn,
      if_neg hane]
    exact ih hnd2

theorem indexOf_append_not_mem {a : Nat} {l1 l2 : List Nat} (h : a ∉ l1) :
    List.indexOf a (l1 ++ l2) = l1.length + List.indexOf a l2 := by
  induction l1 with
  | nil => simp
  | cons x xs ih =>
    have hax : x ≠ a := fun he => h (he ▸ List.mem_cons_self _ _)
    simp only [List.cons_append, List.indexOf_cons,
      beq_eq_false_iff_ne.mpr hax, cond_false, List.length_cons]
    rw [ih (fun hm => h (List.mem_cons_of_mem _ hm))]
    omega

theorem predDec_cons {pred : List (Nat × Nat)} {y0 w0 : Nat}
    (hd : PredDec pred) (hw : w0 ∈ pred.map Prod.fst) :
    PredDec ((y0, w0) :: pred) := by
  intro l1 y w l2 he hy
  cases l1 with
  | nil =>
    simp only [List.nil_append] at he
    obtain ⟨h1, h2⟩ := List.cons.injEq .. ▸ he
    obtain ⟨hy0, hw0⟩ := Prod.mk.injEq .. ▸ h1
    subst hy0; subst hw0; subst h2
    exact hw
  | cons p l1 =>
    simp only [List.cons_append] at he
    obtain ⟨_, h2⟩ := List.cons.injEq .. ▸ he
    exact hd l1 y w l2 h2 hy

theorem predIter_zero_fix {pred : List (Nat × Nat)}
    (h0 : List.lookup 0 pred = some 0) :
    ∀ k, predIter pred k 0 = some 0 := by
  intro k
  induction k with
  | zero => rfl
  | succ k ih => simp only [predIter, h0, ih]

theorem predIter_succ_of_lookup {pred : List (Nat × Nat)} {p q : Nat}
    (h : List.lookup p pred = some q) (k : Nat) :
    predIter pred (k + 1) p = predIter pred k q := by
  simp only [predIter, h]

theorem predIter_short {pred : List (Nat × Nat)}
    (hnd : (pred.map Prod.fst).Nodup) (hdec : PredDec pred)
    (h0 : List.lookup 0 pred = some 0) {a k b : Nat}
    (hit : predIter pred k a = some b) (ha : IsKey a pred) :
    ∃ k2 ≤ pred.length, predIter pred k2 a = some b := by
  have AUX : ∀ m l1 l2 x j c, pred = l1 ++ l2 → l2.length ≤ m →
      x ∈ l2.map Prod.fst → predIter pred j x = some c →
      ∃ k2 ≤ m, predIter pred k2 x = some c := by
    intro m
    induction m with
    | zero =>
      intro l1 l2 x j c hsp hlen hxm hit2
      have hnil : l2 = [] := List.length_eq_zero.1 (Nat.le_zero.1 hlen)
      subst hnil
      simp at hxm
    | succ m ih =>
      intro l1 l2 x j c hsp hlen hxm hit2
      by_cases hx0 : x = 0
      · subst hx0
        have hc : c = 0 := by
          have hz := predIter_zero_fix h0 j
          rw [hit2] at hz
          exact Option.some_inj.1 hz
        subst hc
        exact ⟨0, Nat.zero_le _, rfl⟩
      · obtain ⟨p, hp, hfst⟩ := List.mem_map.1 hxm
        obtain ⟨x2, w2⟩ := p
        simp only at hfst
        subst hfst
        obtain ⟨m1, m2, hsplit2⟩ := List.append_of_mem hp
        have hsp3 : pred = (l1 ++ m1) ++ (x2, w2) :: m2 := by
          rw [hsp, hsplit2, List.append_assoc]
        have hlook : List.lookup x2 pred = some w2 := by
          rw [hsp3]
          exact lookup_eq_some_of_mem_nodup (hsp3 ▸ hnd)
        have hw2 : w2 ∈ m2.map Prod.fst := hdec (l1 ++ m1) x2 w2 m2 hsp3 hx0
        cases j with
        | zero =>
          have hc : c = x2 := (Option.some_inj.1 hit2).symm
          subst hc
          exact ⟨0, Nat.zero_le _, rfl⟩
        | succ j =>
          rw [predIter_succ_of_lookup hlook] at hit2
          have hlen2 : m2.length ≤ m := by
            have hll : l2.length = m1.length + (1 + m2.length) := by
              rw [hsplit2]; simp [Nat.add_comm, Nat.add_assoc]
            omega
          obtain ⟨k2, hk2, hit3⟩ :=
            ih (l1 ++ m1 ++ [(x2, w2)]) m2 w2 j c
              (by rw [hsp3]; simp) hlen2 hw2 hit2
          exact ⟨k2 + 1, Nat.succ_le_succ hk2,
            by rw [predIter_succ_of_lookup hlook]; exact hit3⟩
  exact AUX pred.length [] pred a k b rfl le_rfl (isKey_mem_fst.1 ha) hit

theorem keyIdx_lt_of_lookup {pred : List (Nat × Nat)}
    (hnd : (pred.map Prod.fst).Nodup) (hdec : PredDec pred)
    {y w : Nat} (hl : List.lookup y pred = some w) (hy : y ≠ 0) :
    keyIdx pred y < keyIdx pred w := by
  obtain ⟨l1, l2, hsp⟩ := List.append_of_mem (lookup_mem hl)
  have hw2 : w ∈ l2.map Prod.fst := hdec l1 y w l2 hsp hy
  have hkeys : pred.map Prod.fst = l1.map Prod.fst ++ y :: l2.map Prod.fst := by
    rw [hsp]; simp
  have hnd2 := hkeys ▸ hnd
  have hdisj := List.nodup_append.1 hnd2
  have hynl1 : y ∉ l1.map Prod.fst := fun hm =>
    hdisj.2.2 hm (List.mem_cons_self _ _)
  have hynl2 : y ∉ l2.map Prod.fst := by
    have := List.nodup_cons.1 hdisj.2.1
    exact this.1
  have hwny : w ≠ y := fun he => hynl2 (he ▸ hw2)
  have hwnl1 : w ∉ l1.map Prod.fst := fun hm =>
    hdisj.2.2 hm (List.mem_cons_of_mem _ hw2)
  unfold keyIdx
  rw [hkeys, indexOf_append_not_mem hynl1, indexOf_append_not_mem hwnl1,
    List.indexOf_cons, List.indexOf_cons]
  simp only [beq_self_eq_true, cond_true, beq_eq_false_iff_ne.mpr hwny.symm,
    cond_false]
  omega

theorem predIter_cons_fresh {pred : List (Nat × Nat)} {nb w0 : Nat}
    (hcl : ∀ kv ∈ pred, IsKey kv.2 pred) (hfresh : ¬ IsKey nb pred) :
    ∀ (k a : Nat), IsKey a pred →
      predIter ((nb, w0) :: pred) k a = predIter pred k a := by
  intro k
  induction k with
  | zero => intro a _; rfl
  | succ k ih =>
    intro a ha
    have hne : a ≠ nb := fun he => hfresh (he ▸ ha)
    have hsame : List.lookup a ((nb, w0) :: pred) = List.lookup a pred := by
      rw [lookup_cons_eqn, if_neg hne]
    simp only [predIter, hsame]
    cases hl : List.lookup a pred with
    | none => rfl
    | some q => exact ih q (hcl (a, q) (lookup_mem hl))

theorem chainB_cons_fresh {pred : List (Nat × Nat)} {nb w0 a b : Nat}
    (hcl : ∀ kv ∈ pred, IsKey kv.2 pred) (hfresh : ¬ IsKey nb pred)
    (ha : IsKey a pred) (h : ChainB pred a b) :
    ChainB ((nb, w0) :: pred) a b := by
  obtain ⟨k, hk⟩ := h
  exact ⟨k, by rw [predIter_cons_fresh hcl hfresh k a ha]; exact hk⟩

theorem lookup_insertUsed (used : List (Nat × List Nat)) (key z y : Nat) :
    List.lookup y (insertUsed used key z) =
      match List.lookup y used with
      | none => none
      | some s => some (if y = key then z :: s else s) := by
  induction used with
  | nil => rfl
  | cons kv rest ih =>
    obtain ⟨k0, s0⟩ := kv
    have hstep : insertUsed ((k0, s0) :: rest) key z =
        (if k0 = key then (k0, z :: s0) else (k0, s0)) :: insertUsed rest key z := by
      simp only [insertUsed, List.map_cons]
    rw [hstep]
    by_cases hy : y = k0
    · subst hy
      by_cases hk : y = key
      · rw [if_pos hk, lookup_cons_eqn y y (z :: s0) (insertUsed rest key z),
          if_pos rfl, lookup_cons_eqn y y s0 rest, if_pos rfl]
        show some (z :: s0) = some (if y = key then z :: s0 else s0)
        rw [if_pos hk]
      · rw [if_neg hk, lookup_cons_eqn y y s0 (insertUsed rest key z),
          if_pos rfl, lookup_cons_eqn y y s0 rest, if_pos rfl]
        show some s0 = some (if y = key then z :: s0 else s0)
        rw [if_neg hk]
    · by_cases hk : k0 = key
      · rw [if_pos hk, lookup_cons_eqn y k0 (z :: s0) (insertUsed rest key z),
          if_neg hy, lookup_cons_eqn y k0 s0 rest, if_neg hy]
        exact ih
      · rw [if_neg hk, lookup_cons_eqn y k0 s0 (insertUsed rest key z),
          if_neg hy, lookup_cons_eqn y k0 s0 rest, if_neg hy]
        exact ih

theorem insertUsed_keys (used : List (Nat × List Nat)) (key z : Nat) :
    (insertUsed used key z).map Prod.fst = used.map Prod.fst := by
  unfold insertUsed
  rw [List.map_map]
  apply List.map_congr_left
  intro kv _
  by_cases h : kv.1 = key <;> simp [h]

/-- Total number of entries of all `used` sets. -/
def usedTotal (used : List (Nat × List Nat)) : Nat :=
  (used.map fun kv => kv.2.length).sum

theorem insertUsed_not_key (used : List (Nat × List Nat)) (key z : Nat)
    (h : key ∉ used.map Prod.fst) : insertUsed used key z = used := by
  unfold insertUsed
  have : ∀ kv ∈ used, (if kv.1 = key then (kv.1, z :: kv.2) else kv) = kv := by
    intro kv hkv
    rw [if_neg]
    intro he
    exact h (he ▸ List.mem_map.2 ⟨kv, hkv, rfl⟩)
  rw [List.map_congr_left this]
  simp

theorem usedTotal_insert (used : List (Nat × List Nat)) (key z : Nat)
    (hnd : (used.map Prod.fst).Nodup) (hk : key ∈ used.map Prod.fst) :
    usedTotal (insertUsed used key z) = usedTotal used + 1 := by
  induction used with
  | nil => simp at hk
  | cons kv rest ih =>
    obtain ⟨k0, s0⟩ := kv
    have hstep : insertUsed ((k0, s0) :: rest) key z =
        (if k0 = key then (k0, z :: s0) else (k0, s0)) :: insertUsed rest key z := by
      simp only [insertUsed, List.map_cons]
    rw [hstep]
    have hmap : ((k0, s0) :: rest).map Prod.fst = k0 :: rest.map Prod.fst := rfl
    rw [hmap] at hnd
    have hnd2 := List.nodup_cons.1 hnd
    by_cases hkk : k0 = key
    · subst hkk
      have hrest : k0 ∉ rest.map Prod.fst := hnd2.1
      rw [if_pos rfl, insertUsed_not_key rest k0 z hrest]
      simp [usedTotal]
      omega
    · rw [if_neg hkk]
      have hkrest : key ∈ rest.map Prod.fst := by
        rcases (by simpa using hk : key = k0 ∨ key ∈ rest.map Prod.fst) with h | h
        · exact absurd h.symm hkk
        · exact h
      have := ih hnd2.2 hkrest
      simp only [usedTotal, List.map_cons, List.sum_cons] at this ⊢
      omega

/-- Successful predecessor walks: when some chain element of the start
lies in `pn`, the walk returns the visited prefix of the chain ending at
the first `pn` member. -/
theorem predWalk_run (pred : List (Nat × Nat)) (pn : List Nat) :
    ∀ (j fuel : Nat), j < fuel → ∀ (p0 : Nat) (acc : List Nat) (t : Nat),
      predIter pred j p0 = some t → t ∈ pn →
      ∃ ws, predWalk pred pn fuel p0 acc = .ok (acc ++ ws) ∧
        ws.head? = some p0 ∧
        List.Chain' (fun a b => List.lookup a pred = some b) ws ∧
        (∀ x ∈ ws.dropLast, x ∉ pn) ∧
        (∃ tl, ws.getLast? = some tl ∧ tl ∈ pn) := by
  intro j
  induction j with
  | zero =>
    intro fuel hf p0 acc t hit htp
    have ht : t = p0 := (Option.some_inj.1 (show some p0 = some t from hit)).symm
    subst ht
    cases fuel with
    | zero => omega
    | succ fuel =>
      refine ⟨[t], ?_, rfl, List.chain'_singleton t, by simp, ⟨t, rfl, htp⟩⟩
      simp only [predWalk, if_pos htp]
  | succ j ih =>
    intro fuel hf p0 acc t hit htp
    cases fuel with
    | zero => omega
    | succ fuel =>
      by_cases hp : p0 ∈ pn
      · refine ⟨[p0], ?_, rfl, List.chain'_singleton p0, by simp, ⟨p0, rfl, hp⟩⟩
        simp only [predWalk, if_pos hp]
      · cases hl : List.lookup p0 pred with
        | none =>
          have hnone : predIter pred (j + 1) p0 = none := by
            simp only [predIter, hl]
          rw [hnone] at hit
          cases hit
        | some q =>
          rw [predIter_succ_of_lookup hl] at hit
          obtain ⟨ws, hrun, hhead, hchain, hdrop, tl, hlast, htl⟩ :=
            ih fuel (Nat.lt_of_succ_lt_succ hf) q (acc ++ [p0]) t hit htp
          have hne : ws ≠ [] := by
            intro h
            rw [h] at hhead
            cases hhead
          refine ⟨p0 :: ws, ?_, rfl, ?_, ?_, ⟨tl, ?_, htl⟩⟩
          · simp only [predWalk, if_neg hp, hl]
            rw [hrun]
            simp
          · rw [List.chain'_cons']
            refine ⟨fun y hy => ?_, hchain⟩
            rw [hhead] at hy
            have hyq : y = q := (by simpa using hy : q = y).symm
            rw [hyq]
            exact hl
          · rw [List.dropLast_cons_of_ne_nil hne]
            intro x hx
            rcases List.mem_cons.1 hx with rfl | hx2
            · exact hp
            · exact hdrop x hx2
          · cases ws with
            | nil => exact absurd rfl hne
            | cons w ws2 => rw [List.getLast?_cons_cons]; exact hlast

/-- Keys of the `used` map of a walk state: the discovered nodes. -/
def keysOf (st : CBState) : List Nat := st.used.map Prod.fst

/-- A node discovered and already removed from the stack. -/
def Popped (st : CBState) (x : Nat) : Prop := x ∈ keysOf st ∧ x ∉ st.stack

/-- The popped nodes of `range n` other than `z`, in canonical order. -/
def poppedNZ (n : Nat) (st : CBState) (z : Nat) : List Nat :=
  (List.range n).filter fun x =>
    decide ((x ∈ keysOf st ∧ x ∉ st.stack) ∧ x ≠ z)

/-- Sum of `f` over a list of nodes. -/
def sumBy (l : List Nat) (f : Nat → Nat) : Nat := (l.map f).sum

/-- The `used` set of a node, empty when the node is not a key. -/
def usedSet (st : CBState) (y : Nat) : List Nat :=
  (List.lookup y st.used).getD []

/-- Indicator of a self-loop at `x`. -/
def selfInd (graph : List (List Nat)) (x : Nat) : Nat :=
  if x ∈ adjRow graph x then 1 else 0

/-- The master invariant of the `cycle_basis` walk, stated for the
moment during the expansion of node `z` when the neighbours `done` have
been examined and `rest` are still to come (`done ++ rest = graph[z]`).
A state between two pops is the special case `rest = []` with `z` the
node whose expansion just finished. -/
structure CBRow (graph : List (List Nat)) (n z : Nat)
    (done rest : List Nat) (st : CBState) : Prop where
  hz : z < n
  hrow : adjRow graph z = done ++ rest
  doneKeys : ∀ y ∈ done, y ∈ keysOf st
  keysEq : st.pred.map Prod.fst = keysOf st
  keysNd : (keysOf st).Nodup
  keysBd : ∀ x ∈ keysOf st, x < n
  stackSub : ∀ x ∈ st.stack, x ∈ keysOf st
  stackNd : st.stack.Nodup
  zKey : z ∈ keysOf st
  zNotStack : z ∉ st.stack
  zeroKey : 0 ∈ keysOf st
  zeroNotStack : 0 ∉ st.stack
  predClosed : ∀ kv ∈ st.pred, IsKey kv.2 st.pred
  predDec : PredDec st.pred
  rootFix : List.lookup 0 st.pred = some 0
  predEdge : ∀ y w, List.lookup y st.pred = some w → y ≠ 0 →
    y ∈ adjRow graph w
  predPop : ∀ y w, List.lookup y st.pred = some w → y ≠ 0 → Popped st w
  predInUsed : ∀ y w, List.lookup y st.pred = some w → y ≠ 0 →
    w ∈ usedSet st y
  usedGood : ∀ y s, List.lookup y st.used = some s →
    s.Nodup ∧ ∀ w ∈ s, w ∈ keysOf st ∧ y ∈ adjRow graph w ∧ w ≠ y
  prov : ∀ y s, List.lookup y st.used = some s → ∀ w ∈ s,
    List.lookup y st.pred = some w ∨ (Popped st w ∧ w ≠ z) ∨
      (w = z ∧ y ∈ done)
  predZ : ∀ y, List.lookup y st.pred = some z → y = z ∨ y ∈ done
  edgeDone : ∀ x, Popped st x → x ≠ z → ∀ y, y ∈ adjRow graph x → x ≠ y →
    (x ∈ usedSet st y ∨ y ∈ usedSet st x)
  edgeDoneZ : ∀ y ∈ done, y ≠ z → (z ∈ usedSet st y ∨ y ∈ usedSet st z)
  chainZ : ∀ y ∈ st.stack, ∀ w, List.lookup y st.pred = some w →
    ChainB st.pred z w
  chainPair : List.Pairwise (fun x y => ∀ wx wy,
    List.lookup x st.pred = some wx → List.lookup y st.pred = some wy →
    ChainB st.pred wx wy) st.stack
  cyclesGood : ∀ c ∈ st.cycles, c.Nodup ∧ ClosedWalk graph c
  selfCyc : ∀ x, Popped st x → x ≠ z → x ∈ adjRow graph x →
    [x] ∈ st.cycles
  selfZ : z ∈ done → [z] ∈ st.cycles
  zOnly : z = 0 → ∀ x, Popped st x → x = 0
  cnt : sumBy (poppedNZ n st z) (fun x => (adjRow graph x).length) +
      done.length + 1 =
    (keysOf st).length + st.cycles.length +
      sumBy (poppedNZ n st z) (fun x => (usedSet st x).length) +
      done.countP (fun w => decide (w ∈ usedSet st z))
  dsum : usedTotal st.used + (sumBy (poppedNZ n st z) (selfInd graph) +
      (if z ∈ done then 1 else 0)) + 1 =
    (keysOf st).length + st.cycles.length

theorem sumBy_filter_update {l : List Nat} {zo : Nat} (hnd : l.Nodup)
    (hm : zo ∈ l) (p q : Nat → Bool) (f : Nat → Nat) (hp : p zo = false)
    (hq : q zo = true) (hagree : ∀ x ∈ l, x ≠ zo → p x = q x) :
    sumBy (l.filter q) f = sumBy (l.filter p) f + f zo := by
  obtain ⟨l1, l2, rfl⟩ := List.append_of_mem hm
  have hnd2 := List.nodup_append.1 hnd
  have hz1 : zo ∉ l1 := fun hmem =>
    hnd2.2.2 hmem (List.mem_cons_self _ _)
  have hz2 : zo ∉ l2 := (List.nodup_cons.1 hnd2.2.1).1
  have hq1 : l1.filter q = l1.filter p :=
    (List.filter_congr fun x hx =>
      (hagree x (List.mem_append.2 (Or.inl hx))
        (fun he => hz1 (he ▸ hx))).symm)
  have hq2 : l2.filter q = l2.filter p :=
    (List.filter_congr fun x hx =>
      (hagree x (List.mem_append.2 (Or.inr (List.mem_cons_of_mem _ hx)))
        (fun he => hz2 (he ▸ hx))).symm)
  rw [List.filter_append, List.filter_append, List.filter_cons,
    List.filter_cons, hp, hq]
  simp only [cond_true, cond_false, if_pos, if_neg]
  unfold sumBy
  rw [hq1, hq2]
  simp [List.sum_append, List.map_append]
  omega

theorem countP_mem_eq_length {l s : List Nat} (hl : l.Nodup)
    (hs : s.Nodup) (hsub : ∀ w ∈ s, w ∈ l) :
    l.countP (fun w => decide (w ∈ s)) = s.length := by
  rw [List.countP_eq_length_filter]
  have hperm : (l.filter fun w => decide (w ∈ s)).Perm s := by
    rw [List.perm_iff_count]
    intro a
    by_cases ha : a ∈ s
    · rw [List.count_eq_one_of_mem hs ha,
        List.count_eq_one_of_mem (hl.filter _)
          (List.mem_filter.2 ⟨hsub a ha, by simpa⟩)]
    · rw [List.count_eq_zero_of_not_mem ha,
        List.count_eq_zero_of_not_mem
          (fun hm2 => ha (by simpa using (List.mem_filter.1 hm2).2))]
  exact hperm.length_eq

theorem keysOf_lookup {st : CBState} {y : Nat} (h : y ∈ keysOf st) :
    List.lookup y st.used = some (usedSet st y) := by
  have hk : IsKey y st.used := isKey_mem_fst.2 h
  unfold IsKey at hk
  cases hl : List.lookup y st.used with
  | none => rw [hl] at hk; cases hk
  | some s => unfold usedSet; rw [hl]; rfl

theorem lookup_some_key {β : Type} {l : List (Nat × β)} {y : Nat} {b : β}
    (h : List.lookup y l = some b) : y ∈ l.map Prod.fst :=
  List.mem_map.2 ⟨(y, b), lookup_mem h, rfl⟩

theorem predKey_lookup {st : CBState}
    (hEq : st.pred.map Prod.fst = keysOf st) {y : Nat}
    (h : y ∈ keysOf st) : ∃ w, List.lookup y st.pred = some w := by
  have hk : IsKey y st.pred := isKey_mem_fst.2 (hEq ▸ h)
  unfold IsKey at hk
  cases hl : List.lookup y st.pred with
  | none => rw [hl] at hk; cases hk
  | some w => exact ⟨w, rfl⟩

theorem mem_poppedNZ {n : Nat} {st : CBState} {z x : Nat} :
    x ∈ poppedNZ n st z ↔ x < n ∧ Popped st x ∧ x ≠ z := by
  unfold poppedNZ Popped
  rw [List.mem_filter, List.mem_range]
  simp only [decide_eq_true_eq]

theorem poppedNZ_congr {n : Nat} {st st2 : CBState} {z z2 : Nat}
    (h : ∀ x, x < n →
      (((x ∈ keysOf st2 ∧ x ∉ st2.stack) ∧ x ≠ z2) ↔
        ((x ∈ keysOf st ∧ x ∉ st.stack) ∧ x ≠ z))) :
    poppedNZ n st2 z2 = poppedNZ n st z := by
  unfold poppedNZ
  exact List.filter_congr fun x hx =>
    decide_eq_decide.2 (h x (List.mem_range.1 hx))

theorem sumBy_congr {l : List Nat} {f g : Nat → Nat}
    (h : ∀ x ∈ l, f x = g x) : sumBy l f = sumBy l g := by
  unfold sumBy
  rw [List.map_congr_left h]

theorem keysOf_setCycles (st : CBState) (cs : List (List Nat)) :
    keysOf { st with cycles := cs } = keysOf st := rfl

theorem usedSet_setCycles (st : CBState) (cs : List (List Nat)) :
    usedSet { st with cycles := cs } = usedSet st := rfl

theorem poppedNZ_setCycles (n : Nat) (st : CBState) (cs : List (List Nat))
    (z : Nat) : poppedNZ n { st with cycles := cs } z = poppedNZ n st z := rfl

/-- Examination of one neighbour already paired with the current node:
the state is unchanged and the neighbour goes to `done`. -/
theorem cbSkip {graph : List (List Nat)} {n z nb : Nat}
    {done rest2 : List Nat} {st : CBState}
    (R : CBRow graph n z done (nb :: rest2) st)
    (hpn : nb ∈ usedSet st z) :
    CBRow graph n z (done ++ [nb]) rest2 st := by
  have hnbG : nb ∈ adjRow graph z := by
    rw [R.hrow]; exact List.mem_append.2 (Or.inr (List.mem_cons_self _ _))
  have hzkey := R.zKey
  have huz := keysOf_lookup hzkey
  have hzn : z ≠ nb := by
    intro he
    exact ((R.usedGood z _ huz).2 nb hpn).2.2 he.symm
  have hnewrow : adjRow graph z = (done ++ [nb]) ++ rest2 := by
    rw [R.hrow]; simp
  have hdk : ∀ y ∈ done ++ [nb], y ∈ keysOf st := by
    intro y hy
    rcases List.mem_append.1 hy with h | h
    · exact R.doneKeys y h
    · rcases List.mem_singleton.1 h with rfl
      exact ((R.usedGood z _ huz).2 _ hpn).1
  refine ⟨R.hz, hnewrow, hdk, R.keysEq, R.keysNd, R.keysBd, R.stackSub,
    R.stackNd, R.zKey, R.zNotStack, R.zeroKey, R.zeroNotStack,
    R.predClosed, R.predDec, R.rootFix, R.predEdge, R.predPop,
    R.predInUsed, R.usedGood, ?_, ?_, R.edgeDone, ?_, R.chainZ,
    R.chainPair, R.cyclesGood, R.selfCyc, ?_, R.zOnly, ?_, ?_⟩
  · intro y s hs w hw
    rcases R.prov y s hs w hw with h1 | h2 | h3
    · exact Or.inl h1
    · exact Or.inr (Or.inl h2)
    · exact Or.inr (Or.inr ⟨h3.1, List.mem_append.2 (Or.inl h3.2)⟩)
  · intro y hy
    rcases R.predZ y hy with h | h
    · exact Or.inl h
    · exact Or.inr (List.mem_append.2 (Or.inl h))
  · intro y hy hyz
    rcases List.mem_append.1 hy with h | h
    · exact R.edgeDoneZ y h hyz
    · rcases List.mem_singleton.1 h with rfl
      exact Or.inr hpn
  · intro hzd
    rcases List.mem_append.1 hzd with h | h
    · exact R.selfZ h
    · exact absurd (List.mem_singleton.1 h) hzn
  · have hcnt := R.cnt
    rw [List.length_append, List.countP_append]
    have hp : List.countP (fun w => decide (w ∈ usedSet st z)) [nb] = 1 := by
      simp [hpn]
    rw [hp]
    simp only [List.length_singleton]
    omega
  · have hd := R.dsum
    have hiff : (z ∈ done ++ [nb]) ↔ z ∈ done := by
      rw [List.mem_append, List.mem_singleton]
      constructor
      · rintro (h | h)
        · exact h
        · exact absurd h hzn
      · exact Or.inl
    rw [if_congr hiff rfl rfl]
    omega

/-- Examination of a self-loop occurrence: the single-node cycle is
recorded. -/
theorem cbSelf {graph : List (List Nat)} {n z : Nat}
    {done rest2 : List Nat} {st : CBState}
    (R : CBRow graph n z done (z :: rest2) st)
    (hndG : ∀ a, a < n → (adjRow graph a).Nodup) :
    CBRow graph n z (done ++ [z]) rest2
      { st with cycles := st.cycles ++ [[z]] } := by
  have hnbG : z ∈ adjRow graph z := by
    rw [R.hrow]; exact List.mem_append.2 (Or.inr (List.mem_cons_self _ _))
  have hnewrow : adjRow graph z = (done ++ [z]) ++ rest2 := by
    rw [R.hrow]; simp
  have hzdone : z ∉ done := by
    intro hmem
    have hnd := hndG z R.hz
    rw [R.hrow] at hnd
    exact (List.disjoint_of_nodup_append hnd) hmem (List.mem_cons_self _ _)
  have hzu : z ∉ usedSet st z :=
    fun hm => ((R.usedGood z _ (keysOf_lookup R.zKey)).2 z hm).2.2 rfl
  have hdk : ∀ y ∈ done ++ [z], y ∈ keysOf st := by
    intro y hy
    rcases List.mem_append.1 hy with h | h
    · exact R.doneKeys y h
    · rcases List.mem_singleton.1 h with rfl
      exact R.zKey
  refine ⟨R.hz, hnewrow, hdk, R.keysEq, R.keysNd, R.keysBd, R.stackSub,
    R.stackNd, R.zKey, R.zNotStack, R.zeroKey, R.zeroNotStack,
    R.predClosed, R.predDec, R.rootFix, R.predEdge, R.predPop,
    R.predInUsed, R.usedGood, ?_, ?_, R.edgeDone, ?_, R.chainZ,
    R.chainPair, ?_, ?_, ?_, R.zOnly, ?_, ?_⟩
  · intro y s hs w hw
    rcases R.prov y s hs w hw with h1 | h2 | h3
    · exact Or.inl h1
    · exact Or.inr (Or.inl h2)
    · exact Or.inr (Or.inr ⟨h3.1, List.mem_append.2 (Or.inl h3.2)⟩)
  · intro y hy
    rcases R.predZ y hy with h | h
    · exact Or.inl h
    · exact Or.inr (List.mem_append.2 (Or.inl h))
  · intro y hy hyz
    rcases List.mem_append.1 hy with h | h
    · exact R.edgeDoneZ y h hyz
    · exact absurd (List.mem_singleton.1 h) hyz
  · intro c hc
    rcases List.mem_append.1 hc with h | h
    · exact R.cyclesGood c h
    · rcases List.mem_singleton.1 h with rfl
      exact ⟨List.nodup_singleton z, by simp, List.chain'_singleton z,
        by simpa using hnbG⟩
  · intro x hx hxz hself
    exact List.mem_append.2 (Or.inl (R.selfCyc x hx hxz hself))
  · intro _
    exact List.mem_append.2 (Or.inr (List.mem_singleton.2 rfl))
  · have hcnt := R.cnt
    rw [keysOf_setCycles, usedSet_setCycles, poppedNZ_setCycles]
    have hp : List.countP (fun w => decide (w ∈ usedSet st z)) [z] = 0 := by
      simp [hzu]
    simp only [List.length_append, List.countP_append, hp,
      List.length_singleton]
    omega
  · have hd := R.dsum
    have h1 : (if z ∈ done ++ [z] then 1 else 0) = 1 :=
      if_pos (List.mem_append.2 (Or.inr (List.mem_singleton.2 rfl)))
    have h0 : (if z ∈ done then 1 else 0) = 0 := if_neg hzdone
    rw [keysOf_setCycles, poppedNZ_setCycles,
      show ({ st with cycles := st.cycles ++ [[z]] } : CBState).used = st.used
        from rfl,
      show ({ st with cycles := st.cycles ++ [[z]] } : CBState).cycles =
        st.cycles ++ [[z]] from rfl, h1]
    rw [h0] at hd
    simp only [List.length_append, List.length_singleton]
    omega

/-- Examination of an undiscovered neighbour: the node is discovered,
recorded in the predecessor map with parent `z`, pushed, and given the
`used` set `{z}`. -/
theorem cbDiscover {graph : List (List Nat)} {n z nb : Nat}
    {done rest2 : List Nat} {st : CBState}
    (R : CBRow graph n z done (nb :: rest2) st)
    (hbd : ∀ a, a < n → ∀ b ∈ adjRow graph a, b < n)
    (hnone : List.lookup nb st.used = none) :
    CBRow graph n z (done ++ [nb]) rest2
      ⟨nb :: st.stack, (nb, z) :: st.pred, (nb, [z]) :: st.used,
        st.cycles⟩ := by
  have hnbG : nb ∈ adjRow graph z := by
    rw [R.hrow]; exact List.mem_append.2 (Or.inr (List.mem_cons_self _ _))
  have hnbn : nb < n := hbd z R.hz nb hnbG
  have hnewrow : adjRow graph z = (done ++ [nb]) ++ rest2 := by
    rw [R.hrow]; simp
  have hfresh : nb ∉ keysOf st := by
    intro hm
    have h2 := keysOf_lookup hm
    rw [hnone] at h2
    cases h2
  have hfreshP : ¬ IsKey nb st.pred := by
    rw [isKey_mem_fst, R.keysEq]; exact hfresh
  have hnbz : nb ≠ z := fun he => hfresh (he ▸ R.zKey)
  have hnb0 : nb ≠ 0 := fun he => hfresh (he ▸ R.zeroKey)
  have hnbstack : nb ∉ st.stack := fun hm => hfresh (R.stackSub nb hm)
  have hzPk : IsKey z st.pred := isKey_mem_fst.2 (R.keysEq ▸ R.zKey)
  have hlu : ∀ y, y ≠ nb →
      List.lookup y ((nb, [z]) :: st.used) = List.lookup y st.used :=
    fun y hy => by rw [lookup_cons_eqn, if_neg hy]
  have hlp : ∀ y, y ≠ nb →
      List.lookup y ((nb, z) :: st.pred) = List.lookup y st.pred :=
    fun y hy => by rw [lookup_cons_eqn, if_neg hy]
  have hus : ∀ y, y ≠ nb →
      usedSet ⟨nb :: st.stack, (nb, z) :: st.pred,
        (nb, [z]) :: st.used, st.cycles⟩ y = usedSet st y := by
    intro y hy
    unfold usedSet
    show (List.lookup y ((nb, [z]) :: st.used)).getD [] = _
    rw [hlu y hy]
  have huz2 : usedSet ⟨nb :: st.stack, (nb, z) :: st.pred,
      (nb, [z]) :: st.used, st.cycles⟩ nb = [z] := by
    unfold usedSet
    show (List.lookup nb ((nb, [z]) :: st.used)).getD [] = [z]
    rw [lookup_cons_eqn, if_pos rfl]
    rfl
  have hlpnb : List.lookup nb ((nb, z) :: st.pred) = some z := by
    rw [lookup_cons_eqn, if_pos rfl]
  have hkeys2 : keysOf ⟨nb :: st.stack, (nb, z) :: st.pred,
      (nb, [z]) :: st.used, st.cycles⟩ = nb :: keysOf st := rfl
  have husnb : usedSet st nb = [] := by
    unfold usedSet; rw [hnone]; rfl
  have hPop : ∀ x, Popped st x →
      Popped ⟨nb :: st.stack, (nb, z) :: st.pred,
        (nb, [z]) :: st.used, st.cycles⟩ x := by
    intro x hx
    refine ⟨List.mem_cons_of_mem _ hx.1, fun hm => ?_⟩
    rcases List.mem_cons.1 hm with rfl | hm2
    · exact hfresh hx.1
    · exact hx.2 hm2
  have hPopBack : ∀ x, Popped ⟨nb :: st.stack, (nb, z) :: st.pred,
      (nb, [z]) :: st.used, st.cycles⟩ x → Popped st x ∧ x ≠ nb := by
    intro x hx
    have hxnb : x ≠ nb := by
      intro he
      exact hx.2 (he ▸ List.mem_cons_self _ _)
    refine ⟨⟨?_, fun hm => hx.2 (List.mem_cons_of_mem _ hm)⟩, hxnb⟩
    rcases List.mem_cons.1 hx.1 with he | hm
    · exact absurd he hxnb
    · exact hm
  have hstab : ∀ a b, IsKey a st.pred → ChainB st.pred a b →
      ChainB ((nb, z) :: st.pred) a b :=
    fun a b ha h => chainB_cons_fresh R.predClosed hfreshP ha h
  have hpopEq : poppedNZ n ⟨nb :: st.stack, (nb, z) :: st.pred,
      (nb, [z]) :: st.used, st.cycles⟩ z = poppedNZ n st z := by
    apply poppedNZ_congr
    intro x hx
    constructor
    · rintro ⟨⟨hk, hs⟩, hxz⟩
      have hxnb : x ≠ nb := fun he => hs (he ▸ List.mem_cons_self _ _)
      refine ⟨⟨?_, fun hm => hs (List.mem_cons_of_mem _ hm)⟩, hxz⟩
      rcases List.mem_cons.1 hk with he | hm
      · exact absurd he hxnb
      · exact hm
    · rintro ⟨⟨hk, hs⟩, hxz⟩
      have hxnb : x ≠ nb := fun he => hfresh (he ▸ hk)
      refine ⟨⟨List.mem_cons_of_mem _ hk, fun hm => ?_⟩, hxz⟩
      rcases List.mem_cons.1 hm with he | hm2
      · exact hxnb he
      · exact hs hm2
  refine ⟨R.hz, hnewrow, ?_, ?_, ?_, ?_, ?_, ?_, ?_, ?_, ?_, ?_, ?_, ?_,
    ?_, ?_, ?_, ?_, ?_, ?_, ?_, ?_, ?_, ?_, ?_, ?_, ?_, ?_, ?_, ?_, ?_⟩
  · intro y hy
    rw [hkeys2]
    rcases List.mem_append.1 hy with h | h
    · exact List.mem_cons_of_mem _ (R.doneKeys y h)
    · rcases List.mem_singleton.1 h with rfl
      exact List.mem_cons_self _ _
  · show nb :: st.pred.map Prod.fst = nb :: keysOf st
    rw [R.keysEq]
  · rw [hkeys2]
    exact List.nodup_cons.2 ⟨hfresh, R.keysNd⟩
  · rw [hkeys2]
    intro x hx
    rcases List.mem_cons.1 hx with rfl | hm
    · exact hnbn
    · exact R.keysBd x hm
  · intro x hx
    rw [hkeys2]
    rcases List.mem_cons.1 hx with rfl | hm
    · exact List.mem_cons_self _ _
    · exact List.mem_cons_of_mem _ (R.stackSub x hm)
  · exact List.nodup_cons.2 ⟨hnbstack, R.stackNd⟩
  · rw [hkeys2]
    exact List.mem_cons_of_mem _ R.zKey
  · intro hm
    rcases List.mem_cons.1 hm with he | hm2
    · exact hnbz he.symm
    · exact R.zNotStack hm2
  · rw [hkeys2]
    exact List.mem_cons_of_mem _ R.zeroKey
  · intro hm
    rcases List.mem_cons.1 hm with he | hm2
    · exact hnb0 he.symm
    · exact R.zeroNotStack hm2
  · intro kv hkv
    rcases List.mem_cons.1 hkv with rfl | hm
    · exact isKey_cons z nb z st.pred hzPk
    · exact isKey_cons kv.2 nb z st.pred (R.predClosed kv hm)
  · exact predDec_cons R.predDec (by rw [R.keysEq]; exact R.zKey)
  · show List.lookup 0 ((nb, z) :: st.pred) = some 0
    rw [hlp 0 (fun he => hnb0 he.symm)]
    exact R.rootFix
  · intro y w hl hy0
    by_cases hynb : y = nb
    · subst y
      rw [hlpnb] at hl
      rw [← Option.some_inj.1 hl]
      exact hnbG
    · rw [show List.lookup y (CBState.pred ⟨nb :: st.stack,
        (nb, z) :: st.pred, (nb, [z]) :: st.used, st.cycles⟩) =
          List.lookup y ((nb, z) :: st.pred) from rfl, hlp y hynb] at hl
      exact R.predEdge y w hl hy0
  · intro y w hl hy0
    by_cases hynb : y = nb
    · subst y
      rw [hlpnb] at hl
      rw [← Option.some_inj.1 hl]
      refine ⟨List.mem_cons_of_mem _ R.zKey, fun hm => ?_⟩
      rcases List.mem_cons.1 hm with he | hm2
      · exact hnbz he.symm
      · exact R.zNotStack hm2
    · rw [show List.lookup y (CBState.pred ⟨nb :: st.stack,
        (nb, z) :: st.pred, (nb, [z]) :: st.used, st.cycles⟩) =
          List.lookup y ((nb, z) :: st.pred) from rfl, hlp y hynb] at hl
      exact hPop w (R.predPop y w hl hy0)
  · intro y w hl hy0
    by_cases hynb : y = nb
    · subst y
      rw [hlpnb] at hl
      rw [huz2, ← Option.some_inj.1 hl]
      exact List.mem_singleton.2 rfl
    · rw [show List.lookup y (CBState.pred ⟨nb :: st.stack,
        (nb, z) :: st.pred, (nb, [z]) :: st.used, st.cycles⟩) =
          List.lookup y ((nb, z) :: st.pred) from rfl, hlp y hynb] at hl
      rw [hus y hynb]
      exact R.predInUsed y w hl hy0
  · intro y s hs
    by_cases hynb : y = nb
    · subst y
      rw [show List.lookup nb (CBState.used ⟨nb :: st.stack,
        (nb, z) :: st.pred, (nb, [z]) :: st.used, st.cycles⟩) =
          some [z] from by rw [show CBState.used ⟨nb :: st.stack,
            (nb, z) :: st.pred, (nb, [z]) :: st.used, st.cycles⟩ =
              (nb, [z]) :: st.used from rfl, lookup_cons_eqn, if_pos rfl]]
        at hs
      rw [← Option.some_inj.1 hs]
      refine ⟨List.nodup_singleton z, ?_⟩
      intro w hw
      rcases List.mem_singleton.1 hw with rfl
      exact ⟨by rw [hkeys2]; exact List.mem_cons_of_mem _ R.zKey, hnbG,
        fun he => hnbz he.symm⟩
    · rw [show List.lookup y (CBState.used ⟨nb :: st.stack,
        (nb, z) :: st.pred, (nb, [z]) :: st.used, st.cycles⟩) =
          List.lookup y ((nb, [z]) :: st.used) from rfl, hlu y hynb] at hs
      obtain ⟨hnd, hall⟩ := R.usedGood y s hs
      refine ⟨hnd, fun w hw => ?_⟩
      obtain ⟨h1, h2, h3⟩ := hall w hw
      exact ⟨by rw [hkeys2]; exact List.mem_cons_of_mem _ h1, h2, h3⟩
  · intro y s hs w hw
    by_cases hynb : y = nb
    · subst y
      rw [show List.lookup nb (CBState.used ⟨nb :: st.stack,
        (nb, z) :: st.pred, (nb, [z]) :: st.used, st.cycles⟩) =
          some [z] from by rw [show CBState.used ⟨nb :: st.stack,
            (nb, z) :: st.pred, (nb, [z]) :: st.used, st.cycles⟩ =
              (nb, [z]) :: st.used from rfl, lookup_cons_eqn, if_pos rfl]]
        at hs
      rw [← Option.some_inj.1 hs] at hw
      rcases List.mem_singleton.1 hw with rfl
      exact Or.inl hlpnb
    · rw [show List.lookup y (CBState.used ⟨nb :: st.stack,
        (nb, z) :: st.pred, (nb, [z]) :: st.used, st.cycles⟩) =
          List.lookup y ((nb, [z]) :: st.used) from rfl, hlu y hynb] at hs
      rcases R.prov y s hs w hw with h1 | h2 | h3
      · refine Or.inl ?_
        show List.lookup y ((nb, z) :: st.pred) = some w
        rw [hlp y hynb]
        exact h1
      · exact Or.inr (Or.inl ⟨hPop w h2.1, h2.2⟩)
      · exact Or.inr (Or.inr ⟨h3.1, List.mem_append.2 (Or.inl h3.2)⟩)
  · intro y hy
    by_cases hynb : y = nb
    · subst y
      exact Or.inr (List.mem_append.2 (Or.inr (List.mem_singleton.2 rfl)))
    · rw [show List.lookup y (CBState.pred ⟨nb :: st.stack,
        (nb, z) :: st.pred, (nb, [z]) :: st.used, st.cycles⟩) =
          List.lookup y ((nb, z) :: st.pred) from rfl, hlp y hynb] at hy
      rcases R.predZ y hy with h | h
      · exact Or.inl h
      · exact Or.inr (List.mem_append.2 (Or.inl h))
  · intro x hx hxz y hyAdj hxy
    obtain ⟨hxPop, hxnb⟩ := hPopBack x hx
    rcases R.edgeDone x hxPop hxz y hyAdj hxy with h | h
    · by_cases hynb : y = nb
      · rw [hynb, husnb] at h
        cases h
      · exact Or.inl (by rw [hus y hynb]; exact h)
    · exact Or.inr (by rw [hus x hxnb]; exact h)
  · intro y hy hyz
    rcases List.mem_append.1 hy with h | h
    · have hynb : y ≠ nb := fun he => hfresh (he ▸ R.doneKeys y h)
      rcases R.edgeDoneZ y h hyz with h2 | h2
      · exact Or.inl (by rw [hus y hynb]; exact h2)
      · exact Or.inr (by rw [hus z (fun he => hnbz he.symm)]; exact h2)
    · rcases List.mem_singleton.1 h with rfl
      exact Or.inl (by rw [huz2]; exact List.mem_singleton.2 rfl)
  · intro y hy w hl
    rcases List.mem_cons.1 hy with rfl | hm
    · rw [hlpnb] at hl
      rw [← Option.some_inj.1 hl]
      exact ⟨0, rfl⟩
    · have hynb : y ≠ nb := fun he => hfresh (he ▸ R.stackSub y hm)
      rw [show List.lookup y (CBState.pred ⟨nb :: st.stack,
        (nb, z) :: st.pred, (nb, [z]) :: st.used, st.cycles⟩) =
          List.lookup y ((nb, z) :: st.pred) from rfl, hlp y hynb] at hl
      exact hstab z w hzPk (R.chainZ y hm w hl)
  · show List.Pairwise _ (nb :: st.stack)
    rw [List.pairwise_cons]
    constructor
    · intro y hy wx wy hlx hly
      rw [hlpnb] at hlx
      have hynb : y ≠ nb := fun he => hfresh (he ▸ R.stackSub y hy)
      rw [hlp y hynb] at hly
      rw [← Option.some_inj.1 hlx]
      exact hstab z wy hzPk (R.chainZ y hy wy hly)
    · refine R.chainPair.imp_of_mem ?_
      intro a b ha hb hold wx wy hlx hly
      have hanb : a ≠ nb := fun he => hfresh (he ▸ R.stackSub a ha)
      have hbnb : b ≠ nb := fun he => hfresh (he ▸ R.stackSub b hb)
      rw [hlp a hanb] at hlx
      rw [hlp b hbnb] at hly
      exact hstab wx wy (R.predClosed (a, wx) (lookup_mem hlx))
        (hold wx wy hlx hly)
  · exact R.cyclesGood
  · intro x hx hxz hself
    exact R.selfCyc x (hPopBack x hx).1 hxz hself
  · intro hzd
    rcases List.mem_append.1 hzd with h | h
    · exact R.selfZ h
    · exact absurd (List.mem_singleton.1 h) (fun he => hnbz he.symm)
  · intro h0 x hx
    exact R.zOnly h0 x (hPopBack x hx).1
  · have hcnt := R.cnt
    rw [hpopEq, hkeys2]
    have husEq : sumBy (poppedNZ n st z)
        (fun x => (usedSet ⟨nb :: st.stack, (nb, z) :: st.pred,
          (nb, [z]) :: st.used, st.cycles⟩ x).length) =
        sumBy (poppedNZ n st z) (fun x => (usedSet st x).length) := by
      apply sumBy_congr
      intro x hx
      have hxk := (mem_poppedNZ.1 hx).2.1.1
      rw [hus x (fun he => hfresh (he ▸ hxk))]
    have huzEq : usedSet ⟨nb :: st.stack, (nb, z) :: st.pred,
        (nb, [z]) :: st.used, st.cycles⟩ z = usedSet st z :=
      hus z (fun he => hnbz he.symm)
    rw [husEq, huzEq, List.countP_append, List.length_append]
    have hnbNot : nb ∉ usedSet st z := by
      intro hm
      exact hfresh ((R.usedGood z _ (keysOf_lookup R.zKey)).2 nb hm).1
    have hp0 : List.countP (fun w => decide (w ∈ usedSet st z)) [nb] = 0 := by
      simp [hnbNot]
    rw [hp0]
    simp only [List.length_cons, List.length_singleton, List.length_nil]
    omega
  · have hd := R.dsum
    rw [hpopEq, hkeys2]
    have hut : usedTotal ((nb, [z]) :: st.used) = usedTotal st.used + 1 := by
      simp [usedTotal]
      omega
    rw [show CBState.used ⟨nb :: st.stack, (nb, z) :: st.pred,
      (nb, [z]) :: st.used, st.cycles⟩ = (nb, [z]) :: st.used from rfl, hut]
    have hiff : (z ∈ done ++ [nb]) ↔ z ∈ done := by
      rw [List.mem_append, List.mem_singleton]
      constructor
      · rintro (h | h)
        · exact h
        · exact absurd h.symm hnbz
      · exact Or.inl
    rw [if_congr hiff rfl rfl]
    simp only [List.length_cons]
    omega

theorem chain_all {α : Type} {P : α → Prop} {step : α → α → Prop}
    (hstep : ∀ a b, P a → step a b → P b) :
    ∀ (l : List α) (h0 : α), l.head? = some h0 → P h0 →
      List.Chain' step l → ∀ x ∈ l, P x := by
  intro l
  induction l with
  | nil =>
    intro h0 hh
    cases hh
  | cons a l2 ih =>
    intro h0 hh hP hch x hx
    have ha : a = h0 := Option.some_inj.1 hh
    subst ha
    rcases List.mem_cons.1 hx with rfl | hx2
    · exact hP
    · cases l2 with
      | nil => simp at hx2
      | cons b l3 =>
        have hab : step a b := (List.chain'_cons.1 hch).1
        exact ih b rfl (hstep a b hP hab) (List.chain'_cons.1 hch).2 x hx2

theorem chain_source {α : Type} {step Q : α → α → Prop} :
    ∀ (l : List α), List.Chain' step l →
      (∀ a b, a ∈ l.dropLast → b ∈ l → step a b → Q a b) →
      List.Chain' Q l := by
  intro l
  induction l with
  | nil => intro _ _; exact List.chain'_nil
  | cons a l2 ih =>
    intro hch hconv
    cases l2 with
    | nil => exact List.chain'_singleton a
    | cons b l3 =>
      rw [List.chain'_cons]
      obtain ⟨hab, hch2⟩ := List.chain'_cons.1 hch
      have hdl : (a :: b :: l3).dropLast = a :: (b :: l3).dropLast :=
        List.dropLast_cons_of_ne_nil (by simp)
      refine ⟨hconv a b (by rw [hdl]; exact List.mem_cons_self _ _)
        (List.mem_cons_of_mem _ (List.mem_cons_self _ _)) hab, ?_⟩
      refine ih hch2 ?_
      intro a2 b2 ha2 hb2 hstep2
      exact hconv a2 b2 (by rw [hdl]; exact List.mem_cons_of_mem _ ha2)
        (List.mem_cons_of_mem _ hb2) hstep2

theorem chain_head_le {f : Nat → Nat} :
    ∀ (l : List Nat) (h0 : Nat),
      List.Chain' (fun a b => f a < f b) l → l.head? = some h0 →
      ∀ x ∈ l, f h0 ≤ f x := by
  intro l
  induction l with
  | nil =>
    intro h0 _ hh
    cases hh
  | cons a l2 ih =>
    intro h0 hch hh x hx
    have ha : a = h0 := Option.some_inj.1 hh
    subst ha
    rcases List.mem_cons.1 hx with rfl | hx2
    · exact Nat.le_refl _
    · cases l2 with
      | nil => simp at hx2
      | cons b l3 =>
        obtain ⟨hab, hch2⟩ := List.chain'_cons.1 hch
        exact Nat.le_of_lt (Nat.lt_of_lt_of_le hab (ih b hch2 rfl x hx2))

theorem chain_lt_nodup {f : Nat → Nat} :
    ∀ (l : List Nat), List.Chain' (fun a b => f a < f b) l → l.Nodup := by
  intro l
  induction l with
  | nil => intro _; exact List.nodup_nil
  | cons a l2 ih =>
    intro hch
    rw [List.nodup_cons]
    cases l2 with
    | nil => exact ⟨by simp, List.nodup_nil⟩
    | cons b l3 =>
      obtain ⟨hab, hch2⟩ := List.chain'_cons.1 hch
      refine ⟨fun hm => ?_, ih hch2⟩
      have := chain_head_le (b :: l3) b hch2 rfl a hm
      omega

theorem zero_chain_absurd {pred : List (Nat × Nat)} {pn : List Nat}
    (h0 : List.lookup 0 pred = some 0) :
    ∀ (l : List Nat),
      List.Chain' (fun a b => List.lookup a pred = some b) l →
      l.head? = some 0 → 0 ∉ pn →
      (∃ tl, l.getLast? = some tl ∧ tl ∈ pn) → False := by
  intro l
  induction l with
  | nil =>
    intro _ hh
    cases hh
  | cons a l2 ih =>
    intro hch hh hnp hlast
    have ha : a = 0 := Option.some_inj.1 hh
    subst ha
    cases l2 with
    | nil =>
      obtain ⟨tl, htl, htlpn⟩ := hlast
      have : tl = 0 := (Option.some_inj.1 htl).symm
      subst this
      exact hnp htlpn
    | cons b l3 =>
      obtain ⟨hab, hch2⟩ := List.chain'_cons.1 hch
      rw [h0] at hab
      have hb : b = 0 := (Option.some_inj.1 hab).symm
      subst hb
      obtain ⟨tl, htl, htlpn⟩ := hlast
      rw [List.getLast?_cons_cons] at htl
      exact ih hch2 rfl hnp ⟨tl, htl, htlpn⟩

theorem walk_no_zero {pred : List (Nat × Nat)} {pn : List Nat}
    (h0 : List.lookup 0 pred = some 0) :
    ∀ (l : List Nat),
      List.Chain' (fun a b => List.lookup a pred = some b) l →
      (∀ x ∈ l.dropLast, x ∉ pn) →
      (∃ tl, l.getLast? = some tl ∧ tl ∈ pn) →
      ∀ x ∈ l.dropLast, x ≠ 0 := by
  intro l
  induction l with
  | nil =>
    intro _ _ _ x hx
    simp at hx
  | cons a l2 ih =>
    intro hch hdp hlast x hx
    cases l2 with
    | nil => simp at hx
    | cons b l3 =>
      have hdl : (a :: b :: l3).dropLast = a :: (b :: l3).dropLast :=
        List.dropLast_cons_of_ne_nil (by simp)
      rw [hdl] at hx
      obtain ⟨hab, hch2⟩ := List.chain'_cons.1 hch
      rcases List.mem_cons.1 hx with rfl | hx2
      · intro hx0
        subst hx0
        refine @zero_chain_absurd pred pn h0 (0 :: b :: l3) hch rfl ?_ ?_
        · exact hdp 0 (by rw [hdl]; exact List.mem_cons_self _ _)
        · obtain ⟨tl, htl, htlpn⟩ := hlast
          exact ⟨tl, htl, htlpn⟩
      · refine ih hch2 ?_ ?_ x hx2
        · intro y hy
          exact hdp y (by rw [hdl]; exact List.mem_cons_of_mem _ hy)
        · obtain ⟨tl, htl, htlpn⟩ := hlast
          rw [List.getLast?_cons_cons] at htl
          exact ⟨tl, htl, htlpn⟩

/-- Examination of a discovered neighbour not yet paired with the
current node: the predecessor walk closes a cycle.  The walk terminates
within its fuel, the cycle is a simple closed walk, and the invariant is
preserved with the neighbour set of `nb` extended by `z`. -/
theorem cbClosure {graph : List (List Nat)} {n z nb : Nat}
    {done rest2 : List Nat} {st : CBState} {pnb uz : List Nat}
    (R : CBRow graph n z done (nb :: rest2) st)
    (hbd : ∀ a, a < n → ∀ b ∈ adjRow graph a, b < n)
    (hndG : ∀ a, a < n → (adjRow graph a).Nodup)
    (hsym : ∀ a, a < n → ∀ b, b < n →
      (b ∈ adjRow graph a ↔ a ∈ adjRow graph b))
    (hpn : List.lookup nb st.used = some pnb)
    (hzn : ¬ z = nb)
    (huz : List.lookup z st.used = some uz)
    (hnmem : nb ∉ uz) :
    ∃ p0 cycle, List.lookup z st.pred = some p0 ∧
      predWalk st.pred pnb (st.pred.length + 1) p0 [nb, z] = .ok cycle ∧
      CBRow graph n z (done ++ [nb]) rest2
        { st with cycles := st.cycles ++ [cycle],
                  used := insertUsed st.used nb z } := by
  have hnbG : nb ∈ adjRow graph z := by
    rw [R.hrow]; exact List.mem_append.2 (Or.inr (List.mem_cons_self _ _))
  have hnbn : nb < n := hbd z R.hz nb hnbG
  have hnewrow : adjRow graph z = (done ++ [nb]) ++ rest2 := by
    rw [R.hrow]; simp
  have hrowND : (adjRow graph z).Nodup := hndG z R.hz
  have hnbdone : nb ∉ done := by
    have h2 := hrowND
    rw [R.hrow] at h2
    exact fun hm =>
      (List.disjoint_of_nodup_append h2) hm (List.mem_cons_self _ _)
  have hnbkey : nb ∈ keysOf st := lookup_some_key hpn
  have huzSet : usedSet st z = uz := by unfold usedSet; rw [huz]; rfl
  have hpnSet : usedSet st nb = pnb := by unfold usedSet; rw [hpn]; rfl
  have hnbz2 : nb ≠ z := fun he => hzn he.symm
  have hznbpn : z ∉ pnb := by
    intro hm
    rcases R.prov nb pnb hpn z hm with h1 | h2 | h3
    · rcases R.predZ nb h1 with he | hd
      · exact hzn he.symm
      · exact hnbdone hd
    · exact h2.2 rfl
    · exact hnbdone h3.2
  have hnbStack : nb ∈ st.stack := by
    by_cases hs : nb ∈ st.stack
    · exact hs
    · exfalso
      have hnbPop : Popped st nb := ⟨hnbkey, hs⟩
      have hzAdjNb : z ∈ adjRow graph nb := (hsym z R.hz nb hnbn).1 hnbG
      rcases R.edgeDone nb hnbPop hnbz2 z hzAdjNb hnbz2 with h | h
      · rw [huzSet] at h
        exact hnmem h
      · rw [hpnSet] at h
        exact hznbpn h
  have hnb0 : nb ≠ 0 := fun he => R.zeroNotStack (he ▸ hnbStack)
  obtain ⟨p0, hp0⟩ := predKey_lookup R.keysEq R.zKey
  obtain ⟨wnb, hwnb⟩ := predKey_lookup R.keysEq (R.stackSub nb hnbStack)
  have hwnbPn : wnb ∈ pnb := by
    have h2 := R.predInUsed nb wnb hwnb hnb0
    rw [hpnSet] at h2
    exact h2
  have hz0 : z ≠ 0 := by
    intro hz
    have hPwnb : Popped st wnb := R.predPop nb wnb hwnb hnb0
    have hw0 : wnb = 0 := R.zOnly hz wnb hPwnb
    have hlz : List.lookup nb st.pred = some z := by
      rw [hwnb, hw0, hz]
    rcases R.predZ nb hlz with he | hd
    · exact hzn he.symm
    · exact hnbdone hd
  have hndP : (st.pred.map Prod.fst).Nodup := by
    rw [R.keysEq]; exact R.keysNd
  obtain ⟨k, hk⟩ := R.chainZ nb hnbStack wnb hwnb
  cases k with
  | zero =>
    exfalso
    have hwz : wnb = z :=
      (Option.some_inj.1 (show some z = some wnb from hk)).symm
    have hlz : List.lookup nb st.pred = some z := by rw [hwnb, hwz]
    rcases R.predZ nb hlz with he | hd
    · exact hzn he.symm
    · exact hnbdone hd
  | succ k =>
    rw [predIter_succ_of_lookup hp0] at hk
    have hkeyP0 : IsKey p0 st.pred := R.predClosed (z, p0) (lookup_mem hp0)
    obtain ⟨k2, hk2le, hit2⟩ :=
      predIter_short hndP R.predDec R.rootFix hk hkeyP0
    obtain ⟨ws, hwalk, hhead, hchain, hdropPn, tl, hlast, htlPn⟩ :=
      predWalk_run st.pred pnb k2 (st.pred.length + 1)
        (Nat.lt_succ_of_le hk2le) p0 [nb, z] wnb hit2 hwnbPn
    refine ⟨p0, [nb, z] ++ ws, hp0, hwalk, ?_⟩
    have hwsne : ws ≠ [] := by
      intro h
      rw [h] at hhead
      cases hhead
    have hPopP0 : Popped st p0 := R.predPop z p0 hp0 hz0
    have hstepPop : ∀ a b, Popped st a →
        List.lookup a st.pred = some b → Popped st b := by
      intro a b hPa hl
      by_cases ha0 : a = 0
      · subst ha0
        rw [R.rootFix] at hl
        rw [← Option.some_inj.1 hl]
        exact ⟨R.zeroKey, R.zeroNotStack⟩
      · exact R.predPop a b hl ha0
    have hwsPop : ∀ x ∈ ws, Popped st x :=
      chain_all hstepPop ws p0 hhead hPopP0 hchain
    have hwsInt0 : ∀ x ∈ ws.dropLast, x ≠ 0 :=
      walk_no_zero R.rootFix ws hchain hdropPn ⟨tl, hlast, htlPn⟩
    have hchainIdx : List.Chain'
        (fun a b => keyIdx st.pred a < keyIdx st.pred b) ws := by
      refine chain_source ws hchain ?_
      intro a b ha hb hstep
      exact keyIdx_lt_of_lookup hndP R.predDec hstep (hwsInt0 a ha)
    have hwsNd : ws.Nodup := chain_lt_nodup ws hchainIdx
    have hidxzp0 : keyIdx st.pred z < keyIdx st.pred p0 :=
      keyIdx_lt_of_lookup hndP R.predDec hp0 hz0
    have hzws : z ∉ ws := by
      intro hm
      have h2 := chain_head_le ws p0 hchainIdx hhead z hm
      omega
    have hnbws : nb ∉ ws := fun hm => (hwsPop nb hm).2 hnbStack
    have hcycNd : ([nb, z] ++ ws).Nodup := by
      rw [show ([nb, z] ++ ws) = nb :: z :: ws from rfl,
        List.nodup_cons, List.nodup_cons]
      refine ⟨?_, hzws, hwsNd⟩
      intro hm
      rcases List.mem_cons.1 hm with he | hm2
      · exact hnbz2 he
      · exact hnbws hm2
    have hwsKeys : ∀ x ∈ ws, x ∈ keysOf st := fun x hx => (hwsPop x hx).1
    have hchainAdj : List.Chain' (fun a b => b ∈ adjRow graph a) ws := by
      refine chain_source ws hchain ?_
      intro a b ha hb hstep
      have han : a < n :=
        R.keysBd a (hwsKeys a (List.dropLast_subset _ ha))
      have hbn : b < n := R.keysBd b (hwsKeys b hb)
      exact (hsym b hbn a han).1 (R.predEdge a b hstep (hwsInt0 a ha))
    have hcycClosed : ClosedWalk graph ([nb, z] ++ ws) := by
      refine ⟨by simp, ?_, ?_⟩
      · rw [show ([nb, z] ++ ws) = nb :: z :: ws from rfl, List.chain'_cons]
        refine ⟨(hsym z R.hz nb hnbn).1 hnbG, ?_⟩
        rw [List.chain'_cons']
        refine ⟨?_, hchainAdj⟩
        intro y hy
        rw [hhead] at hy
        have hyp : y = p0 := (by simpa using hy : p0 = y).symm
        subst y
        have hp0n : p0 < n := R.keysBd p0 hPopP0.1
        exact (hsym p0 hp0n z R.hz).1 (R.predEdge z p0 hp0 hz0)
      · have hlastD : ([nb, z] ++ ws).getLastD 0 = tl := by
          rw [List.getLastD_eq_getLast?]
          have h2 : ([nb, z] ++ ws).getLast? = some tl := by
            rw [List.getLast?_append, hlast]
            rfl
          rw [h2]
          rfl
        rw [show ([nb, z] ++ ws).headD 0 = nb from rfl, hlastD]
        exact ((R.usedGood nb pnb hpn).2 tl htlPn).2.1
    have hkeys2 : keysOf { st with
        cycles := st.cycles ++ [[nb, z] ++ ws],
        used := insertUsed st.used nb z } = keysOf st := by
      show (insertUsed st.used nb z).map Prod.fst = keysOf st
      exact insertUsed_keys st.used nb z
    have hus2 : ∀ y, y ≠ nb → usedSet { st with
        cycles := st.cycles ++ [[nb, z] ++ ws],
        used := insertUsed st.used nb z } y = usedSet st y := by
      intro y hy
      show (List.lookup y (insertUsed st.used nb z)).getD [] =
        (List.lookup y st.used).getD []
      rw [lookup_insertUsed]
      cases hluy : List.lookup y st.used with
      | none => rfl
      | some s =>
        show (some (if y = nb then z :: s else s)).getD [] = s
        rw [if_neg hy]
        rfl
    have husnb2 : usedSet { st with
        cycles := st.cycles ++ [[nb, z] ++ ws],
        used := insertUsed st.used nb z } nb = z :: pnb := by
      show (List.lookup nb (insertUsed st.used nb z)).getD [] = z :: pnb
      rw [lookup_insertUsed, hpn]
      show (some (if nb = nb then z :: pnb else pnb)).getD [] = z :: pnb
      rw [if_pos rfl]
      rfl
    have hsub2 : ∀ y w, w ∈ usedSet st y → w ∈ usedSet { st with
        cycles := st.cycles ++ [[nb, z] ++ ws],
        used := insertUsed st.used nb z } y := by
      intro y w hw
      by_cases hy : y = nb
      · subst y
        rw [husnb2]
        rw [hpnSet] at hw
        exact List.mem_cons_of_mem _ hw
      · rw [hus2 y hy]
        exact hw
    have hluEq2 : ∀ y s, y ≠ nb →
        (List.lookup y (insertUsed st.used nb z) = some s ↔
          List.lookup y st.used = some s) := by
      intro y s hy
      rw [lookup_insertUsed]
      cases hluy : List.lookup y st.used with
      | none => exact Iff.rfl
      | some s0 =>
        show some (if y = nb then z :: s0 else s0) = some s ↔ some s0 = some s
        rw [if_neg hy]
    have hPopIff : ∀ x, Popped { st with
        cycles := st.cycles ++ [[nb, z] ++ ws],
        used := insertUsed st.used nb z } x ↔ Popped st x := by
      intro x
      unfold Popped
      rw [hkeys2]
    have hpop2 : poppedNZ n { st with
        cycles := st.cycles ++ [[nb, z] ++ ws],
        used := insertUsed st.used nb z } z = poppedNZ n st z := by
      apply poppedNZ_congr
      intro x hx
      rw [hkeys2]
    refine ⟨R.hz, hnewrow, ?_, ?_, ?_, ?_, ?_, ?_, ?_, ?_, ?_, ?_,
      R.predClosed, R.predDec, R.rootFix, R.predEdge, ?_, ?_, ?_, ?_, ?_,
      ?_, ?_, R.chainZ, R.chainPair, ?_, ?_, ?_, ?_, ?_, ?_⟩
    · intro y hy
      rw [hkeys2]
      rcases List.mem_append.1 hy with h | h
      · exact R.doneKeys y h
      · rcases List.mem_singleton.1 h with rfl
        exact hnbkey
    · show st.pred.map Prod.fst = _
      rw [hkeys2]
      exact R.keysEq
    · rw [hkeys2]; exact R.keysNd
    · rw [hkeys2]; exact R.keysBd
    · show ∀ x ∈ st.stack, _
      rw [hkeys2]
      exact R.stackSub
    · exact R.stackNd
    · rw [hkeys2]; exact R.zKey
    · exact R.zNotStack
    · rw [hkeys2]; exact R.zeroKey
    · exact R.zeroNotStack
    · intro y w hl hy0
      exact (hPopIff w).2 (R.predPop y w hl hy0)
    · intro y w hl hy0
      exact hsub2 y w (R.predInUsed y w hl hy0)
    · intro y s hs
      by_cases hy : y = nb
      · subst y
        have hs2 : List.lookup nb (insertUsed st.used nb z) =
            some (z :: pnb) := by
          rw [lookup_insertUsed, hpn]
          show some (if nb = nb then z :: pnb else pnb) = some (z :: pnb)
          rw [if_pos rfl]
        rw [show List.lookup nb (CBState.used { st with
          cycles := st.cycles ++ [[nb, z] ++ ws],
          used := insertUsed st.used nb z }) =
            List.lookup nb (insertUsed st.used nb z) from rfl, hs2] at hs
        have hseq : s = z :: pnb := (Option.some_inj.1 hs).symm
        subst hseq
        obtain ⟨hndpnb, hall⟩ := R.usedGood nb pnb hpn
        refine ⟨List.nodup_cons.2 ⟨hznbpn, hndpnb⟩, ?_⟩
        intro w hw
        rcases List.mem_cons.1 hw with rfl | hw2
        · exact ⟨by rw [hkeys2]; exact R.zKey, hnbG, hzn⟩
        · obtain ⟨h1, h2, h3⟩ := hall w hw2
          exact ⟨by rw [hkeys2]; exact h1, h2, h3⟩
      · have hs3 : List.lookup y st.used = some s := (hluEq2 y s hy).1 hs
        obtain ⟨hnds, hall⟩ := R.usedGood y s hs3
        refine ⟨hnds, fun w hw => ?_⟩
        obtain ⟨h1, h2, h3⟩ := hall w hw
        exact ⟨by rw [hkeys2]; exact h1, h2, h3⟩
    · intro y s hs w hw
      by_cases hy : y = nb
      · subst y
        have hs2 : List.lookup nb (insertUsed st.used nb z) =
            some (z :: pnb) := by
          rw [lookup_insertUsed, hpn]
          show some (if nb = nb then z :: pnb else pnb) = some (z :: pnb)
          rw [if_pos rfl]
        rw [show List.lookup nb (CBState.used { st with
          cycles := st.cycles ++ [[nb, z] ++ ws],
          used := insertUsed st.used nb z }) =
            List.lookup nb (insertUsed st.used nb z) from rfl, hs2] at hs
        have hseq : s = z :: pnb := (Option.some_inj.1 hs).symm
        subst hseq
        rcases List.mem_cons.1 hw with rfl | hw2
        · exact Or.inr (Or.inr ⟨rfl,
            List.mem_append.2 (Or.inr (List.mem_singleton.2 rfl))⟩)
        · rcases R.prov nb pnb hpn w hw2 with h1 | h2 | h3
          · exact Or.inl h1
          · exact Or.inr (Or.inl ⟨(hPopIff w).2 h2.1, h2.2⟩)
          · exact Or.inr (Or.inr ⟨h3.1, List.mem_append.2 (Or.inl h3.2)⟩)
      · have hs3 : List.lookup y st.used = some s := (hluEq2 y s hy).1 hs
        rcases R.prov y s hs3 w hw with h1 | h2 | h3
        · exact Or.inl h1
        · exact Or.inr (Or.inl ⟨(hPopIff w).2 h2.1, h2.2⟩)
        · exact Or.inr (Or.inr ⟨h3.1, List.mem_append.2 (Or.inl h3.2)⟩)
    · intro y hy
      rcases R.predZ y hy with h | h
      · exact Or.inl h
      · exact Or.inr (List.mem_append.2 (Or.inl h))
    · intro x hx hxz y hyAdj hxy
      rcases R.edgeDone x ((hPopIff x).1 hx) hxz y hyAdj hxy with h | h
      · exact Or.inl (hsub2 y x h)
      · exact Or.inr (hsub2 x y h)
    · intro y hy hyz
      rcases List.mem_append.1 hy with h | h
      · rcases R.edgeDoneZ y h hyz with h2 | h2
        · exact Or.inl (hsub2 y z h2)
        · exact Or.inr (hsub2 z y h2)
      · rcases List.mem_singleton.1 h with rfl
        refine Or.inl ?_
        rw [husnb2]
        exact List.mem_cons_self _ _
    · intro c hc
      rcases List.mem_append.1 hc with h | h
      · exact R.cyclesGood c h
      · rcases List.mem_singleton.1 h with rfl
        exact ⟨hcycNd, hcycClosed⟩
    · intro x hx hxz hself
      exact List.mem_append.2
        (Or.inl (R.selfCyc x ((hPopIff x).1 hx) hxz hself))
    · intro hzd
      rcases List.mem_append.1 hzd with h | h
      · exact List.mem_append.2 (Or.inl (R.selfZ h))
      · exact absurd (List.mem_singleton.1 h) hzn
    · intro h0
      exact absurd h0 hz0
    · have hcnt := R.cnt
      rw [hpop2, hkeys2]
      have husEq : sumBy (poppedNZ n st z) (fun x => (usedSet { st with
          cycles := st.cycles ++ [[nb, z] ++ ws],
          used := insertUsed st.used nb z } x).length) =
          sumBy (poppedNZ n st z) (fun x => (usedSet st x).length) := by
        apply sumBy_congr
        intro x hx
        have hxP := (mem_poppedNZ.1 hx).2.1
        have hxnb : x ≠ nb := fun he => hxP.2 (he ▸ hnbStack)
        rw [hus2 x hxnb]
      have huzEq2 : usedSet { st with
          cycles := st.cycles ++ [[nb, z] ++ ws],
          used := insertUsed st.used nb z } z = usedSet st z :=
        hus2 z (fun he => hzn he)
      rw [husEq, huzEq2, huzSet]
      rw [huzSet] at hcnt
      rw [show CBState.cycles { st with
        cycles := st.cycles ++ [[nb, z] ++ ws],
        used := insertUsed st.used nb z } =
          st.cycles ++ [[nb, z] ++ ws] from rfl]
      have hp0' : List.countP (fun w => decide (w ∈ uz)) [nb] = 0 := by
        simp [hnmem]
      simp only [List.countP_append, List.length_append, hp0',
        List.length_singleton, List.length_nil, List.length_cons]
      omega
    · have hd := R.dsum
      rw [hpop2, hkeys2]
      have hut : usedTotal (insertUsed st.used nb z) =
          usedTotal st.used + 1 :=
        usedTotal_insert st.used nb z R.keysNd hnbkey
      rw [show CBState.used { st with
        cycles := st.cycles ++ [[nb, z] ++ ws],
        used := insertUsed st.used nb z } =
          insertUsed st.used nb z from rfl, hut]
      rw [show CBState.cycles { st with
        cycles := st.cycles ++ [[nb, z] ++ ws],
        used := insertUsed st.used nb z } =
          st.cycles ++ [[nb, z] ++ ws] from rfl]
      have hiff : (z ∈ done ++ [nb]) ↔ z ∈ done := by
        rw [List.mem_append, List.mem_singleton]
        constructor
        · rintro (h | h)
          · exact h
          · exact absurd h hzn
        · exact Or.inl
      rw [if_congr hiff rfl rfl]
      simp only [List.length_append, List.length_singleton]
      omega

theorem keys_le_of_row {graph : List (List Nat)} {n z : Nat}
    {done rest : List Nat} {st : CBState}
    (R : CBRow graph n z done rest st) : (keysOf st).length ≤ n := by
  have hs : keysOf st ⊆ List.range n :=
    fun x hx => List.mem_range.2 (R.keysBd x hx)
  have h2 := (List.subperm_of_subset R.keysNd hs).length_le
  simpa using h2

/-- One neighbour examination succeeds and preserves the row invariant;
the stack-plus-undiscovered measure does not increase. -/
theorem processNeighbor_row {graph : List (List Nat)} {n z nb : Nat}
    {done rest2 : List Nat} {st : CBState}
    (R : CBRow graph n z done (nb :: rest2) st)
    (hbd : ∀ a, a < n → ∀ b ∈ adjRow graph a, b < n)
    (hndG : ∀ a, a < n → (adjRow graph a).Nodup)
    (hsym : ∀ a, a < n → ∀ b, b < n →
      (b ∈ adjRow graph a ↔ a ∈ adjRow graph b)) :
    ∃ st2, processNeighbor st z nb = .ok st2 ∧
      CBRow graph n z (done ++ [nb]) rest2 st2 ∧
      st2.stack.length + 2 * (n - (keysOf st2).length) ≤
        st.stack.length + 2 * (n - (keysOf st).length) := by
  cases hlu : List.lookup nb st.used with
  | none =>
    have R2 := cbDiscover R hbd hlu
    refine ⟨_, ?_, R2, ?_⟩
    · simp only [processNeighbor, hlu]
    · have hk2 : (keysOf ⟨nb :: st.stack, (nb, z) :: st.pred,
          (nb, [z]) :: st.used, st.cycles⟩).length =
          (keysOf st).length + 1 := rfl
      have hle := keys_le_of_row R2
      rw [hk2] at hle ⊢
      show st.stack.length + 1 + _ ≤ _
      omega
  | some pn =>
    by_cases hzn : z = nb
    · subst hzn
      have R2 := cbSelf R hndG
      refine ⟨_, ?_, R2, Nat.le_refl _⟩
      simp [processNeighbor, hlu]
    · have huz := keysOf_lookup R.zKey
      by_cases hmem : nb ∈ usedSet st z
      · refine ⟨st, ?_, cbSkip R hmem, Nat.le_refl _⟩
        simp only [processNeighbor, hlu, if_neg hzn, huz, if_pos hmem]
      · have hpnK := keysOf_lookup (lookup_some_key hlu)
        obtain ⟨p0, cycle, hp0, hwalk, R2⟩ :=
          cbClosure R hbd hndG hsym hpnK hzn huz hmem
        refine ⟨_, ?_, R2, ?_⟩
        · have hpnEq : usedSet st nb = pn := by
            unfold usedSet
            rw [hlu]
            rfl
          rw [hpnEq] at hwalk
          simp only [processNeighbor, hlu, if_neg hzn, huz, if_neg hmem,
            hp0, hwalk]
        · have hstk : ({ st with
              cycles := st.cycles ++ [cycle],
              used := insertUsed st.used nb z } : CBState).stack =
              st.stack := rfl
          have hkeq : keysOf { st with
              cycles := st.cycles ++ [cycle],
              used := insertUsed st.used nb z } = keysOf st := by
            show (insertUsed st.used nb z).map Prod.fst = keysOf st
            exact insertUsed_keys st.used nb z
          rw [hstk, hkeq]

/-- A full row of neighbour examinations succeeds and preserves the row
invariant. -/
theorem processNeighbors_row {graph : List (List Nat)} {n z : Nat}
    (hbd : ∀ a, a < n → ∀ b ∈ adjRow graph a, b < n)
    (hndG : ∀ a, a < n → (adjRow graph a).Nodup)
    (hsym : ∀ a, a < n → ∀ b, b < n →
      (b ∈ adjRow graph a ↔ a ∈ adjRow graph b)) :
    ∀ (rest done : List Nat) (st : CBState),
      CBRow graph n z done rest st →
      ∃ st2, processNeighbors st z rest = .ok st2 ∧
        CBRow graph n z (done ++ rest) [] st2 ∧
        st2.stack.length + 2 * (n - (keysOf st2).length) ≤
          st.stack.length + 2 * (n - (keysOf st).length) := by
  intro rest
  induction rest with
  | nil =>
    intro done st R
    refine ⟨st, rfl, ?_, Nat.le_refl _⟩
    rw [List.append_nil]
    exact R
  | cons nb rest2 ih =>
    intro done st R
    obtain ⟨st2, hok, R2, hm⟩ := processNeighbor_row R hbd hndG hsym
    obtain ⟨st3, hok3, R3, hm3⟩ := ih (done ++ [nb]) st2 R2
    refine ⟨st3, ?_, ?_, Nat.le_trans hm3 hm⟩
    · simp only [processNeighbors, hok, hok3]
    · rw [show done ++ nb :: rest2 = (done ++ [nb]) ++ rest2 by simp]
      exact R3

/-- Popping the next stack node: a finished row for `zo` becomes a fresh
row for the popped node `z2`. -/
theorem cbPop {graph : List (List Nat)} {n zo z2 : Nat} {rest2 : List Nat}
    {st : CBState}
    (R : CBRow graph n zo (adjRow graph zo) [] st)
    (hndG : ∀ a, a < n → (adjRow graph a).Nodup)
    (hsym : ∀ a, a < n → ∀ b, b < n →
      (b ∈ adjRow graph a ↔ a ∈ adjRow graph b))
    (hst : st.stack = z2 :: rest2) :
    CBRow graph n z2 [] (adjRow graph z2) { st with stack := rest2 } := by
  have hz2s : z2 ∈ st.stack := by
    rw [hst]; exact List.mem_cons_self _ _
  have hz2k : z2 ∈ keysOf st := R.stackSub z2 hz2s
  have hz2n : z2 < n := R.keysBd z2 hz2k
  have hstnd := R.stackNd
  rw [hst] at hstnd
  have hz2rest : z2 ∉ rest2 := (List.nodup_cons.1 hstnd).1
  have hrestNd : rest2.Nodup := (List.nodup_cons.1 hstnd).2
  have hrestSub : ∀ x ∈ rest2, x ∈ st.stack := by
    intro x hx
    rw [hst]
    exact List.mem_cons_of_mem _ hx
  have hzoK := R.zKey
  have hzon : zo < n := R.keysBd zo hzoK
  have hzo_ne : zo ≠ z2 := fun he => R.zNotStack (he ▸ hz2s)
  have hzo_nrest : zo ∉ rest2 := fun hm => R.zNotStack (hrestSub zo hm)
  have h0_nrest : 0 ∉ rest2 := fun hm => R.zeroNotStack (hrestSub 0 hm)
  have hz2_ne0 : z2 ≠ 0 := fun he => R.zeroNotStack (he ▸ hz2s)
  have hPopLift : ∀ x, Popped st x →
      Popped { st with stack := rest2 } x ∧ x ≠ z2 := by
    intro x hx
    have hxz2 : x ≠ z2 := fun he => hx.2 (he ▸ hz2s)
    exact ⟨⟨hx.1, fun hm => hx.2 (hrestSub x hm)⟩, hxz2⟩
  have hPopzo : Popped { st with stack := rest2 } zo := ⟨hzoK, hzo_nrest⟩
  have hpw := R.chainPair
  rw [hst] at hpw
  have hpwc := List.pairwise_cons.1 hpw
  obtain ⟨w2, hw2⟩ := predKey_lookup R.keysEq hz2k
  have hupdate : ∀ f : Nat → Nat,
      sumBy (poppedNZ n { st with stack := rest2 } z2) f =
        sumBy (poppedNZ n st zo) f + f zo := by
    intro f
    refine sumBy_filter_update (List.nodup_range n)
      (List.mem_range.2 hzon) _ _ f ?_ ?_ ?_
    · simp
    · simp only [decide_eq_true_eq]
      exact ⟨⟨hzoK, hzo_nrest⟩, hzo_ne⟩
    · intro x hx hxzo
      apply decide_eq_decide.2
      constructor
      · rintro ⟨⟨hk, hns⟩, _⟩
        rw [hst] at hns
        exact ⟨⟨hk, fun hm => hns (List.mem_cons_of_mem _ hm)⟩,
          fun he => hns (he ▸ List.mem_cons_self _ _)⟩
      · rintro ⟨⟨hk, hnr⟩, hnz2⟩
        refine ⟨⟨hk, ?_⟩, hxzo⟩
        rw [hst]
        intro hm
        rcases List.mem_cons.1 hm with he | hm2
        · exact hnz2 he
        · exact hnr hm2
  have hcp : List.countP (fun w => decide (w ∈ usedSet st zo))
      (adjRow graph zo) = (usedSet st zo).length := by
    refine countP_mem_eq_length (hndG zo R.hz)
      (R.usedGood zo _ (keysOf_lookup hzoK)).1 ?_
    intro w hw
    obtain ⟨hk, hadj, hne⟩ := (R.usedGood zo _ (keysOf_lookup hzoK)).2 w hw
    exact (hsym w (R.keysBd w hk) zo R.hz).1 hadj
  refine ⟨hz2n, (List.nil_append _).symm, ?_, R.keysEq, R.keysNd,
    R.keysBd, ?_, hrestNd, hz2k, hz2rest, R.zeroKey, h0_nrest,
    R.predClosed, R.predDec, R.rootFix, R.predEdge, ?_, R.predInUsed,
    R.usedGood, ?_, ?_, ?_, ?_, ?_, hpwc.2, R.cyclesGood, ?_, ?_, ?_,
    ?_, ?_⟩
  · intro y hy
    simp at hy
  · intro x hx
    exact R.stackSub x (hrestSub x hx)
  · intro y w hl hy0
    exact (hPopLift w (R.predPop y w hl hy0)).1
  · intro y s hs w hw
    rcases R.prov y s hs w hw with h1 | h2 | h3
    · exact Or.inl h1
    · exact Or.inr (Or.inl (hPopLift w h2.1))
    · rw [h3.1]
      exact Or.inr (Or.inl ⟨hPopzo, hzo_ne⟩)
  · intro y hl
    by_cases hy0 : y = 0
    · subst hy0
      rw [R.rootFix] at hl
      exact absurd (Option.some_inj.1 hl).symm hz2_ne0
    · exact absurd (R.predPop y z2 hl hy0).2 (fun h2 => h2 hz2s)
  · intro x hx hxz2 y hyAdj hxy
    have hxPop : Popped st x := ⟨hx.1, by
      rw [hst]
      intro hm
      rcases List.mem_cons.1 hm with he | hm2
      · exact hxz2 he
      · exact hx.2 hm2⟩
    by_cases hxzo : x = zo
    · subst hxzo
      exact R.edgeDoneZ y hyAdj (fun he => hxy he.symm)
    · exact R.edgeDone x hxPop hxzo y hyAdj hxy
  · intro y hy hyz
    simp at hy
  · intro y hy w hl
    obtain ⟨k, hk⟩ := hpwc.1 y hy w2 w hw2 hl
    exact ⟨k + 1, by rw [predIter_succ_of_lookup hw2]; exact hk⟩
  · intro x hx hxz2 hself
    have hxPop : Popped st x := ⟨hx.1, by
      rw [hst]
      intro hm
      rcases List.mem_cons.1 hm with he | hm2
      · exact hxz2 he
      · exact hx.2 hm2⟩
    by_cases hxzo : x = zo
    · subst hxzo
      exact R.selfZ hself
    · exact R.selfCyc x hxPop hxzo hself
  · intro h
    simp at h
  · intro h0
    exact absurd h0 hz2_ne0
  · have hcnt := R.cnt
    rw [hcp] at hcnt
    have h1 := hupdate (fun x => (adjRow graph x).length)
    have h2 := hupdate (fun x => (usedSet st x).length)
    have hvers : (fun x => (usedSet { st with stack := rest2 } x).length) =
        (fun x => (usedSet st x).length) := rfl
    have hkv : keysOf { st with stack := rest2 } = keysOf st := rfl
    rw [hvers, hkv, h1, h2]
    simp only [List.length_nil, List.countP_nil, List.length_append]
      at hcnt ⊢
    omega
  · have hd := R.dsum
    have h3 := hupdate (selfInd graph)
    have hvers : (fun x => selfInd graph x) = selfInd graph := rfl
    have hkv : keysOf { st with stack := rest2 } = keysOf st := rfl
    have hzoSelf : selfInd graph zo =
        (if zo ∈ adjRow graph zo then 1 else 0) := rfl
    rw [hkv, h3]
    have hnil : (if z2 ∈ ([] : List Nat) then 1 else 0) = 0 :=
      if_neg (List.not_mem_nil z2)
    have hu : ({ st with stack := rest2 } : CBState).used = st.used := rfl
    have hc : ({ st with stack := rest2 } : CBState).cycles = st.cycles :=
      rfl
    rw [hnil, hzoSelf, hu, hc]
    omega

/-- The spanning-tree loop runs to completion from any boundary state,
under the stack-plus-undiscovered fuel measure. -/
theorem cbLoop_run {graph : List (List Nat)} {n : Nat}
    (hglen : graph.length = n)
    (hbd : ∀ a, a < n → ∀ b ∈ adjRow graph a, b < n)
    (hndG : ∀ a, a < n → (adjRow graph a).Nodup)
    (hsym : ∀ a, a < n → ∀ b, b < n →
      (b ∈ adjRow graph a ↔ a ∈ adjRow graph b)) :
    ∀ (fuel : Nat) (st : CBState) (zo : Nat),
      CBRow graph n zo (adjRow graph zo) [] st →
      st.stack.length + 2 * (n - (keysOf st).length) ≤ fuel →
      ∃ stF zF, cbLoop graph fuel st = .ok stF.cycles ∧
        CBRow graph n zF (adjRow graph zF) [] stF ∧ stF.stack = [] := by
  intro fuel
  induction fuel with
  | zero =>
    intro st zo R hf
    cases hstack : st.stack with
    | nil =>
      refine ⟨st, zo, ?_, R, hstack⟩
      show cbLoop graph 0 st = .ok st.cycles
      simp only [cbLoop, hstack]
    | cons a l =>
      rw [hstack] at hf
      simp only [List.length_cons] at hf
      omega
  | succ fuel ih =>
    intro st zo R hf
    cases hstack : st.stack with
    | nil =>
      refine ⟨st, zo, ?_, R, hstack⟩
      show cbLoop graph (fuel + 1) st = .ok st.cycles
      simp only [cbLoop, hstack]
    | cons z2 rest2 =>
      have R2 := cbPop R hndG hsym hstack
      have hz2n : z2 < n := R2.hz
      have hlt : z2 < graph.length := by rw [hglen]; exact hz2n
      have hrowz2 : graph[z2]? = some (adjRow graph z2) := by
        rw [List.getElem?_eq_getElem hlt]
        unfold adjRow
        rw [List.getElem?_eq_getElem hlt]
        rfl
      obtain ⟨st2, hok, R3, hm⟩ :=
        processNeighbors_row hbd hndG hsym (adjRow graph z2) [] _ R2
      rw [List.nil_append] at R3
      have hm2 : st2.stack.length + 2 * (n - (keysOf st2).length) ≤ fuel := by
        have hms : ({ st with stack := rest2 } : CBState).stack.length =
            rest2.length := rfl
        have hK : keysOf { st with stack := rest2 } = keysOf st := rfl
        rw [hms, hK] at hm
        rw [hstack] at hf
        simp only [List.length_cons] at hf
        omega
      obtain ⟨stF, zF, hrun, RF, hsF⟩ := ih st2 z2 R3 hm2
      refine ⟨stF, zF, ?_, RF, hsF⟩
      show cbLoop graph (fuel + 1) st = .ok stF.cycles
      simp only [cbLoop, hstack, hrowz2, hok]
      exact hrun

/-- The state just after node 0 is popped off the initial stack
satisfies the row invariant for an empty `done`. -/
theorem cbInit {graph : List (List Nat)} {n : Nat} (hn : 0 < n) :
    CBRow graph n 0 [] (adjRow graph 0)
      ⟨[], [(0, 0)], [(0, [])], []⟩ := by
  have hkeys0 : keysOf (⟨[], [(0, 0)], [(0, [])], []⟩ : CBState) = [0] := rfl
  have hnil : poppedNZ n (⟨[], [(0, 0)], [(0, [])], []⟩ : CBState) 0 = [] := by
    unfold poppedNZ
    rw [List.filter_eq_nil_iff]
    intro a ha
    simp only [decide_eq_true_eq]
    rintro ⟨⟨hk, -⟩, hne⟩
    rw [hkeys0] at hk
    exact hne (by simpa using hk)
  refine ⟨hn, (List.nil_append _).symm, ?_, rfl, ?_, ?_, ?_,
    List.nodup_nil, ?_, ?_, ?_, ?_, ?_, ?_, ?_, ?_, ?_, ?_, ?_, ?_, ?_,
    ?_, ?_, ?_, List.Pairwise.nil, ?_, ?_, ?_, ?_, ?_, ?_⟩
  · intro y hy
    simp at hy
  · exact List.nodup_singleton 0
  · intro x hx
    rw [hkeys0] at hx
    have hx0 : x = 0 := by simpa using hx
    rw [hx0]
    exact hn
  · intro x hx
    simp at hx
  · exact List.mem_singleton.2 rfl
  · exact List.not_mem_nil 0
  · exact List.mem_singleton.2 rfl
  · exact List.not_mem_nil 0
  · intro kv hkv
    rcases List.mem_singleton.1 hkv with rfl
    exact isKey_cons_self 0 0 []
  · intro l1 y w l2 he hy
    cases l1 with
    | nil =>
      simp only [List.nil_append] at he
      obtain ⟨h1, h2⟩ := List.cons.injEq .. ▸ he
      obtain ⟨hy0, -⟩ := Prod.mk.injEq .. ▸ h1
      exact absurd hy0.symm hy
    | cons a l1 =>
      simp only [List.cons_append] at he
      obtain ⟨-, h2⟩ := List.cons.injEq .. ▸ he
      simp at h2
  · rfl
  · intro y w hl hy0
    rw [lookup_cons_eqn, if_neg hy0] at hl
    cases hl
  · intro y w hl hy0
    rw [lookup_cons_eqn, if_neg hy0] at hl
    cases hl
  · intro y w hl hy0
    rw [lookup_cons_eqn, if_neg hy0] at hl
    cases hl
  · intro y s hs
    by_cases hy0 : y = 0
    · subst hy0
      rw [lookup_cons_eqn, if_pos rfl] at hs
      rw [← Option.some_inj.1 hs]
      exact ⟨List.nodup_nil, fun w hw => absurd hw (List.not_mem_nil w)⟩
    · rw [lookup_cons_eqn, if_neg hy0] at hs
      cases hs
  · intro y s hs w hw
    by_cases hy0 : y = 0
    · subst hy0
      rw [lookup_cons_eqn, if_pos rfl] at hs
      rw [← Option.some_inj.1 hs] at hw
      exact absurd hw (List.not_mem_nil w)
    · rw [lookup_cons_eqn, if_neg hy0] at hs
      cases hs
  · intro y hl
    by_cases hy0 : y = 0
    · exact Or.inl hy0
    · rw [lookup_cons_eqn, if_neg hy0] at hl
      cases hl
  · intro x hx hxz _ _ _
    have h2 := hx.1
    rw [hkeys0] at h2
    exact absurd (by simpa using h2) hxz
  · intro y hy
    simp at hy
  · intro y hy
    simp at hy
  · intro c hc
    simp at hc
  · intro x hx hxz _
    have h2 := hx.1
    rw [hkeys0] at h2
    exact absurd (by simpa using h2) hxz
  · intro h
    simp at h
  · intro _ x hx
    have h2 := hx.1
    rw [hkeys0] at h2
    simpa using h2
  · rw [hnil]
    rfl
  · rw [hnil]
    rfl

theorem reachIter_sound {graph : List (List Nat)} :
    ∀ (k v : Nat), v ∈ reachIterFrom graph 0 k → ReachP graph v := by
  intro k
  induction k with
  | zero =>
    intro v hv
    have hv0 : v = 0 := by simpa [reachIterFrom] using hv
    rw [hv0]
    exact ReachP.root
  | succ k ih =>
    intro v hv
    rw [show reachIterFrom graph 0 (k + 1) =
      reachStep graph (reachIterFrom graph 0 k) from rfl] at hv
    unfold reachStep at hv
    rw [List.mem_dedup, List.mem_append] at hv
    rcases hv with h | h
    · exact ih v h
    · obtain ⟨u, hu, hv2⟩ := List.mem_flatMap.1 h
      exact ReachP.step (ih u hu) hv2

theorem reach_lt {graph : List (List Nat)} {n : Nat}
    (hglen : graph.length = n) (hn : 0 < n)
    (hbd : ∀ a, a < n → ∀ b ∈ adjRow graph a, b < n) :
    ∀ {v : Nat}, ReachP graph v → v < n := by
  intro v hre
  induction hre with
  | root => exact hn
  | step hu hadj ih => exact hbd _ ih _ hadj

theorem rows_nonempty {graph : List (List Nat)} {n : Nat}
    (hglen : graph.length = n) (hn : 0 < n)
    (hbd : ∀ a, a < n → ∀ b ∈ adjRow graph a, b < n)
    (hsym : ∀ a, a < n → ∀ b, b < n →
      (b ∈ adjRow graph a ↔ a ∈ adjRow graph b))
    {v : Nat} (hv : ReachP graph v) (hv0 : v ≠ 0) :
    adjRow graph v ≠ [] := by
  cases hv with
  | root => exact absurd rfl hv0
  | step hu hadj =>
    have hun : _ < n := reach_lt hglen hn hbd hu
    have hvn : v < n := hbd _ hun v hadj
    have h2 : _ ∈ adjRow graph v := (hsym _ hun v hvn).1 hadj
    exact List.ne_nil_of_mem h2

theorem sumBy_range_rows (graph : List (List Nat)) :
    sumBy (List.range graph.length) (fun x => (adjRow graph x).length) =
      (graph.map List.length).sum := by
  unfold sumBy
  congr 1
  refine List.ext_getElem (by simp) ?_
  intro i h1 h2
  have hi : i < graph.length := by simpa using h2
  rw [List.getElem_map, List.getElem_map, List.getElem_range]
  unfold adjRow
  rw [List.getElem?_eq_getElem hi]
  rfl

theorem countP_eq_sumBy_ind (l : List Nat) (p : Nat → Prop)
    [DecidablePred p] :
    l.countP (fun x => decide (p x)) =
      sumBy l (fun x => if p x then 1 else 0) := by
  induction l with
  | nil => rfl
  | cons a l2 ih =>
    rw [List.countP_cons]
    unfold sumBy at ih ⊢
    rw [List.map_cons, List.sum_cons, ih]
    have h2 : (if (decide (p a)) = true then 1 else 0) =
        (if p a then 1 else 0) := if_congr (by rw [decide_eq_true_eq]) rfl rfl
    omega

theorem perm_of_nodup_mem_iff {l1 l2 : List Nat} (h1 : l1.Nodup)
    (h2 : l2.Nodup) (hm : ∀ x, x ∈ l1 ↔ x ∈ l2) : l1.Perm l2 := by
  rw [List.perm_iff_count]
  intro a
  by_cases ha : a ∈ l1
  · rw [List.count_eq_one_of_mem h1 ha,
      List.count_eq_one_of_mem h2 ((hm a).1 ha)]
  · rw [List.count_eq_zero_of_not_mem ha,
      List.count_eq_zero_of_not_mem (fun hmem => ha ((hm a).2 hmem))]

theorem sumBy_perm {l1 l2 : List Nat} (h : l1.Perm l2) (f : Nat → Nat) :
    sumBy l1 f = sumBy l2 f := (h.map f).sum_eq

theorem usedTotal_eq_sumBy :
    ∀ (used : List (Nat × List Nat)), (used.map Prod.fst).Nodup →
      usedTotal used = sumBy (used.map Prod.fst)
        (fun x => ((List.lookup x used).getD []).length) := by
  intro used
  induction used with
  | nil => intro _; rfl
  | cons kv rest ih =>
    intro hnd
    obtain ⟨k0, s0⟩ := kv
    have hmap : ((k0, s0) :: rest).map Prod.fst = k0 :: rest.map Prod.fst :=
      rfl
    rw [hmap] at hnd ⊢
    have hnd2 := List.nodup_cons.1 hnd
    unfold usedTotal sumBy at ih ⊢
    rw [List.map_cons, List.sum_cons, List.map_cons, List.sum_cons]
    have hk0 : ((List.lookup k0 ((k0, s0) :: rest)).getD []).length =
        s0.length := by
      rw [lookup_cons_eqn, if_pos rfl]
      rfl
    have hrest : ∀ x ∈ rest.map Prod.fst,
        ((List.lookup x ((k0, s0) :: rest)).getD []).length =
          ((List.lookup x rest).getD []).length := by
      intro x hx
      have hxk : x ≠ k0 := fun he => hnd2.1 (he ▸ hx)
      rw [lookup_cons_eqn, if_neg hxk]
    rw [hk0, List.map_congr_left hrest, ih hnd2.2]

theorem usedSet_mem_key {st : CBState} {y w : Nat}
    (h : w ∈ usedSet st y) : y ∈ keysOf st := by
  unfold usedSet at h
  cases hl : List.lookup y st.used with
  | none =>
    rw [hl] at h
    simp at h
  | some s => exact lookup_some_key hl

theorem final_keys_complete {graph : List (List Nat)} {n zF : Nat}
    {stF : CBState}
    (RF : CBRow graph n zF (adjRow graph zF) [] stF)
    (hsF : stF.stack = []) :
    ∀ {v : Nat}, ReachP graph v → v ∈ keysOf stF := by
  intro v hre
  induction hre with
  | root => exact RF.zeroKey
  | @step u v hu hadj ih =>
    by_cases huv : u = v
    · exact huv ▸ ih
    · have hPop : Popped stF u := ⟨ih, by
        rw [hsF]
        exact List.not_mem_nil u⟩
      by_cases huzF : u = zF
      · subst huzF
        by_cases hvzf : v = u
        · exact hvzf ▸ ih
        · rcases RF.edgeDoneZ v hadj hvzf with h | h
          · exact usedSet_mem_key h
          · exact ((RF.usedGood u _ (keysOf_lookup RF.zKey)).2 v h).1
      · rcases RF.edgeDone u hPop huzF v hadj huv with h | h
        · exact usedSet_mem_key h
        · exact ((RF.usedGood u _ (keysOf_lookup ih)).2 v h).1

theorem sumBy_range_indicator (m : Nat) :
    sumBy (List.range m) (fun v => if v = 0 then 0 else 1) = m - 1 := by
  induction m with
  | zero => rfl
  | succ m ih =>
    rw [List.range_succ]
    unfold sumBy at ih ⊢
    rw [List.map_append, List.sum_append, ih]
    cases m with
    | zero => simp
    | succ m2 =>
      have h2 : (([m2 + 1].map fun v => if v = 0 then 0 else 1)).sum = 1 := by
        simp
      rw [h2]
      omega

/-- C8 (amended): on a non-empty adjacency list with duplicate-free rows,
every edge listed symmetrically and every node reachable from node 0,
`cycle_basis` succeeds and returns one cycle per independent loop of the
graph — twice the number of returned cycles equals the total adjacency
length plus the number of self-loops minus `2 * (n - 1)`, the count of
independent loops doubled — and every returned cycle is simple (no
repeated node) and closed in the graph, with a self-loop at a node
yielding its single-node cycle. -/
theorem cycleBasis_paton (graph : List (List Nat)) (hn : 0 < graph.length)
    (hbd : ∀ a, a < graph.length → ∀ b ∈ adjRow graph a, b < graph.length)
    (hndG : ∀ a, a < graph.length → (adjRow graph a).Nodup)
    (hsym : ∀ a, a < graph.length → ∀ b, b < graph.length →
      (b ∈ adjRow graph a ↔ a ∈ adjRow graph b))
    (hconn : ∀ v, v < graph.length → v ∈ reachList graph) :
    ∃ cs, cycleBasis graph = .ok cs ∧
      2 * cs.length + 2 * (graph.length - 1) =
        (graph.map List.length).sum +
          (List.range graph.length).countP
            (fun x => decide (x ∈ adjRow graph x)) ∧
      (∀ c ∈ cs, c.Nodup ∧ ClosedWalk graph c) ∧
      (∀ x, x < graph.length → x ∈ adjRow graph x → [x] ∈ cs) := by
  have hrow0 : graph[0]? = some (adjRow graph 0) := by
    rw [List.getElem?_eq_getElem hn]
    unfold adjRow
    rw [List.getElem?_eq_getElem hn]
    rfl
  obtain ⟨st1, hok1, R1, hm1⟩ :=
    processNeighbors_row hbd hndG hsym (adjRow graph 0) []
      ⟨[], [(0, 0)], [(0, [])], []⟩ (cbInit hn)
  rw [List.nil_append] at R1
  have hsum : graph.length - 1 ≤ (graph.map List.length).sum := by
    have hrows : ∀ v, v < graph.length → v ≠ 0 →
        1 ≤ (adjRow graph v).length := by
      intro v hv hv0
      have hre : ReachP graph v := reachIter_sound _ v (hconn v hv)
      have hne := rows_nonempty rfl hn hbd hsym hre hv0
      cases hadj : adjRow graph v with
      | nil => exact absurd hadj hne
      | cons a l => simp
    have h1 : sumBy (List.range graph.length)
        (fun v => if v = 0 then 0 else 1) ≤
        sumBy (List.range graph.length)
          (fun x => (adjRow graph x).length) := by
      unfold sumBy
      apply List.sum_le_sum
      intro i hi
      by_cases hi0 : i = 0
      · simp [hi0]
      · rw [if_neg hi0]
        exact hrows i (List.mem_range.1 hi) hi0
    rw [sumBy_range_rows, sumBy_range_indicator] at h1
    exact h1
  have hm1b : st1.stack.length + 2 *
      (graph.length - (keysOf st1).length) ≤
      graph.length + (graph.map List.length).sum := by
    have hk1 : (keysOf (⟨[], [(0, 0)], [(0, [])], []⟩ : CBState)).length
        = 1 := rfl
    have hs1 : ((⟨[], [(0, 0)], [(0, [])], []⟩ : CBState)).stack.length
        = 0 := rfl
    rw [hk1, hs1] at hm1
    omega
  obtain ⟨stF, zF, hrun, RF, hsF⟩ :=
    cbLoop_run rfl hbd hndG hsym
      (graph.length + (graph.map List.length).sum) st1 0 R1 hm1b
  have hok1b : processNeighbors
      { (⟨[0], [(0, 0)], [(0, [])], []⟩ : CBState) with stack := [] } 0
      (adjRow graph 0) = .ok st1 := hok1
  have hcb : cycleBasis graph = .ok stF.cycles := by
    show cbLoop graph (graph.length + (graph.map List.length).sum + 1)
      ⟨[0], [(0, 0)], [(0, [])], []⟩ = .ok stF.cycles
    simp only [cbLoop, hrow0, hok1b]
    exact hrun
  have hkeysAll : ∀ v, v < graph.length → v ∈ keysOf stF := fun v hv =>
    final_keys_complete RF hsF (reachIter_sound _ v (hconn v hv))
  refine ⟨stF.cycles, hcb, ?_, fun c hc => RF.cyclesGood c hc, ?_⟩
  · have hperm : (keysOf stF).Perm (List.range graph.length) :=
      perm_of_nodup_mem_iff RF.keysNd (List.nodup_range _) (fun x =>
        ⟨fun hx => List.mem_range.2 (RF.keysBd x hx),
         fun hx => hkeysAll x (List.mem_range.1 hx)⟩)
    have hKlen : (keysOf stF).length = graph.length := by
      simpa using hperm.length_eq
    have hzfn : zF < graph.length := RF.hz
    have hupdate : ∀ f : Nat → Nat,
        sumBy (List.range graph.length) f =
          sumBy (poppedNZ graph.length stF zF) f + f zF := by
      intro f
      have hft : (List.range graph.length).filter (fun _ => true) =
          List.range graph.length := List.filter_true _
      rw [← hft]
      unfold poppedNZ
      refine sumBy_filter_update (List.nodup_range _)
        (List.mem_range.2 hzfn) _ _ f ?_ rfl ?_
      · simp
      · intro x hx hxzf
        have hxn : x < graph.length := List.mem_range.1 hx
        refine decide_eq_true ?_
        exact ⟨⟨hkeysAll x hxn, by rw [hsF]; exact List.not_mem_nil x⟩,
          hxzf⟩
    have hcnt := RF.cnt
    have hcp : List.countP (fun w => decide (w ∈ usedSet stF zF))
        (adjRow graph zF) = (usedSet stF zF).length := by
      refine countP_mem_eq_length (hndG zF RF.hz)
        (RF.usedGood zF _ (keysOf_lookup RF.zKey)).1 ?_
      intro w hw
      obtain ⟨hk, hadj, hne⟩ :=
        (RF.usedGood zF _ (keysOf_lookup RF.zKey)).2 w hw
      exact (hsym w (RF.keysBd w hk) zF RF.hz).1 hadj
    rw [hcp] at hcnt
    have h1 := hupdate (fun x => (adjRow graph x).length)
    have h2u := hupdate (fun x => (usedSet stF x).length)
    have h3 := hupdate (selfInd graph)
    have hd := RF.dsum
    have hut : usedTotal stF.used =
        sumBy (List.range graph.length)
          (fun x => (usedSet stF x).length) := by
      have he := usedTotal_eq_sumBy stF.used RF.keysNd
      rw [he]
      exact sumBy_perm hperm _
    rw [sumBy_range_rows] at h1
    have hse : (List.range graph.length).countP
        (fun x => decide (x ∈ adjRow graph x)) =
        sumBy (List.range graph.length) (selfInd graph) :=
      countP_eq_sumBy_ind _ _
    have hzfself : (if zF ∈ adjRow graph zF then 1 else 0) =
        selfInd graph zF := rfl
    rw [hzfself] at hd
    rw [hse]
    omega
  · intro x hx hxself
    have hxkey : x ∈ keysOf stF := hkeysAll x hx
    by_cases hxzf : x = zF
    · subst hxzf
      exact RF.selfZ hxself
    · exact RF.selfCyc x
        ⟨hxkey, by rw [hsF]; exact List.not_mem_nil x⟩ hxzf hxself

/-- Witness for C8: the triangle, with all hypotheses checked on the
concrete input; the amended theorem yields the basis facts. -/
theorem cycleBasis_paton_witness :
    (0 < ([[1, 2], [0, 2], [0, 1]] : List (List Nat)).length ∧
      ∀ v, v < ([[1, 2], [0, 2], [0, 1]] : List (List Nat)).length →
        v ∈ reachList [[1, 2], [0, 2], [0, 1]]) ∧
    ∃ cs, cycleBasis [[1, 2], [0, 2], [0, 1]] = .ok cs ∧
      2 * cs.length +
        2 * (([[1, 2], [0, 2], [0, 1]] : List (List Nat)).length - 1) =
        (([[1, 2], [0, 2], [0, 1]] : List (List Nat)).map
          List.length).sum +
          (List.range
            ([[1, 2], [0, 2], [0, 1]] : List (List Nat)).length).countP
            (fun x => decide (x ∈ adjRow [[1, 2], [0, 2], [0, 1]] x)) ∧
      (∀ c ∈ cs, c.Nodup ∧ ClosedWalk [[1, 2], [0, 2], [0, 1]] c) ∧
      (∀ x, x < ([[1, 2], [0, 2], [0, 1]] : List (List Nat)).length →
        x ∈ adjRow [[1, 2], [0, 2], [0, 1]] x → [x] ∈ cs) :=
  ⟨⟨by decide, by decide⟩,
    cycleBasis_paton [[1, 2], [0, 2], [0, 1]] (by decide) (by decide)
      (by decide) (by decide) (by decide)⟩

end BevySnake
